import Mathlib

/-!
# A shallow embedding of the `vptree` crate (`src/vptree.rs`) in Lean 4

This file models the vantage-point tree of `src/vptree.rs` (the flat
dual-array implementation with `leaf_size` / `decrementation_point`
index arithmetic) and proves or refutes the specification claims about
it.

Modelling conventions:

* `Item` is an arbitrary type `α`; `Distance` is `ℕ∞` (`WithTop ℕ`),
  a totally ordered type with a maximum sentinel `⊤` (the model of
  `Distance::max_value()`) and truncated subtraction (the model of the
  `Sub` bound used only for the pruning gaps `radius - distance` and
  `distance - radius`).
* `usize` arithmetic is `ℕ` arithmetic, with every subtraction that can
  underflow, every `unwrap`, every slice indexing and every slicing
  range modelled by an explicit check: functions return `Option`, and
  `none` models a run that panics under the crate's own test
  configuration (a debug build, where integer underflow aborts).
  `FLAT_ARRAY_SIZE` is fixed to `3`, its debug value.
* `select_nth_unstable_by(k, cmp)` with the crate's comparator
  (`Less` iff `a.1 < b.1`, never `Equal`) rearranges the slice so that
  positions `< k` hold distances `≤` the element at `k` and positions
  `> k` hold distances `≥` it; ties may go either way.  We model one
  deterministic behaviour in that envelope: a stable insertion sort by
  distance.  The same sort models `sort_by` with the same comparator.
* Every loop is modelled by structural recursion.  The two builder
  loops recurse on the exact number of nodes still to be emitted, which
  is how the `while nodes.len() < capacity` loops terminate.  The query
  loops take a fuel argument; the chosen fuel `2 ^ (depth + 2)` strictly
  dominates the number of loop steps on any tree built by this code
  (each step strictly decreases the measure proved below), so the model
  agrees with the Rust loops, which need no fuel.
-/

namespace VPT

/-- `Distance`: totally ordered with maximum sentinel `⊤` and truncated
subtraction, the model of the crate's `Distance: PartialOrd + Bounded + Sub`. -/
abbrev Dist := ℕ∞

/-- Stable insertion of `x` into a list sorted by the key `key`
(`x` goes after existing elements with an equal key). -/
def insKey {β : Type*} (key : β → Dist) (x : β) : List β → List β
  | [] => [x]
  | y :: ys => if key y ≤ key x then y :: insKey key x ys else x :: y :: ys

/-- Stable insertion sort by the key `key`: the deterministic model (see the
file comment) of `select_nth_unstable_by` / `sort_by` with the crate's
comparator `if a.1 < b.1 { Less } else { Greater }`. -/
def sortKey {β : Type*} (key : β → Dist) : List β → List β
  | [] => []
  | x :: xs => insKey key x (sortKey key xs)

/-- `usize::is_power_of_two` (true on `1, 2, 4, …`, false on `0`). -/
def isPow2 (n : ℕ) : Bool := (List.range (n + 1)).any (fun k => n == 2 ^ k)

/-- Least `k` with `m ≤ 2 ^ k`, by structural recursion on a fuel that
dominates the recursion depth. -/
def clog2up : ℕ → ℕ → ℕ
  | 0, _ => 0
  | f + 1, m => if m ≤ 1 then 0 else clog2up f ((m + 1) / 2) + 1

/-- `FLAT_ARRAY_SIZE`: the target leaf width; `3` in a debug build (the
configuration the crate's own tests run under). -/
def FLAT_ARRAY_SIZE : ℕ := 3

/-- The tree depth computed by
`((items.len() + 1) as f32 / (FLAT_ARRAY_SIZE + 1) as f32).log2().ceil() as usize`:
for the sizes at hand the `f32` computation is exact (division by the power
of two `4` and `log2` at powers of two are exact; the cast of a negative
result saturates to `0`), so this is the least `k` with `n + 1 ≤ 4 * 2 ^ k`. -/
def depthFor (n : ℕ) : ℕ := clog2up (n + 1) ((n + 4) / 4)

/-- `Node` of `src/vptree.rs`. -/
structure Node (α : Type*) where
  vantage_point : α
  radius : Dist

/-- `VPTree` of `src/vptree.rs`.  The `DistanceCalculator` field is the
stored closure. -/
structure VPTree (α : Type*) where
  distance_calculator : α → α → Dist
  nodes : List (Node α)
  leaves : List α
  leaf_size : ℕ
  decrementation_point : ℕ
  depth : ℕ

/-- One body of the builder loops (shared verbatim between `VPTree::new` and
`VPTree::rebalance`): pop a slice, take its last element as vantage point,
recompute all distances to it, pick `split_point = min(len - lo, hi)`,
partition at the element whose distance is the `split_point`-th smallest
(that distance is the radius; the element itself lands in the far part),
and emit the node.  `none` models a panic: `split_last` on an empty slice,
the debug underflow of `items.len() - ideal_size_low`, or
`select_nth_unstable_by` / `items[split_point]` with `split_point` out of
bounds. -/
def splitStep {α : Type*} (dc : α → α → Dist) (lo hi : ℕ) (sl : List (α × Dist)) :
    Option ((α × Dist) × List (α × Dist) × List (α × Dist)) :=
  match sl.getLast? with
  | none => none
  | some vp =>
    let its := sl.dropLast
    if lo ≤ its.length then
      let sp := min (its.length - lo) hi
      let its := its.map (fun p => (p.1, dc vp.1 p.1))
      let sorted := sortKey (fun p => p.2) its
      match sorted.get? sp with
      | none => none
      | some m => some ((vp.1, m.2), sorted.take sp, sorted.drop sp)
    else none

/-- The `while nodes.len() < nodes.capacity()` loop of `VPTree::new`,
recursing on the number of nodes still to be emitted.  At the start of an
iteration whose queue length is a power of two both ideal sizes are halved
(`(x - 1) / 2`, a debug underflow when `x = 0`).  `none` also models the
`queue.pop_front().unwrap()` panic on an empty queue. -/
def buildLoop {α : Type*} (dc : α → α → Dist) :
    ℕ → List (List (α × Dist)) → ℕ → ℕ → List (α × Dist) →
    Option (List (α × Dist) × List (List (α × Dist)))
  | 0, queue, _, _, acc => some (acc, queue)
  | k + 1, queue, lo0, hi0, acc =>
    let halve := isPow2 queue.length
    if halve ∧ (lo0 = 0 ∨ hi0 = 0) then none
    else
      let lo := if halve then (lo0 - 1) / 2 else lo0
      let hi := if halve then (hi0 - 1) / 2 else hi0
      match queue with
      | [] => none
      | sl :: rest =>
        match splitStep dc lo hi sl with
        | none => none
        | some (nd, near, far) =>
          buildLoop dc k (rest ++ [near, far]) lo hi (acc ++ [⟨nd.1, nd.2⟩])

/-- `VPTree::new(items, distance_calculator)`.  `none` models the panic of a
debug build on `leaf_size - 1` when `items` is empty (then `leaf_size = 0`),
or any panic inside the loop. -/
def VPTree.new {α : Type*} (items : List α) (dc : α → α → Dist) :
    Option (VPTree α) :=
  let itemsD : List (α × Dist) := items.map (fun i => (i, (⊤ : Dist)))
  let depth := depthFor items.length
  let leaves_len := 2 ^ depth
  let nodes_len := leaves_len - 1
  let leaf_size := items.length / leaves_len
  if leaf_size = 0 then none
  else
    let ideal_size_low := nodes_len + leaves_len * (leaf_size - 1)
    let ideal_size_high := nodes_len + leaves_len * leaf_size
    if ideal_size_low ≤ items.length then
      let decrementation_point := items.length - ideal_size_low
      match buildLoop dc nodes_len [itemsD] ideal_size_low ideal_size_high [] with
      | none => none
      | some (nodes, queue) =>
        some ⟨dc, nodes.map (fun p => ⟨p.1, p.2⟩),
          (queue.map (fun sl => sl.map Prod.fst)).flatten,
          leaf_size, decrementation_point, depth⟩
    else none

/-- The loop of `VPTree::rebalance`: same body as `buildLoop`, but the state
tracks `(ideal_size, level)` and the upper split bound is
`ideal_size + 2 ^ (depth - level)` (`depth - level` is a debug underflow
when `level > depth`). -/
def rebalanceLoop {α : Type*} (dc : α → α → Dist) (depth : ℕ) :
    ℕ → List (List (α × Dist)) → ℕ → ℕ → List (α × Dist) →
    Option (List (α × Dist) × List (List (α × Dist)))
  | 0, queue, _, _, acc => some (acc, queue)
  | k + 1, queue, isize0, level0, acc =>
    let halve := isPow2 queue.length
    if halve ∧ isize0 = 0 then none
    else
      let isize := if halve then (isize0 - 1) / 2 else isize0
      let level := if halve then level0 + 1 else level0
      if level ≤ depth then
        match queue with
        | [] => none
        | sl :: rest =>
          match splitStep dc isize (isize + 2 ^ (depth - level)) sl with
          | none => none
          | some (nd, near, far) =>
            rebalanceLoop dc depth k (rest ++ [near, far]) isize level (acc ++ [⟨nd.1, nd.2⟩])
      else none

/-- `VPTree::rebalance`: drain the nodes (in order) and then the leaves into
one item list, recompute `depth` and `leaf_size`
(`((len - nodes_len) as f32 / leaves_len as f32).ceil()`, exact for these
sizes), rerun the builder, and find `decrementation_point` as the index of
the first final slice shorter than `leaf_size` (defaulting to the number of
leaf slices). -/
def VPTree.rebalance {α : Type*} (t : VPTree α) : Option (VPTree α) :=
  let items : List (α × Dist) :=
    (t.nodes.map (fun nd => (nd.vantage_point, (⊤ : Dist)))) ++
      (t.leaves.map (fun i => (i, (⊤ : Dist))))
  let depth := depthFor items.length
  let leaves_len := 2 ^ depth
  let nodes_len := leaves_len - 1
  if nodes_len ≤ items.length then
    let leaf_size := (items.length - nodes_len + (leaves_len - 1)) / leaves_len
    if leaf_size = 0 then none
    else
      let ideal_size := nodes_len + (nodes_len + 1) * (leaf_size - 1)
      match rebalanceLoop t.distance_calculator depth nodes_len [items] ideal_size 0 [] with
      | none => none
      | some (nodes, queue) =>
        let dp := ((queue.findIdx? (fun leaf => leaf.length < leaf_size)).getD leaves_len)
        some ⟨t.distance_calculator, nodes.map (fun p => ⟨p.1, p.2⟩),
          (queue.map (fun sl => sl.map Prod.fst)).flatten,
          leaf_size, dp, depth⟩
  else none

/-- `VPTree::insert`: push onto `leaves`, then rebalance immediately. -/
def VPTree.insert {α : Type*} (t : VPTree α) (item : α) : Option (VPTree α) :=
  VPTree.rebalance { t with leaves := t.leaves ++ [item] }

/-- `VPTree::extend`: extend `leaves`, then rebalance immediately. -/
def VPTree.extend {α : Type*} (t : VPTree α) (items : List α) : Option (VPTree α) :=
  VPTree.rebalance { t with leaves := t.leaves ++ items }

/-- `VPTree::len`. -/
def VPTree.len {α : Type*} (t : VPTree α) : ℕ :=
  t.nodes.length + t.leaves.length

/-! ## The query engine

The three query methods of `src/vptree.rs` are textual copies of one
branch-and-bound loop (spec §4.2: "one branch-and-bound traversal core
driving three entry points") differing only in the per-operation
acceptance policy (what a candidate `(position, distance)` does to the
accumulator, type `σ`) and in the re-entry test applied to a popped
boundary gap.  We model the shared loop once, parametrised by
`consider : ℕ → Dist → σ → Option σ` and `reenter : σ → Dist → Option Bool`
(`none` models a panic inside the policy, which `find_k_nearest_neighbors`
can actually hit), and instantiate it three times with policies copied
from the respective Rust bodies. -/

/-- Start and width, inside `leaves`, of leaf group `g`: the crate's
index arithmetic `g * leaf_size` for the first `decrementation_point`
groups and `dp * leaf_size + (g - dp) * (leaf_size - 1)` (width
`leaf_size - 1`) for the rest. -/
def VPTree.leafSpan {α : Type*} (t : VPTree α) (g : ℕ) : ℕ × ℕ :=
  if g < t.decrementation_point then (g * t.leaf_size, t.leaf_size)
  else (t.decrementation_point * t.leaf_size +
          (g - t.decrementation_point) * (t.leaf_size - 1),
        t.leaf_size - 1)

/-- Offer every item of a leaf slice beginning at absolute leaf offset
`st` to the acceptance policy; the position encoded for entry `i` of the
slice is `st + i + nodes.len()`, exactly the crate's
`index + inner_index + self.nodes.len()`. -/
def scanSlice {α σ : Type*} (dc : α → α → Dist) (needle : α) (nlen : ℕ)
    (consider : ℕ → Dist → σ → Option σ) (st : ℕ) :
    List α → ℕ → σ → Option σ
  | [], _, s => some s
  | x :: xs, i, s =>
    match consider (st + i + nlen) (dc needle x) s with
    | none => none
    | some s' => scanSlice dc needle nlen consider st xs (i + 1) s'

/-- Resolve leaf group `g` via the layout scalars and scan it.
`none` models the panics of the corresponding Rust block: the debug
underflow of `leaf_size - 1` when `leaf_size = 0`, or slicing
`self.leaves[start..start + width]` beyond the end of `leaves`. -/
def VPTree.scanLeaf {α σ : Type*} (t : VPTree α) (needle : α)
    (consider : ℕ → Dist → σ → Option σ) (g : ℕ) (s : σ) : Option σ :=
  if t.leaf_size = 0 ∧ ¬ g < t.decrementation_point then none
  else
    let sp := t.leafSpan g
    if sp.1 + sp.2 ≤ t.leaves.length then
      scanSlice t.distance_calculator needle t.nodes.length consider sp.1
        ((t.leaves.drop sp.1).take sp.2) 0 s
    else none

mutual

/-- The outer `while let Some(node) = …` loop at current position `index`:
visiting a node offers its vantage point to the policy, then descends into
the child on the needle's side of the boundary and pushes the other child
with the boundary gap; reaching a leaf position scans its group and falls
through to the pop loop.  Fuel-indexed; the fuel chosen by the entry
points strictly dominates the step count on built trees. -/
def travGo {α σ : Type*} (t : VPTree α) (needle : α)
    (consider : ℕ → Dist → σ → Option σ) (reenter : σ → Dist → Option Bool) :
    ℕ → ℕ → σ → List (ℕ × Dist) → Option σ
  | 0, _, _, _ => none
  | fuel + 1, index, s, stack =>
    match t.nodes.get? index with
    | some nd =>
      let dd := t.distance_calculator needle nd.vantage_point
      match consider index dd s with
      | none => none
      | some s' =>
        if dd < nd.radius then
          travGo t needle consider reenter fuel (2 * index + 1) s'
            ((2 * index + 2, nd.radius - dd) :: stack)
        else
          travGo t needle consider reenter fuel (2 * index + 2) s'
            ((2 * index + 1, dd - nd.radius) :: stack)
    | none =>
      match t.scanLeaf needle consider (index - t.nodes.length) s with
      | none => none
      | some s' => travPop t needle consider reenter fuel s' stack

/-- The inner `loop { … unexplored.pop() … }`: pop a boundary; if the
re-entry test passes and it is a node position, resume the outer loop
there; if it is a leaf position, scan it and keep popping; if the test
fails, discard it; an empty stack ends the traversal. -/
def travPop {α σ : Type*} (t : VPTree α) (needle : α)
    (consider : ℕ → Dist → σ → Option σ) (reenter : σ → Dist → Option Bool) :
    ℕ → σ → List (ℕ × Dist) → Option σ
  | 0, _, _ => none
  | fuel + 1, s, [] => some s
  | fuel + 1, s, (pi, gap) :: rest =>
    match reenter s gap with
    | none => none
    | some b =>
      if b then
        match t.nodes.get? pi with
        | some _ => travGo t needle consider reenter fuel pi s rest
        | none =>
          match t.scanLeaf needle consider (pi - t.nodes.length) s with
          | none => none
          | some s' => travPop t needle consider reenter fuel s' rest
      else travPop t needle consider reenter fuel s rest

end

/-- Position-to-item lookup used by all three result-extraction blocks:
`nodes[i].vantage_point` for node positions, `leaves[i - nodes.len()]`
otherwise (`none` models the out-of-bounds panic). -/
def VPTree.itemAt {α : Type*} (t : VPTree α) (i : ℕ) : Option α :=
  if i < t.nodes.length then (t.nodes.get? i).map Node.vantage_point
  else t.leaves.get? (i - t.nodes.length)

/-- The fuel passed to the traversal by the three entry points. -/
def VPTree.fuel {α : Type*} (t : VPTree α) : ℕ := 2 ^ (t.depth + 2)

/-- Acceptance policy of `find_nearest_neighbor`: keep one
`(distance, position)`, replaced on strictly smaller distance. -/
def nearestConsider (i : ℕ) (dd : Dist) (s : Dist × ℕ) : Option (Dist × ℕ) :=
  some (if dd < s.1 then (dd, i) else s)

/-- Re-entry test of `find_nearest_neighbor`:
`nearest_neighbors_distance > distance_to_boundary`. -/
def nearestReenter (s : Dist × ℕ) (gap : Dist) : Option Bool :=
  some (decide (gap < s.1))

/-- `VPTree::find_nearest_neighbor`.  The outer `Option` models panics
(never hit on built trees, as proved below); the inner `Option` is the
Rust return value: `none` when the best distance never moved below the
`Distance::max_value()` sentinel. -/
def VPTree.find_nearest_neighbor {α : Type*} (t : VPTree α) (needle : α) :
    Option (Option (Dist × α)) :=
  match travGo t needle nearestConsider nearestReenter t.fuel 0 ((⊤ : Dist), 0) [] with
  | none => none
  | some (bd, bi) =>
    if bd < (⊤ : Dist) then (t.itemAt bi).map (fun x => some (bd, x))
    else some none

/-- `consider_item` of `find_k_nearest_neighbors` (capacity `k`): push while
below capacity, sorting by distance on first reaching it; at capacity,
a candidate strictly closer than the current worst (last) entry evicts it
and is inserted at the position `binary_search_by` finds — the first index
whose entry's distance is not strictly smaller, i.e. before any tied
entries.  `none` models the `last().unwrap()` panic on an empty
`nearest_neighbors` vector, which is reachable when `k = 0`. -/
def considerItem (k : ℕ) (i : ℕ) (dd : Dist) (nn : List (Dist × ℕ)) :
    Option (List (Dist × ℕ)) :=
  if nn.length < k then
    let nn' := nn ++ [(dd, i)]
    some (if nn'.length = k then sortKey (fun p => p.1) nn' else nn')
  else
    match nn.getLast? with
    | none => none
    | some last =>
      if dd < last.1 then some (insBefore (dd, i) nn.dropLast) else some nn
where
  /-- Insert before the first entry with distance `≥` the new one. -/
  insBefore (p : Dist × ℕ) : List (Dist × ℕ) → List (Dist × ℕ)
    | [] => [p]
    | q :: qs => if q.1 < p.1 then q :: insBefore p qs else p :: q :: qs

/-- Re-entry test of `find_k_nearest_neighbors`:
`nearest_neighbors.last().unwrap().0 > gap || nearest_neighbors.len() < capacity`;
the unconditional `last().unwrap()` panics on an empty candidate vector. -/
def knnReenter (k : ℕ) (nn : List (Dist × ℕ)) (gap : Dist) : Option Bool :=
  match nn.getLast? with
  | none => none
  | some last => some (decide (gap < last.1) || decide (nn.length < k))

/-- `VPTree::find_k_nearest_neighbors`. -/
def VPTree.find_k_nearest_neighbors {α : Type*} (t : VPTree α) (needle : α)
    (k : ℕ) : Option (List (Dist × α)) :=
  match travGo t needle (considerItem k) (knnReenter k) t.fuel 0 [] [] with
  | none => none
  | some nn => nn.mapM (fun p => (t.itemAt p.2).map (fun x => (p.1, x)))

/-- Acceptance policy of `find_neighbors_within_radius`: collect every
candidate with distance `≤ threshold`. -/
def radiusConsider (threshold : Dist) (i : ℕ) (dd : Dist)
    (acc : List (Dist × ℕ)) : Option (List (Dist × ℕ)) :=
  some (if dd ≤ threshold then acc ++ [(dd, i)] else acc)

/-- Re-entry test of `find_neighbors_within_radius`:
`threshold >= distance_to_boundary`. -/
def radiusReenter (threshold : Dist) (_acc : List (Dist × ℕ)) (gap : Dist) :
    Option Bool :=
  some (decide (gap ≤ threshold))

/-- `VPTree::find_neighbors_within_radius`: collect, then sort ascending by
distance, then resolve positions to items. -/
def VPTree.find_neighbors_within_radius {α : Type*} (t : VPTree α)
    (needle : α) (threshold : Dist) : Option (List (Dist × α)) :=
  match travGo t needle (radiusConsider threshold) (radiusReenter threshold)
      t.fuel 0 [] [] with
  | none => none
  | some acc =>
    (sortKey (fun p => p.1) acc).mapM
      (fun p => (t.itemAt p.2).map (fun x => (p.1, x)))

/-! ## Specification-side definitions -/

/-- All items stored in the tree: the vantage points (in node order)
followed by the leaf array. -/
def treeItems {α : Type*} (t : VPTree α) : List α :=
  t.nodes.map Node.vantage_point ++ t.leaves

/-- The layout invariant of the dual-array representation: the node array
is a complete implicit binary tree of `2 ^ depth - 1` nodes, and the leaf
array consists of `decrementation_point` leading groups of width
`leaf_size` followed by groups of width `leaf_size - 1`. -/
def Layout {α : Type*} (t : VPTree α) : Prop :=
  t.nodes.length = 2 ^ t.depth - 1 ∧
  1 ≤ t.leaf_size ∧
  1 ≤ t.decrementation_point ∧
  t.decrementation_point ≤ 2 ^ t.depth ∧
  t.leaves.length = t.decrementation_point * t.leaf_size +
    (2 ^ t.depth - t.decrementation_point) * (t.leaf_size - 1) ∧
  (t.depth = 0 ∨ 2 ≤ t.leaf_size)

/-- Fuel-indexed worker for `subItems` (structural recursion, so that it
evaluates on concrete trees); any fuel `≥ nodes.length - i` gives the same
value. -/
def subItemsGo {α : Type*} (t : VPTree α) : ℕ → ℕ → List α
  | 0, _ => []
  | fuel + 1, i =>
    if h : i < t.nodes.length then
      (t.nodes.get ⟨i, h⟩).vantage_point ::
        (subItemsGo t fuel (2 * i + 1) ++ subItemsGo t fuel (2 * i + 2))
    else
      let sp := t.leafSpan (i - t.nodes.length)
      (t.leaves.drop sp.1).take sp.2

/-- Items stored in the subtree rooted at implicit position `i`: for a node
position, its vantage point plus the near (`2i+1`) and far (`2i+2`)
subtrees; for a leaf position, the leaf group addressed by the layout
scalars. -/
def subItems {α : Type*} (t : VPTree α) (i : ℕ) : List α :=
  subItemsGo t (t.nodes.length + 1) i

/-- The partition invariant: each node's near subtree holds only items at
distance `≤ radius` from its vantage point, its far subtree only items at
distance `≥ radius`. -/
def PartOK {α : Type*} (t : VPTree α) : Prop :=
  ∀ i, (h : i < t.nodes.length) →
    (∀ x ∈ subItems t (2 * i + 1),
      t.distance_calculator (t.nodes.get ⟨i, h⟩).vantage_point x ≤
        (t.nodes.get ⟨i, h⟩).radius) ∧
    (∀ x ∈ subItems t (2 * i + 2),
      (t.nodes.get ⟨i, h⟩).radius ≤
        t.distance_calculator (t.nodes.get ⟨i, h⟩).vantage_point x)

/-- Candidate positions (as encoded by the queries: node index, or
`leaf_offset + nodes.len()`) contained in the subtree at position `i`. -/
def posItems {α : Type*} (t : VPTree α) : ℕ → List ℕ := fun i =>
  if i < t.nodes.length then
    i :: (posItems t (2 * i + 1) ++ posItems t (2 * i + 2))
  else
    let sp := t.leafSpan (i - t.nodes.length)
    (List.range sp.2).map (fun j => sp.1 + j + t.nodes.length)
termination_by i => t.nodes.length - i
decreasing_by
  · omega
  · omega

/-- The needle's distance to the item at position `p` (`⊤` off the tree). -/
def VPTree.pdist {α : Type*} (t : VPTree α) (needle : α) (p : ℕ) : Dist :=
  match t.itemAt p with
  | some x => t.distance_calculator needle x
  | none => ⊤

/-- Number of implicit tree positions in the subtree at `i`, the index
space being `[0, b)`: the termination measure of the traversal. -/
def psize (b : ℕ) : ℕ → ℕ := fun i =>
  if i < b then psize b (2 * i + 1) + psize b (2 * i + 2) + 1 else 0
termination_by i => b - i
decreasing_by
  · omega
  · omega

/-- The traversal measure: every loop step of the query engine strictly
decreases it. -/
def travMeasure {α : Type*} (t : VPTree α) (index : ℕ)
    (stack : List (ℕ × Dist)) : ℕ :=
  2 * (psize (2 * t.nodes.length + 1) index +
    (stack.map (fun e => psize (2 * t.nodes.length + 1) e.1)).sum) +
    stack.length

/-- Level (root = `0`) of implicit tree position `p`. -/
def lvl (p : ℕ) : ℕ := Nat.log 2 (p + 1)

/-- The slice of (item, last-computed-distance) pairs that the builder
assigns to implicit position `p`, defined top-down: position `0` receives
the full input, and the two children of a processed position receive the
near and far parts of its split.  Both builder loops process positions in
queue (breadth-first) order and use exactly these splits, as proved below. -/
def posSlice {α : Type*} (dc : α → α → Dist) (d ls : ℕ)
    (inp : List (α × Dist)) : ℕ → Option (List (α × Dist))
  | 0 => some inp
  | p + 1 =>
    let parent := p / 2
    match posSlice dc d ls inp parent with
    | none => none
    | some sl =>
      match splitStep dc (2 ^ (d - lvl parent - 1) * ls - 1)
          (2 ^ (d - lvl parent - 1) * (ls + 1) - 1) sl with
      | none => none
      | some r => if (p + 1) % 2 = 1 then some r.2.1 else some r.2.2
termination_by p => p
decreasing_by omega

/-- The `(vantage_point, radius)` pair the builder emits when processing
position `p`. -/
def posNode {α : Type*} (dc : α → α → Dist) (d ls : ℕ)
    (inp : List (α × Dist)) (p : ℕ) : Option (α × Dist) :=
  match posSlice dc d ls inp p with
  | none => none
  | some sl =>
    (splitStep dc (2 ^ (d - lvl p - 1) * ls - 1)
      (2 ^ (d - lvl p - 1) * (ls + 1) - 1) sl).map (fun r => r.1)

/-- The number of leading leaf groups of the larger width, as determined
by the arithmetic of `VPTree::new`. -/
def dpArith (n d ls : ℕ) : ℕ := n + 1 - 2 ^ d * ls

/-- Intended width of the slice at height `h` above the leaf level whose
leftmost leaf group is `g0` (`d`, `ls`, `dp` as in the layout). -/
def szSpec (ls dp h g0 : ℕ) : ℕ := 2 ^ h * ls - 1 + min (dp - g0) (2 ^ h)

/-- The `ideal_size_low` value held by the builder loop state when it is
about to start iteration `m` (iterations are numbered by the position they
process); instantiating `ls` with `ls + 1` gives the `ideal_size_high`
state of `VPTree::new`. -/
def loState (d ls m : ℕ) : ℕ :=
  if m = 0 then 2 ^ d * ls - 1 else 2 ^ (d - 1 - Nat.log 2 m) * ls - 1

/-- The `level` counter held by `VPTree::rebalance`'s loop state when it is
about to start iteration `m`. -/
def levelState (m : ℕ) : ℕ :=
  if m = 0 then 0 else Nat.log 2 m + 1

/-- Everything both builders guarantee about the tree they produce from the
working list `inp` (items paired with scratch distances): the scalar ranges,
that the node array holds the per-position builder nodes in order, and that
the leaf array is the concatenation of the per-position leaf slices, each
addressable through `leafSpan`. -/
def BuiltRaw {α : Type*} (t : VPTree α) (inp : List (α × Dist)) : Prop :=
  1 ≤ t.leaf_size ∧
  (t.depth = 0 ∨ 2 ≤ t.leaf_size) ∧
  2 ^ t.depth * t.leaf_size ≤ inp.length ∧
  inp.length < 2 ^ t.depth * (t.leaf_size + 1) ∧
  t.decrementation_point = inp.length + 1 - 2 ^ t.depth * t.leaf_size ∧
  t.nodes.length = 2 ^ t.depth - 1 ∧
  (∀ q, q < t.nodes.length →
    (posNode t.distance_calculator t.depth t.leaf_size inp q).map
      (fun nd => (⟨nd.1, nd.2⟩ : Node α)) = t.nodes.get? q) ∧
  (∀ g, g < 2 ^ t.depth → ∃ sl,
    posSlice t.distance_calculator t.depth t.leaf_size inp
      (2 ^ t.depth - 1 + g) = some sl ∧
    (t.leaves.drop (t.leafSpan g).1).take (t.leafSpan g).2 = sl.map Prod.fst) ∧
  t.leaves.length = t.decrementation_point * t.leaf_size +
    (2 ^ t.depth - t.decrementation_point) * (t.leaf_size - 1)

/-- Trees reachable through the public constructors and mutators. -/
inductive Reach {α : Type*} : VPTree α → Prop
  | base (items : List α) (dc : α → α → Dist) (t : VPTree α) :
      VPTree.new items dc = some t → Reach t
  | ins (t t' : VPTree α) (x : α) : Reach t → t.insert x = some t' → Reach t'
  | ext (t t' : VPTree α) (xs : List α) :
      Reach t → t.extend xs = some t' → Reach t'

/-- A mutation burst: any mix of `insert` and `extend` calls. -/
inductive Op (α : Type*) where
  | ins (x : α)
  | ext (xs : List α)

/-- Run a burst of mutations left to right. -/
def applyOps {α : Type*} (t : VPTree α) : List (Op α) → Option (VPTree α)
  | [] => some t
  | Op.ins x :: ops => (t.insert x).bind (fun t' => applyOps t' ops)
  | Op.ext xs :: ops => (t.extend xs).bind (fun t' => applyOps t' ops)

/-- Total number of items a burst of mutations adds. -/
def opsSize {α : Type*} : List (Op α) → ℕ
  | [] => 0
  | Op.ins _ :: ops => 1 + opsSize ops
  | Op.ext xs :: ops => xs.length + opsSize ops

/-- A metric into the distance type: identity of indiscernibles, symmetry
and the triangle inequality. -/
abbrev IsMetric {α : Type*} (dc : α → α → Dist) : Prop :=
  (∀ x, dc x x = 0) ∧ (∀ x y, dc x y = 0 → x = y) ∧
  (∀ x y, dc x y = dc y x) ∧ (∀ x y z, dc x z ≤ dc x y + dc y z)

/-- The `j` smallest entries of a distance list, in ascending order. -/
def kSmallest (j : ℕ) (l : List Dist) : List Dist :=
  (sortKey id l).take j

/-- The standard metric on `ℕ`, `|a - b|`, valued in `Dist`. -/
def dN (a b : ℕ) : Dist := ((max a b - min a b : ℕ) : ℕ∞)

/-- The standard metric on `Fin m`, used by concrete witnesses. -/
def dF {m : ℕ} (a b : Fin m) : Dist := dN a.val b.val

/-- A genuine metric on `Bool` taking only the values `0` and `⊤`
(the maximum sentinel): distinct points are infinitely far apart. -/
def dTopBool (a b : Bool) : Dist := if a = b then 0 else ⊤

/-! ## Basic lemmas: sorting -/

theorem insKey_perm {β : Type*} (key : β → Dist) (x : β) (l : List β) :
    (insKey key x l).Perm (x :: l) := by
  induction l with
  | nil => exact List.Perm.refl _
  | cons y ys ih =>
    unfold insKey
    by_cases h : key y ≤ key x
    · simp only [if_pos h]
      exact (ih.cons y).trans (List.Perm.swap x y ys)
    · simp only [if_neg h]
      exact List.Perm.refl _

theorem sortKey_perm {β : Type*} (key : β → Dist) (l : List β) :
    (sortKey key l).Perm l := by
  induction l with
  | nil => exact List.Perm.refl _
  | cons x xs ih => exact (insKey_perm key x _).trans (ih.cons x)

theorem sortKey_length {β : Type*} (key : β → Dist) (l : List β) :
    (sortKey key l).length = l.length :=
  (sortKey_perm key l).length_eq

theorem insKey_sorted {β : Type*} (key : β → Dist) (x : β) {l : List β}
    (h : l.Sorted (fun a b => key a ≤ key b)) :
    (insKey key x l).Sorted (fun a b => key a ≤ key b) := by
  induction l with
  | nil => simp [insKey]
  | cons y ys ih =>
    rw [List.sorted_cons] at h
    unfold insKey
    by_cases hyx : key y ≤ key x
    · simp only [if_pos hyx]
      rw [List.sorted_cons]
      refine ⟨?_, ih h.2⟩
      intro b hb
      rcases List.mem_cons.mp ((insKey_perm key x ys).mem_iff.mp hb) with hb1 | hb1
      · subst hb1; exact hyx
      · exact h.1 b hb1
    · simp only [if_neg hyx]
      rw [List.sorted_cons]
      refine ⟨?_, List.sorted_cons.mpr h⟩
      intro b hb
      rcases List.mem_cons.mp hb with hb1 | hb1
      · subst hb1; exact le_of_not_le hyx
      · exact le_trans (le_of_not_le hyx) (h.1 b hb1)

theorem sortKey_sorted {β : Type*} (key : β → Dist) (l : List β) :
    (sortKey key l).Sorted (fun a b => key a ≤ key b) := by
  induction l with
  | nil => simp [sortKey]
  | cons x xs ih => exact insKey_sorted key x ih

/-! ## Basic lemmas: depth arithmetic -/

theorem clog2up_le : ∀ f m, m ≤ f + 1 → m ≤ 2 ^ clog2up f m := by
  intro f
  induction f with
  | zero => intro m hm; interval_cases m <;> simp [clog2up]
  | succ f ih =>
    intro m hm
    unfold clog2up
    by_cases h1 : m ≤ 1
    · simp only [if_pos h1]
      simpa using h1
    · simp only [if_neg h1]
      have h2 : (m + 1) / 2 ≤ f + 1 := by omega
      have := ih _ h2
      have : m ≤ 2 * ((m + 1) / 2) := by omega
      calc m ≤ 2 * ((m + 1) / 2) := this
        _ ≤ 2 * 2 ^ clog2up f ((m + 1) / 2) := by
            have := ih _ h2; omega
        _ = 2 ^ (clog2up f ((m + 1) / 2) + 1) := by ring

theorem clog2up_min : ∀ f m j, m ≤ 2 ^ j → clog2up f m ≤ j := by
  intro f
  induction f with
  | zero => intro m j _; simp [clog2up]
  | succ f ih =>
    intro m j hj
    unfold clog2up
    by_cases h1 : m ≤ 1
    · simp [h1]
    · simp only [if_neg h1]
      match j with
      | 0 => simp at hj; omega
      | j + 1 =>
        have : (m + 1) / 2 ≤ 2 ^ j := by
          have : (2 : ℕ) ^ (j + 1) = 2 * 2 ^ j := by ring
          omega
        have := ih _ j this
        omega

theorem depthFor_le (n : ℕ) : n + 1 ≤ 4 * 2 ^ depthFor n := by
  have h := clog2up_le (n + 1) ((n + 4) / 4) (by omega)
  unfold depthFor
  omega

theorem depthFor_min (n j : ℕ) (hj : n + 1 ≤ 4 * 2 ^ j) : depthFor n ≤ j := by
  have : (n + 4) / 4 ≤ 2 ^ j := by omega
  exact clog2up_min _ _ _ this

/-- On a tree of positive depth the larger leaf width is at least `2`. -/
theorem ls_ge_two {n : ℕ} (hd : 1 ≤ depthFor n) : 2 ≤ n / 2 ^ depthFor n := by
  set d := depthFor n with hdef
  have hmin : ¬ (n + 1 ≤ 4 * 2 ^ (d - 1)) := by
    intro hcon
    have := depthFor_min n (d - 1) hcon
    omega
  have h4 : 4 * 2 ^ (d - 1) = 2 * 2 ^ d := by
    obtain ⟨e, he⟩ : ∃ e, d = e + 1 := ⟨d - 1, by omega⟩
    rw [he]
    simp only [Nat.add_sub_cancel, pow_succ]
    ring
  rw [Nat.le_div_iff_mul_le (Nat.pos_pow_of_pos d (by norm_num))]
  omega

theorem depthFor_zero_iff (n : ℕ) : depthFor n = 0 ↔ n ≤ 3 := by
  constructor
  · intro h
    have := depthFor_le n
    rw [h] at this; simpa using this
  · intro h
    have := depthFor_min n 0 (by simpa using by omega)
    omega

/-! ## Basic lemmas: powers of two -/

theorem isPow2_iff (n : ℕ) : isPow2 n = true ↔ ∃ k, n = 2 ^ k := by
  unfold isPow2
  rw [List.any_eq_true]
  constructor
  · rintro ⟨k, _, hk⟩
    exact ⟨k, by simpa using hk⟩
  · rintro ⟨k, hk⟩
    refine ⟨k, ?_, by simpa using hk⟩
    rw [List.mem_range]
    have : k < 2 ^ k := Nat.lt_two_pow k
    omega

/-! ## Basic lemmas: `subItems` unfolding -/

theorem subItemsGo_congr {α : Type*} (t : VPTree α) :
    ∀ fuel fuel' i, 1 ≤ fuel → t.nodes.length + 1 - i ≤ fuel →
      1 ≤ fuel' → t.nodes.length + 1 - i ≤ fuel' →
      subItemsGo t fuel i = subItemsGo t fuel' i := by
  intro fuel
  induction fuel with
  | zero => omega
  | succ fuel ih =>
    intro fuel' i _ hfi h1' hfi'
    match fuel', h1' with
    | fuel' + 1, _ =>
      unfold subItemsGo
      by_cases h : i < t.nodes.length
      · simp only [dif_pos h]
        have e1 : subItemsGo t fuel (2 * i + 1) = subItemsGo t fuel' (2 * i + 1) :=
          ih fuel' (2 * i + 1) (by omega) (by omega) (by omega) (by omega)
        have e2 : subItemsGo t fuel (2 * i + 2) = subItemsGo t fuel' (2 * i + 2) :=
          ih fuel' (2 * i + 2) (by omega) (by omega) (by omega) (by omega)
        rw [e1, e2]
      · simp only [dif_neg h]

theorem subItems_eq {α : Type*} (t : VPTree α) (i : ℕ) :
    subItems t i =
      if h : i < t.nodes.length then
        (t.nodes.get ⟨i, h⟩).vantage_point ::
          (subItems t (2 * i + 1) ++ subItems t (2 * i + 2))
      else
        (t.leaves.drop (t.leafSpan (i - t.nodes.length)).1).take
          (t.leafSpan (i - t.nodes.length)).2 := by
  have hstep : subItemsGo t (t.nodes.length + 1) i =
      if h : i < t.nodes.length then
        (t.nodes.get ⟨i, h⟩).vantage_point ::
          (subItemsGo t t.nodes.length (2 * i + 1) ++
            subItemsGo t t.nodes.length (2 * i + 2))
      else
        (t.leaves.drop (t.leafSpan (i - t.nodes.length)).1).take
          (t.leafSpan (i - t.nodes.length)).2 := rfl
  rw [subItems, hstep]
  by_cases h : i < t.nodes.length
  · simp only [dif_pos h]
    have e1 : subItemsGo t t.nodes.length (2 * i + 1) =
        subItemsGo t (t.nodes.length + 1) (2 * i + 1) :=
      subItemsGo_congr t _ _ _ (by omega) (by omega) (by omega) (by omega)
    have e2 : subItemsGo t t.nodes.length (2 * i + 2) =
        subItemsGo t (t.nodes.length + 1) (2 * i + 2) :=
      subItemsGo_congr t _ _ _ (by omega) (by omega) (by omega) (by omega)
    rw [e1, e2]
    rfl
  · simp only [dif_neg h]

/-! ## Builder: one split -/

theorem sorted_take_key_le {β : Type*} (key : β → Dist) (l : List β) (sp : ℕ)
    (hsp : sp < l.length) (hs : l.Sorted (fun a b => key a ≤ key b)) :
    ∀ x ∈ l.take sp, key x ≤ key (l.get ⟨sp, hsp⟩) := by
  intro x hx
  have hmem : l.get ⟨sp, hsp⟩ ∈ l.drop sp := by
    rw [List.drop_eq_get_cons hsp]
    exact List.mem_cons_self _ _
  exact hs.rel_of_mem_take_of_mem_drop hx hmem

theorem sorted_drop_key_ge {β : Type*} (key : β → Dist) (l : List β) (sp : ℕ)
    (hsp : sp < l.length) (hs : l.Sorted (fun a b => key a ≤ key b)) :
    ∀ x ∈ l.drop sp, key (l.get ⟨sp, hsp⟩) ≤ key x := by
  intro x hx
  have hd : l.drop sp = l.get ⟨sp, hsp⟩ :: l.drop (sp + 1) := List.drop_eq_get_cons hsp
  have hs2 : (l.drop sp).Sorted (fun a b => key a ≤ key b) :=
    hs.sublist (List.drop_sublist _ _)
  rw [hd] at hs2 hx
  rcases List.mem_cons.mp hx with h1 | h1
  · rw [h1]
  · exact (List.sorted_cons.mp hs2).1 x h1

theorem splitStep_spec {α : Type*} (dc : α → α → Dist) (ls dp h g0 : ℕ)
    (hls : 2 ≤ ls) (sl : List (α × Dist))
    (hlen : sl.length = szSpec ls dp (h + 1) g0) :
    ∃ vp r near far,
      splitStep dc (2 ^ h * ls - 1) (2 ^ h * (ls + 1) - 1) sl =
        some ((vp, r), near, far) ∧
      near.length = szSpec ls dp h g0 ∧
      far.length = szSpec ls dp h (g0 + 2 ^ h) ∧
      (sl.map Prod.fst).Perm (vp :: (near.map Prod.fst ++ far.map Prod.fst)) ∧
      (∀ pr ∈ near, pr.2 = dc vp pr.1 ∧ pr.2 ≤ r) ∧
      (∀ pr ∈ far, pr.2 = dc vp pr.1 ∧ r ≤ pr.2) := by
  have hA1 : 1 ≤ 2 ^ h := Nat.one_le_two_pow
  have hA2 : (2 : ℕ) ^ (h + 1) = 2 * 2 ^ h := by rw [pow_succ]; ring
  have hBA : 2 * 2 ^ h ≤ 2 ^ h * ls := by
    calc 2 * 2 ^ h = 2 ^ h * 2 := by ring
      _ ≤ 2 ^ h * ls := Nat.mul_le_mul_left _ hls
  have hB1 : (2 : ℕ) ^ (h + 1) * ls = 2 * (2 ^ h * ls) := by rw [hA2]; ring
  have he : min (dp - g0) (2 ^ (h + 1)) ≤ 2 ^ (h + 1) := Nat.min_le_right _ _
  unfold szSpec at hlen
  have hne : sl ≠ [] := by
    intro hc
    rw [hc] at hlen
    simp at hlen
    omega
  have hlast : sl.getLast? = some (sl.getLast hne) := List.getLast?_eq_getLast sl hne
  unfold splitStep
  rw [hlast]
  simp only
  have hitslen : sl.dropLast.length = sl.length - 1 := List.length_dropLast sl
  have hlo : 2 ^ h * ls - 1 ≤ sl.dropLast.length := by omega
  rw [if_pos hlo]
  set vp := sl.getLast hne with hvp
  set its := sl.dropLast with hits
  set its2 := its.map (fun p => (p.1, dc vp.1 p.1)) with hits2
  have hits2len : its2.length = its.length := List.length_map _ _
  set sorted := sortKey (fun p => p.2) its2 with hsorted
  have hsortlen : sorted.length = its2.length := sortKey_length _ _
  set e := min (dp - g0) (2 ^ (h + 1)) with hedef
  set sp := min (its.length - (2 ^ h * ls - 1)) (2 ^ h * (ls + 1) - 1) with hspdef
  have hsp : sp = 2 ^ h * ls - 1 + min e (2 ^ h) := by
    have h1 : 2 ^ h * (ls + 1) = 2 ^ h * ls + 2 ^ h := by ring
    omega
  have hsplt : sp < sorted.length := by omega
  have hget : sorted.get? sp = some (sorted.get ⟨sp, hsplt⟩) := List.get?_eq_get hsplt
  rw [hget]
  simp only
  refine ⟨vp.1, (sorted.get ⟨sp, hsplt⟩).2, sorted.take sp, sorted.drop sp,
    rfl, ?_, ?_, ?_, ?_, ?_⟩
  · rw [List.length_take]
    unfold szSpec
    omega
  · rw [List.length_drop]
    unfold szSpec
    have h1 : dp - (g0 + 2 ^ h) = dp - g0 - 2 ^ h := by omega
    omega
  · have h1 : (sorted.take sp ++ sorted.drop sp) = sorted := List.take_append_drop _ _
    have h2 : sorted.Perm its2 := sortKey_perm _ _
    have h3 : its2.map Prod.fst = its.map Prod.fst := by
      rw [hits2, List.map_map]
      rfl
    have h4 : sl.map Prod.fst = its.map Prod.fst ++ [vp.1] := by
      conv_lhs => rw [← List.dropLast_append_getLast hne]
      rw [List.map_append]
      rfl
    rw [h4]
    have h5 : (sorted.take sp).map Prod.fst ++ (sorted.drop sp).map Prod.fst =
        sorted.map Prod.fst := by
      rw [← List.map_append, h1]
    refine (List.perm_append_singleton _ _).trans (List.Perm.cons _ ?_)
    rw [← h3, h5]
    exact (h2.map _).symm
  · intro pr hpr
    refine ⟨?_, ?_⟩
    · have : pr ∈ its2 := (sortKey_perm _ _).mem_iff.mp (List.mem_of_mem_take hpr)
      obtain ⟨q, _, hq⟩ := List.mem_map.mp this
      rw [← hq]
    · exact sorted_take_key_le (fun p => p.2) sorted sp hsplt (sortKey_sorted _ _) pr hpr
  · intro pr hpr
    refine ⟨?_, ?_⟩
    · have : pr ∈ its2 := (sortKey_perm _ _).mem_iff.mp (List.mem_of_mem_drop hpr)
      obtain ⟨q, _, hq⟩ := List.mem_map.mp this
      rw [← hq]
    · exact sorted_drop_key_ge (fun p => p.2) sorted sp hsplt (sortKey_sorted _ _) pr hpr

/-! ## Builder: position levels -/

theorem lvl_zero : lvl 0 = 0 := by
  simp [lvl, Nat.log_one_right]

theorem lvl_le (p : ℕ) : 2 ^ lvl p ≤ p + 1 :=
  Nat.pow_log_le_self 2 (by omega)

theorem lvl_gt (p : ℕ) : p + 1 < 2 ^ (lvl p + 1) :=
  Nat.lt_pow_succ_log_self (by norm_num) _

theorem lvl_eq (p l : ℕ) (h1 : 2 ^ l ≤ p + 1) (h2 : p + 1 < 2 ^ (l + 1)) :
    lvl p = l :=
  Nat.log_eq_of_pow_le_of_lt_pow h1 h2

theorem lvl_child_left (q : ℕ) : lvl (2 * q + 1) = lvl q + 1 := by
  have h1 := lvl_le q
  have h2 := lvl_gt q
  refine lvl_eq _ _ ?_ ?_
  · rw [pow_succ]
    omega
  · rw [pow_succ, pow_succ]
    omega

theorem lvl_child_right (q : ℕ) : lvl (2 * q + 2) = lvl q + 1 := by
  have h1 := lvl_le q
  have h2 := lvl_gt q
  refine lvl_eq _ _ ?_ ?_
  · rw [pow_succ]
    omega
  · rw [pow_succ, pow_succ]
    omega

theorem lvl_lt_of_lt (p d : ℕ) (h : p + 1 < 2 ^ (d + 1)) : lvl p ≤ d := by
  by_contra hc
  have : d + 1 ≤ lvl p := by omega
  have := Nat.pow_le_pow_right (show 1 ≤ 2 by norm_num) this
  have := lvl_le p
  omega

/-! ## Builder: per-position slices -/

theorem posSlice_spec {α : Type*} (dc : α → α → Dist) (d ls : ℕ)
    (inp : List (α × Dist)) (hls1 : 1 ≤ ls) (hls2 : d = 0 ∨ 2 ≤ ls)
    (hlow : 2 ^ d * ls ≤ inp.length)
    (hhigh : inp.length < 2 ^ d * (ls + 1)) :
    ∀ p, p < 2 ^ (d + 1) - 1 →
      ∃ sl, posSlice dc d ls inp p = some sl ∧
        sl.length = szSpec ls (inp.length + 1 - 2 ^ d * ls) (d - lvl p)
          ((p + 1) * 2 ^ (d - lvl p) - 2 ^ d) := by
  intro p
  induction p using Nat.strong_induction_on with
  | _ p ih =>
    intro hp
    match p with
    | 0 =>
      refine ⟨inp, by rw [posSlice], ?_⟩
      rw [lvl_zero]
      simp only [Nat.sub_zero]
      have hg0 : (0 + 1) * 2 ^ d - 2 ^ d = 0 := by omega
      rw [hg0]
      unfold szSpec
      have hring : 2 ^ d * (ls + 1) = 2 ^ d * ls + 2 ^ d := by ring
      rw [hring] at hhigh
      obtain ⟨X, hX⟩ : ∃ X, 2 ^ d * ls = X := ⟨_, rfl⟩
      rw [hX] at hlow hhigh ⊢
      have hd1 : (1 : ℕ) ≤ 2 ^ d := Nat.one_le_two_pow
      have hX1 : 1 ≤ X := by
        rw [← hX]
        calc (1 : ℕ) = 1 * 1 := by ring
          _ ≤ 2 ^ d * ls := Nat.mul_le_mul hd1 hls1
      omega
    | q + 1 =>
      have h2d : (2 : ℕ) ^ (d + 1) = 2 * 2 ^ d := by rw [pow_succ]; ring
      have hparlt : q / 2 < 2 ^ d - 1 := by omega
      have hd1 : 1 ≤ d := by
        by_contra hd0
        have : d = 0 := by omega
        rw [this] at hp
        omega
      have hls2' : 2 ≤ ls := by
        rcases hls2 with h | h
        · omega
        · exact h
      obtain ⟨slp, hslp, hslplen⟩ := ih (q / 2) (by omega) (by omega)
      -- level bookkeeping
      have hchild : q + 1 = 2 * (q / 2) + 1 ∨ q + 1 = 2 * (q / 2) + 2 := by omega
      have hlvlq : lvl (q + 1) = lvl (q / 2) + 1 := by
        rcases hchild with h | h <;> rw [h]
        · exact lvl_child_left _
        · exact lvl_child_right _
      have hlvl_le : lvl (q + 1) ≤ d := lvl_lt_of_lt _ _ (by omega)
      set h := d - lvl (q + 1) with hh
      have hpar_h : d - lvl (q / 2) = h + 1 := by omega
      have hexp : d - lvl (q / 2) - 1 = h := by omega
      rw [hpar_h] at hslplen
      obtain ⟨vp, r, near, far, hstep, hnlen, hflen, hperm, hnear, hfar⟩ :=
        splitStep_spec dc ls (inp.length + 1 - 2 ^ d * ls) h
          ((q / 2 + 1) * 2 ^ (h + 1) - 2 ^ d) hls2' slp hslplen
      have hpow1 : 2 ^ (lvl (q / 2)) ≤ q / 2 + 1 := lvl_le _
      have hpowd : 2 ^ (lvl (q / 2)) * 2 ^ (h + 1) = 2 ^ d := by
        rw [← pow_add]
        congr 1
        omega
      have hgd : 2 ^ d ≤ (q / 2 + 1) * 2 ^ (h + 1) := by
        calc 2 ^ d = 2 ^ (lvl (q / 2)) * 2 ^ (h + 1) := hpowd.symm
          _ ≤ (q / 2 + 1) * 2 ^ (h + 1) := Nat.mul_le_mul_right _ hpow1
      have hsplit_eq : posSlice dc d ls inp (q + 1) =
          (if (q + 1) % 2 = 1 then some near else some far) := by
        simp only [posSlice, hslp, hexp, hstep]
      have hpows : (2 : ℕ) ^ (h + 1) = 2 * 2 ^ h := by rw [pow_succ]; ring
      rcases hchild with hc | hc
    -- near child
      · have hodd : (q + 1) % 2 = 1 := by omega
        rw [if_pos hodd] at hsplit_eq
        refine ⟨near, hsplit_eq, ?_⟩
        rw [hnlen]
        congr 1
        rw [hc]
        have : (2 * (q / 2) + 1 + 1) * 2 ^ h = (q / 2 + 1) * 2 ^ (h + 1) := by
          rw [hpows]; ring
        rw [this]
      · have heven : ¬ (q + 1) % 2 = 1 := by omega
        rw [if_neg heven] at hsplit_eq
        refine ⟨far, hsplit_eq, ?_⟩
        rw [hflen]
        congr 1
        rw [hc]
        have h1 : (2 * (q / 2) + 2 + 1) * 2 ^ h = (q / 2 + 1) * 2 ^ (h + 1) + 2 ^ h := by
          rw [hpows]; ring
        rw [h1]
        omega

theorem posNode_spec {α : Type*} (dc : α → α → Dist) (d ls : ℕ)
    (inp : List (α × Dist)) (hls1 : 1 ≤ ls) (hls2 : d = 0 ∨ 2 ≤ ls)
    (hlow : 2 ^ d * ls ≤ inp.length)
    (hhigh : inp.length < 2 ^ d * (ls + 1)) :
    ∀ q, q < 2 ^ d - 1 →
      ∃ slq vp r near far,
        posSlice dc d ls inp q = some slq ∧
        splitStep dc (2 ^ (d - lvl q - 1) * ls - 1)
          (2 ^ (d - lvl q - 1) * (ls + 1) - 1) slq = some ((vp, r), near, far) ∧
        posNode dc d ls inp q = some (vp, r) ∧
        posSlice dc d ls inp (2 * q + 1) = some near ∧
        posSlice dc d ls inp (2 * q + 2) = some far ∧
        near.length = szSpec ls (inp.length + 1 - 2 ^ d * ls) (d - lvl q - 1)
          ((2 * q + 1 + 1) * 2 ^ (d - lvl q - 1) - 2 ^ d) ∧
        far.length = szSpec ls (inp.length + 1 - 2 ^ d * ls) (d - lvl q - 1)
          ((2 * q + 2 + 1) * 2 ^ (d - lvl q - 1) - 2 ^ d) ∧
        (slq.map Prod.fst).Perm (vp :: (near.map Prod.fst ++ far.map Prod.fst)) ∧
        (∀ pr ∈ near, pr.2 = dc vp pr.1 ∧ pr.2 ≤ r) ∧
        (∀ pr ∈ far, pr.2 = dc vp pr.1 ∧ r ≤ pr.2) := by
  intro q hq
  have hd2 : (2 : ℕ) ≤ 2 ^ d := by
    rcases Nat.eq_zero_or_pos d with h0 | h0
    · rw [h0] at hq; omega
    · calc (2 : ℕ) = 2 ^ 1 := by norm_num
        _ ≤ 2 ^ d := Nat.pow_le_pow_right (by norm_num) h0
  have hd1 : 1 ≤ d := by
    by_contra h0
    have : d = 0 := by omega
    rw [this] at hd2; norm_num at hd2
  have hls2' : 2 ≤ ls := by rcases hls2 with h | h; omega; exact h
  have h2d1 : (2 : ℕ) ^ (d + 1) = 2 * 2 ^ d := by rw [pow_succ]; ring
  obtain ⟨slq, hslq, hslqlen⟩ := posSlice_spec dc d ls inp hls1 hls2 hlow hhigh q
    (by omega)
  have hlvlq : lvl q ≤ d - 1 := lvl_lt_of_lt q (d - 1) (by
    have : d - 1 + 1 = d := by omega
    rw [this]
    omega)
  set h := d - lvl q - 1 with hh
  have hhq : d - lvl q = h + 1 := by omega
  rw [hhq] at hslqlen
  obtain ⟨vp, r, near, far, hstep, hnlen, hflen, hperm, hnear, hfar⟩ :=
    splitStep_spec dc ls (inp.length + 1 - 2 ^ d * ls) h
      ((q + 1) * 2 ^ (h + 1) - 2 ^ d) hls2' slq hslqlen
  have hnode : posNode dc d ls inp q = some (vp, r) := by
    unfold posNode
    rw [hslq]
    simp only [← hh, hstep]
    rfl
  have hlvl_left : lvl (2 * q + 1) = lvl q + 1 := lvl_child_left q
  have hlvl_right : lvl (2 * q + 2) = lvl q + 1 := lvl_child_right q
  have hparl : (2 * q) / 2 = q := by omega
  have hparr : (2 * q + 1) / 2 = q := by omega
  have hnearEq : posSlice dc d ls inp (2 * q + 1) = some near := by
    have : posSlice dc d ls inp (2 * q + 1) =
        (if (2 * q + 1) % 2 = 1 then some near else some far) := by
      have he : 2 * q + 1 = (2 * q) + 1 := rfl
      rw [he]
      simp only [posSlice, hparl, hslq, hstep]
    rw [this, if_pos (by omega)]
  have hfarEq : posSlice dc d ls inp (2 * q + 2) = some far := by
    have : posSlice dc d ls inp (2 * q + 2) =
        (if (2 * q + 2) % 2 = 1 then some near else some far) := by
      have he : 2 * q + 2 = (2 * q + 1) + 1 := rfl
      rw [he]
      simp only [posSlice, hparr, hslq, hstep]
    rw [this, if_neg (by omega)]
  have hg1 : (2 * q + 1 + 1) * 2 ^ h = (q + 1) * 2 ^ (h + 1) := by
    rw [pow_succ]; ring
  have hg2 : (2 * q + 2 + 1) * 2 ^ h = (q + 1) * 2 ^ (h + 1) + 2 ^ h := by
    rw [pow_succ]; ring
  have hpowd : 2 ^ (lvl q) * 2 ^ (h + 1) = 2 ^ d := by
    rw [← pow_add]; congr 1; omega
  have hgd : 2 ^ d ≤ (q + 1) * 2 ^ (h + 1) := by
    calc 2 ^ d = 2 ^ (lvl q) * 2 ^ (h + 1) := hpowd.symm
      _ ≤ (q + 1) * 2 ^ (h + 1) := Nat.mul_le_mul_right _ (lvl_le q)
  refine ⟨slq, vp, r, near, far, hslq, hstep, hnode, hnearEq, hfarEq, ?_, ?_,
    hperm, hnear, hfar⟩
  · rw [hnlen, hg1]
  · rw [hflen]
    congr 1
    obtain ⟨A, hA⟩ : ∃ A, (q + 1) * 2 ^ (h + 1) = A := ⟨_, rfl⟩
    have hshow : (2 * q + 2 + 1) * 2 ^ h = A + 2 ^ h := by rw [← hA, pow_succ]; ring
    obtain ⟨D, hD⟩ : ∃ D, (2 : ℕ) ^ d = D := ⟨_, rfl⟩
    obtain ⟨H, hH⟩ : ∃ H, (2 : ℕ) ^ h = H := ⟨_, rfl⟩
    rw [hA, hD] at hgd
    rw [hA, hshow, hD, hH]
    omega

/-! ## Builder: loop state arithmetic -/

theorem log2_pow2_pred (j : ℕ) (hj : 1 ≤ j) : Nat.log 2 (2 ^ j - 1) = j - 1 := by
  have hsplit : (2 : ℕ) ^ j = 2 * 2 ^ (j - 1) := by
    conv_lhs => rw [show j = (j - 1) + 1 by omega]
    rw [pow_succ]; ring
  have h2 := Nat.one_le_two_pow (n := j - 1)
  have h1 : (2 : ℕ) ^ (j - 1) ≤ 2 ^ j - 1 := by omega
  have h3 : (2 : ℕ) ^ j - 1 < 2 ^ ((j - 1) + 1) := by
    rw [show (j - 1) + 1 = j by omega]
    have := Nat.one_le_two_pow (n := j)
    omega
  exact Nat.log_eq_of_pow_le_of_lt_pow h1 h3

theorem log2_succ_not_pow2 (m : ℕ) (hm : 1 ≤ m) (hnp : ∀ k, m + 1 ≠ 2 ^ k) :
    Nat.log 2 (m + 1) = Nat.log 2 m := by
  have hup : 2 ^ Nat.log 2 (m + 1) ≤ m + 1 := Nat.pow_log_le_self 2 (by omega)
  have hne : 2 ^ Nat.log 2 (m + 1) ≠ m + 1 := fun hc => hnp _ hc.symm
  have h2 : Nat.log 2 (m + 1) ≤ Nat.log 2 m := by
    by_contra hc
    have hlt : Nat.log 2 m + 1 ≤ Nat.log 2 (m + 1) := by omega
    have hpw := Nat.pow_le_pow_right (show 1 ≤ 2 by norm_num) hlt
    have hv := Nat.lt_pow_succ_log_self (show 1 < 2 by norm_num) m
    omega
  have hmono : Nat.log 2 m ≤ Nat.log 2 (m + 1) := Nat.log_mono_right (by omega)
  omega

theorem halve_pred (e ls : ℕ) (he : 1 ≤ e) (hls : 1 ≤ ls) :
    (2 ^ e * ls - 1 - 1) / 2 = 2 ^ (e - 1) * ls - 1 := by
  have h2 : (2 : ℕ) ^ e * ls = 2 * (2 ^ (e - 1) * ls) := by
    conv_lhs => rw [show e = (e - 1) + 1 by omega]
    rw [pow_succ]; ring
  have hX1 : 1 ≤ 2 ^ (e - 1) * ls := by
    calc (1 : ℕ) = 1 * 1 := by ring
      _ ≤ 2 ^ (e - 1) * ls := Nat.mul_le_mul Nat.one_le_two_pow hls
  obtain ⟨X, hX⟩ : ∃ X, 2 ^ (e - 1) * ls = X := ⟨_, rfl⟩
  rw [hX] at h2 hX1 ⊢
  omega

theorem loState_succ (d ls m : ℕ) : loState d ls (m + 1) = 2 ^ (d - lvl m - 1) * ls - 1 := by
  unfold loState
  rw [if_neg (by omega)]
  have hexp : d - 1 - Nat.log 2 (m + 1) = d - lvl m - 1 := by unfold lvl; omega
  rw [hexp]

theorem loState_used (d ls m : ℕ) (hd : 1 ≤ d) (hls : 2 ≤ ls)
    (hm : m < 2 ^ d - 1) :
    (if isPow2 (m + 1) = true then (loState d ls m - 1) / 2 else loState d ls m)
      = 2 ^ (d - lvl m - 1) * ls - 1 ∧
    1 ≤ loState d ls m := by
  rcases Nat.eq_zero_or_pos m with hm0 | hm1
  · subst hm0
    have hpow : isPow2 1 = true := by decide
    rw [if_pos hpow]
    unfold loState
    rw [if_pos rfl]
    constructor
    · rw [halve_pred d ls hd (by omega), lvl_zero]
      rw [show d - 0 - 1 = d - 1 by omega]
    · have : (2 : ℕ) * 1 ≤ 2 ^ d * ls := Nat.mul_le_mul (by
        calc (2 : ℕ) = 2 ^ 1 := by norm_num
          _ ≤ 2 ^ d := Nat.pow_le_pow_right (by norm_num) hd) (by omega)
      omega
  · have hlo : loState d ls m = 2 ^ (d - 1 - Nat.log 2 m) * ls - 1 := by
      unfold loState
      rw [if_neg (by omega)]
    have hval1 : 1 ≤ loState d ls m := by
      rw [hlo]
      have : (1 : ℕ) * 2 ≤ 2 ^ (d - 1 - Nat.log 2 m) * ls :=
        Nat.mul_le_mul Nat.one_le_two_pow hls
      omega
    refine ⟨?_, hval1⟩
    by_cases hpow : isPow2 (m + 1) = true
    · rw [if_pos hpow]
      obtain ⟨j, hj⟩ := (isPow2_iff _).mp hpow
      have hj1 : 1 ≤ j := by
        by_contra hc
        have : j = 0 := by omega
        rw [this] at hj
        norm_num at hj
        omega
      have hjd : j < d := by
        by_contra hc
        have : d ≤ j := by omega
        have := Nat.pow_le_pow_right (show 1 ≤ 2 by norm_num) this
        omega
      have hlogm : Nat.log 2 m = j - 1 := by
        rw [show m = 2 ^ j - 1 by omega]
        exact log2_pow2_pred j hj1
      have hlvlm : lvl m = j := by
        unfold lvl
        rw [show m + 1 = 2 ^ j by omega]
        exact Nat.log_pow (by norm_num) j
      rw [hlo, hlogm, hlvlm]
      rw [show d - 1 - (j - 1) = d - j by omega]
      rw [halve_pred (d - j) ls (by omega) (by omega)]
    · rw [if_neg hpow]
      have hnp : ∀ k, m + 1 ≠ 2 ^ k := by
        intro k hc
        exact hpow ((isPow2_iff _).mpr ⟨k, hc⟩)
      have hlog : Nat.log 2 (m + 1) = Nat.log 2 m := log2_succ_not_pow2 m hm1 hnp
      rw [hlo]
      have hexp : d - 1 - Nat.log 2 m = d - lvl m - 1 := by
        unfold lvl
        rw [hlog]
        omega
      rw [hexp]

theorem levelState_used (d m : ℕ) (hd : 1 ≤ d) (hm : m < 2 ^ d - 1) :
    (if isPow2 (m + 1) = true then levelState m + 1 else levelState m)
      = lvl m + 1 ∧ lvl m + 1 ≤ d := by
  have hlvl_le : lvl m + 1 ≤ d := by
    have hlt : m + 1 < 2 ^ d := by omega
    have h1 := lvl_le m
    by_contra hc
    have hge : d ≤ lvl m := by omega
    have := Nat.pow_le_pow_right (show 1 ≤ 2 by norm_num) hge
    omega
  refine ⟨?_, hlvl_le⟩
  rcases Nat.eq_zero_or_pos m with hm0 | hm1
  · subst hm0
    rw [if_pos (by decide)]
    unfold levelState
    rw [if_pos rfl, lvl_zero]
  · by_cases hpow : isPow2 (m + 1) = true
    · rw [if_pos hpow]
      obtain ⟨j, hj⟩ := (isPow2_iff _).mp hpow
      have hj1 : 1 ≤ j := by
        by_contra hc
        have : j = 0 := by omega
        rw [this] at hj
        norm_num at hj
        omega
      have hlogm : Nat.log 2 m = j - 1 := by
        rw [show m = 2 ^ j - 1 by omega]
        exact log2_pow2_pred j hj1
      have hlvlm : lvl m = j := by
        unfold lvl
        rw [show m + 1 = 2 ^ j by omega]
        exact Nat.log_pow (by norm_num) j
      unfold levelState
      rw [if_neg (by omega), hlogm, hlvlm]
      omega
    · rw [if_neg hpow]
      have hnp : ∀ k, m + 1 ≠ 2 ^ k := by
        intro k hc
        exact hpow ((isPow2_iff _).mpr ⟨k, hc⟩)
      have hlog : Nat.log 2 (m + 1) = Nat.log 2 m := log2_succ_not_pow2 m hm1 hnp
      unfold levelState lvl
      rw [if_neg (by omega)]
      omega

/-! ## Builder: the queue-driven loop processes positions in order -/

theorem buildLoop_bridge {α : Type*} (dc : α → α → Dist) (d ls : ℕ)
    (inp : List (α × Dist)) (hls1 : 1 ≤ ls) (hls2 : d = 0 ∨ 2 ≤ ls)
    (hlow : 2 ^ d * ls ≤ inp.length) (hhigh : inp.length < 2 ^ d * (ls + 1)) :
    ∀ k m (queue : List (List (α × Dist))) (acc : List (α × Dist)),
      m + k = 2 ^ d - 1 →
      queue.length = m + 1 →
      (∀ j, j < queue.length → posSlice dc d ls inp (m + j) = queue.get? j) →
      acc.length = m →
      (∀ q, q < acc.length →
        (posNode dc d ls inp q).map (fun nd => (nd.1, nd.2)) = acc.get? q) →
      ∃ accF queueF,
        buildLoop dc k queue (loState d ls m) (loState d (ls + 1) m) acc =
          some (accF, queueF) ∧
        accF.length = 2 ^ d - 1 ∧
        (∀ q, q < accF.length →
          (posNode dc d ls inp q).map (fun nd => (nd.1, nd.2)) = accF.get? q) ∧
        queueF.length = 2 ^ d ∧
        (∀ g, g < queueF.length →
          posSlice dc d ls inp (2 ^ d - 1 + g) = queueF.get? g) := by
  intro k
  induction k with
  | zero =>
    intro m queue acc hmk hqlen hqget haclen hacget
    have hm : m = 2 ^ d - 1 := by omega
    subst hm
    have hd1 : (1 : ℕ) ≤ 2 ^ d := Nat.one_le_two_pow
    refine ⟨acc, queue, rfl, haclen, hacget, by omega, ?_⟩
    intro g hg
    exact hqget g (by omega)
  | succ k ih =>
    intro m queue acc hmk hqlen hqget haclen hacget
    have hmN : m < 2 ^ d - 1 := by omega
    have hd2 : 2 ≤ 2 ^ d := by
      by_contra hc
      have h1 : (1 : ℕ) ≤ 2 ^ d := Nat.one_le_two_pow
      omega
    have hd1 : 1 ≤ d := by
      by_contra hc
      have : d = 0 := by omega
      rw [this] at hd2
      norm_num at hd2
    have hls2' : 2 ≤ ls := by rcases hls2 with h | h; omega; exact h
    obtain ⟨sl0, rest, rfl⟩ : ∃ sl0 rest, queue = sl0 :: rest := by
      cases queue with
      | nil => simp at hqlen
      | cons a b => exact ⟨a, b, rfl⟩
    have hrest : rest.length = m := by simpa using hqlen
    have hhead : posSlice dc d ls inp m = some sl0 := by
      have h0 := hqget 0 (by simp)
      simpa using h0
    obtain ⟨slq, vp, r, near, far, hslq, hstep, hnode, hnearEq, hfarEq, _, _,
      hperm, hnear, hfar⟩ := posNode_spec dc d ls inp hls1 hls2 hlow hhigh m hmN
    have hsl0 : slq = sl0 := by
      rw [hslq] at hhead
      exact Option.some.inj hhead
    subst hsl0
    obtain ⟨hloU, hlo1⟩ := loState_used d ls m hd1 hls2' hmN
    obtain ⟨hhiU, hhi1⟩ := loState_used d (ls + 1) m hd1 (by omega) hmN
    have hguard : ¬ ((isPow2 (m + 1) = true) ∧
        (loState d ls m = 0 ∨ loState d (ls + 1) m = 0)) := by
      rintro ⟨_, hc | hc⟩ <;> omega
    have hgoal : buildLoop dc (k + 1) (slq :: rest) (loState d ls m)
        (loState d (ls + 1) m) acc =
        buildLoop dc k (rest ++ [near, far]) (2 ^ (d - lvl m - 1) * ls - 1)
          (2 ^ (d - lvl m - 1) * (ls + 1) - 1) (acc ++ [⟨vp, r⟩]) := by
      simp only [buildLoop, List.length_cons, hrest]
      rw [if_neg hguard, hloU, hhiU]
      simp only [hstep]
    have hqchar : ∀ j, j < (rest ++ [near, far]).length →
        posSlice dc d ls inp (m + 1 + j) = (rest ++ [near, far]).get? j := by
      intro j hj
      have hjlen : j < m + 2 := by
        simp only [List.length_append, List.length_cons, List.length_nil, hrest] at hj
        omega
      rcases Nat.lt_or_ge j m with hjm | hjm
      · rw [List.get?_append (by omega)]
        have := hqget (j + 1) (by simp [hrest]; omega)
        rw [show m + (j + 1) = m + 1 + j by omega] at this
        rw [this]
        exact List.get?_cons_succ
      · rcases Nat.eq_or_lt_of_le hjm with hje | hjlt
        · subst hje
          rw [List.get?_append_right (by omega)]
          rw [hrest, Nat.sub_self]
          rw [show m + 1 + m = 2 * m + 1 by omega]
          exact hnearEq
        · have hje : j = m + 1 := by omega
          subst hje
          rw [List.get?_append_right (by omega)]
          rw [hrest, show m + 1 - m = 1 by omega]
          rw [show m + 1 + (m + 1) = 2 * m + 2 by omega]
          exact hfarEq
    have hachar : ∀ q, q < (acc ++ [(⟨vp, r⟩ : α × Dist)]).length →
        (posNode dc d ls inp q).map (fun nd => (nd.1, nd.2)) =
          (acc ++ [(⟨vp, r⟩ : α × Dist)]).get? q := by
      intro q hq
      have hqlen2 : q < m + 1 := by
        simp only [List.length_append, List.length_cons, List.length_nil, haclen] at hq
        omega
      rcases Nat.lt_or_ge q m with hqm | hqm
      · rw [List.get?_append (by omega)]
        exact hacget q (by omega)
      · have hqe : q = m := by omega
        subst hqe
        rw [List.get?_append_right (by omega)]
        rw [haclen, Nat.sub_self, hnode]
        rfl
    obtain ⟨accF, queueF, hrun, hlen1, hget1, hlen2, hget2⟩ :=
      ih (m + 1) (rest ++ [near, far]) (acc ++ [⟨vp, r⟩]) (by omega)
        (by simp [hrest]) hqchar (by simp [haclen]) hachar
    refine ⟨accF, queueF, ?_, hlen1, hget1, hlen2, hget2⟩
    rw [hgoal, ← loState_succ d ls m, ← loState_succ d (ls + 1) m]
    exact hrun

theorem levelState_succ (m : ℕ) : levelState (m + 1) = lvl m + 1 := by
  unfold levelState lvl
  rw [if_neg (by omega)]

theorem rebalanceLoop_bridge {α : Type*} (dc : α → α → Dist) (d ls : ℕ)
    (inp : List (α × Dist)) (hls1 : 1 ≤ ls) (hls2 : d = 0 ∨ 2 ≤ ls)
    (hlow : 2 ^ d * ls ≤ inp.length) (hhigh : inp.length < 2 ^ d * (ls + 1)) :
    ∀ k m (queue : List (List (α × Dist))) (acc : List (α × Dist)),
      m + k = 2 ^ d - 1 →
      queue.length = m + 1 →
      (∀ j, j < queue.length → posSlice dc d ls inp (m + j) = queue.get? j) →
      acc.length = m →
      (∀ q, q < acc.length →
        (posNode dc d ls inp q).map (fun nd => (nd.1, nd.2)) = acc.get? q) →
      ∃ accF queueF,
        rebalanceLoop dc d k queue (loState d ls m) (levelState m) acc =
          some (accF, queueF) ∧
        accF.length = 2 ^ d - 1 ∧
        (∀ q, q < accF.length →
          (posNode dc d ls inp q).map (fun nd => (nd.1, nd.2)) = accF.get? q) ∧
        queueF.length = 2 ^ d ∧
        (∀ g, g < queueF.length →
          posSlice dc d ls inp (2 ^ d - 1 + g) = queueF.get? g) := by
  intro k
  induction k with
  | zero =>
    intro m queue acc hmk hqlen hqget haclen hacget
    have hm : m = 2 ^ d - 1 := by omega
    subst hm
    have hd1 : (1 : ℕ) ≤ 2 ^ d := Nat.one_le_two_pow
    refine ⟨acc, queue, rfl, haclen, hacget, by omega, ?_⟩
    intro g hg
    exact hqget g (by omega)
  | succ k ih =>
    intro m queue acc hmk hqlen hqget haclen hacget
    have hmN : m < 2 ^ d - 1 := by omega
    have hd2 : 2 ≤ 2 ^ d := by
      by_contra hc
      have h1 : (1 : ℕ) ≤ 2 ^ d := Nat.one_le_two_pow
      omega
    have hd1 : 1 ≤ d := by
      by_contra hc
      have : d = 0 := by omega
      rw [this] at hd2
      norm_num at hd2
    have hls2' : 2 ≤ ls := by rcases hls2 with h | h; omega; exact h
    obtain ⟨sl0, rest, rfl⟩ : ∃ sl0 rest, queue = sl0 :: rest := by
      cases queue with
      | nil => simp at hqlen
      | cons a b => exact ⟨a, b, rfl⟩
    have hrest : rest.length = m := by simpa using hqlen
    have hhead : posSlice dc d ls inp m = some sl0 := by
      have h0 := hqget 0 (by simp)
      simpa using h0
    obtain ⟨slq, vp, r, near, far, hslq, hstep, hnode, hnearEq, hfarEq, _, _,
      hperm, hnear, hfar⟩ := posNode_spec dc d ls inp hls1 hls2 hlow hhigh m hmN
    have hsl0 : slq = sl0 := by
      rw [hslq] at hhead
      exact Option.some.inj hhead
    subst hsl0
    obtain ⟨hloU, hlo1⟩ := loState_used d ls m hd1 hls2' hmN
    obtain ⟨hlevU, hlev_le⟩ := levelState_used d m hd1 hmN
    have hguard : ¬ ((isPow2 (m + 1) = true) ∧ loState d ls m = 0) := by
      rintro ⟨_, hc⟩
      omega
    have hhiEq : 2 ^ (d - lvl m - 1) * ls - 1 + 2 ^ (d - (lvl m + 1)) =
        2 ^ (d - lvl m - 1) * (ls + 1) - 1 := by
      rw [show d - (lvl m + 1) = d - lvl m - 1 by omega]
      obtain ⟨E, hE⟩ : ∃ E, (2 : ℕ) ^ (d - lvl m - 1) = E := ⟨_, rfl⟩
      have h1 : (1 : ℕ) ≤ E := by rw [← hE]; exact Nat.one_le_two_pow
      have h2 : E * (ls + 1) = E * ls + E := by ring
      rw [hE, h2]
      have h3 : 1 ≤ E * ls := by
        calc (1 : ℕ) = 1 * 1 := by ring
          _ ≤ E * ls := Nat.mul_le_mul h1 (by omega)
      omega
    have hgoal : rebalanceLoop dc d (k + 1) (slq :: rest) (loState d ls m)
        (levelState m) acc =
        rebalanceLoop dc d k (rest ++ [near, far])
          (2 ^ (d - lvl m - 1) * ls - 1) (lvl m + 1) (acc ++ [⟨vp, r⟩]) := by
      simp only [rebalanceLoop, List.length_cons, hrest]
      rw [if_neg hguard, hloU, hlevU]
      rw [if_pos hlev_le]
      rw [hhiEq]
      simp only [hstep]
    have hqchar : ∀ j, j < (rest ++ [near, far]).length →
        posSlice dc d ls inp (m + 1 + j) = (rest ++ [near, far]).get? j := by
      intro j hj
      have hjlen : j < m + 2 := by
        simp only [List.length_append, List.length_cons, List.length_nil, hrest] at hj
        omega
      rcases Nat.lt_or_ge j m with hjm | hjm
      · rw [List.get?_append (by omega)]
        have := hqget (j + 1) (by simp [hrest]; omega)
        rw [show m + (j + 1) = m + 1 + j by omega] at this
        rw [this]
        exact List.get?_cons_succ
      · rcases Nat.eq_or_lt_of_le hjm with hje | hjlt
        · subst hje
          rw [List.get?_append_right (by omega)]
          rw [hrest, Nat.sub_self]
          rw [show m + 1 + m = 2 * m + 1 by omega]
          exact hnearEq
        · have hje : j = m + 1 := by omega
          subst hje
          rw [List.get?_append_right (by omega)]
          rw [hrest, show m + 1 - m = 1 by omega]
          rw [show m + 1 + (m + 1) = 2 * m + 2 by omega]
          exact hfarEq
    have hachar : ∀ q, q < (acc ++ [(⟨vp, r⟩ : α × Dist)]).length →
        (posNode dc d ls inp q).map (fun nd => (nd.1, nd.2)) =
          (acc ++ [(⟨vp, r⟩ : α × Dist)]).get? q := by
      intro q hq
      have hqlen2 : q < m + 1 := by
        simp only [List.length_append, List.length_cons, List.length_nil, haclen] at hq
        omega
      rcases Nat.lt_or_ge q m with hqm | hqm
      · rw [List.get?_append (by omega)]
        exact hacget q (by omega)
      · have hqe : q = m := by omega
        subst hqe
        rw [List.get?_append_right (by omega)]
        rw [haclen, Nat.sub_self, hnode]
        rfl
    obtain ⟨accF, queueF, hrun, hlen1, hget1, hlen2, hget2⟩ :=
      ih (m + 1) (rest ++ [near, far]) (acc ++ [⟨vp, r⟩]) (by omega)
        (by simp [hrest]) hqchar (by simp [haclen]) hachar
    refine ⟨accF, queueF, ?_, hlen1, hget1, hlen2, hget2⟩
    rw [hgoal, ← loState_succ d ls m, ← levelState_succ m]
    exact hrun

/-! ## Builder: content conservation -/

theorem splitStep_content {α : Type*} (dc : α → α → Dist) (lo hi : ℕ)
    (sl : List (α × Dist)) (vp : α) (r : Dist) (near far : List (α × Dist))
    (h : splitStep dc lo hi sl = some ((vp, r), near, far)) :
    (sl.map Prod.fst).Perm (vp :: (near.map Prod.fst ++ far.map Prod.fst)) := by
  unfold splitStep at h
  cases hlast : sl.getLast? with
  | none => rw [hlast] at h; exact absurd h (by simp)
  | some vp0 =>
    rw [hlast] at h
    simp only at h
    by_cases hlo : lo ≤ sl.dropLast.length
    · rw [if_pos hlo] at h
      set its2 := sl.dropLast.map (fun p => (p.1, dc vp0.1 p.1)) with hits2
      set sorted := sortKey (fun p => p.2) its2 with hsorted
      set sp := min (sl.dropLast.length - lo) hi with hsp
      cases hget : sorted.get? sp with
      | none => rw [hget] at h; exact absurd h (by simp)
      | some m =>
        rw [hget] at h
        simp only [Option.some.injEq, Prod.mk.injEq] at h
        obtain ⟨⟨hvp, _⟩, hnear, hfar⟩ := h
        have hne : sl ≠ [] := by
          intro hc
          rw [hc] at hlast
          simp at hlast
        have h4 : sl.map Prod.fst = sl.dropLast.map Prod.fst ++ [vp] := by
          conv_lhs => rw [← List.dropLast_append_getLast hne]
          rw [List.map_append]
          have : sl.getLast hne = vp0 := by
            have := List.getLast?_eq_getLast sl hne
            rw [hlast] at this
            exact (Option.some.inj this).symm
          simp [this, hvp]
        rw [h4]
        refine (List.perm_append_singleton _ _).trans (List.Perm.cons _ ?_)
        rw [← hnear, ← hfar, ← List.map_append, List.take_append_drop]
        have h2 : sorted.Perm its2 := sortKey_perm _ _
        have h3 : its2.map Prod.fst = sl.dropLast.map Prod.fst := by
          rw [hits2, List.map_map]
          rfl
        rw [← h3]
        exact (h2.map _).symm
    · rw [if_neg hlo] at h
      exact absurd h (by simp)

theorem buildLoop_content {α : Type*} (dc : α → α → Dist) :
    ∀ (k : ℕ) (queue : List (List (α × Dist))) (lo hi : ℕ)
      (acc accF : List (α × Dist)) (queueF : List (List (α × Dist))),
      buildLoop dc k queue lo hi acc = some (accF, queueF) →
      (accF.map Prod.fst ++ (queueF.map (List.map Prod.fst)).flatten).Perm
        (acc.map Prod.fst ++ (queue.map (List.map Prod.fst)).flatten) := by
  intro k
  induction k with
  | zero =>
    intro queue lo hi acc accF queueF h
    simp only [buildLoop, Option.some.injEq, Prod.mk.injEq] at h
    rw [h.1, h.2]
  | succ k ih =>
    intro queue lo hi acc accF queueF h
    simp only [buildLoop] at h
    by_cases hguard : (isPow2 queue.length = true) ∧ (lo = 0 ∨ hi = 0)
    · rw [if_pos hguard] at h
      exact absurd h (by simp)
    · rw [if_neg hguard] at h
      cases queue with
      | nil => exact absurd h (by simp)
      | cons sl rest =>
        simp only [] at h
        cases hstep : splitStep dc
            (if isPow2 (sl :: rest).length = true then (lo - 1) / 2 else lo)
            (if isPow2 (sl :: rest).length = true then (hi - 1) / 2 else hi) sl with
        | none => rw [hstep] at h; exact absurd h (by simp)
        | some trip =>
          obtain ⟨⟨vp, r⟩, near, far⟩ := trip
          rw [hstep] at h
          simp only at h
          have hcont := splitStep_content dc _ _ sl vp r near far hstep
          have hrec := ih _ _ _ _ _ _ h
          refine hrec.trans ?_
          rw [← Multiset.coe_eq_coe] at hcont ⊢
          simp only [List.map_append, List.flatten_append, ← Multiset.coe_add,
            List.map_cons, List.flatten_cons, List.map_nil, List.flatten_nil,
            List.append_nil, ← Multiset.cons_coe] at hcont ⊢
          rw [hcont]
          simp only [← Multiset.singleton_add, Multiset.coe_nil, add_zero]
          abel

theorem rebalanceLoop_content {α : Type*} (dc : α → α → Dist) (depth : ℕ) :
    ∀ (k : ℕ) (queue : List (List (α × Dist))) (isize level : ℕ)
      (acc accF : List (α × Dist)) (queueF : List (List (α × Dist))),
      rebalanceLoop dc depth k queue isize level acc = some (accF, queueF) →
      (accF.map Prod.fst ++ (queueF.map (List.map Prod.fst)).flatten).Perm
        (acc.map Prod.fst ++ (queue.map (List.map Prod.fst)).flatten) := by
  intro k
  induction k with
  | zero =>
    intro queue isize level acc accF queueF h
    simp only [rebalanceLoop, Option.some.injEq, Prod.mk.injEq] at h
    rw [h.1, h.2]
  | succ k ih =>
    intro queue isize level acc accF queueF h
    simp only [rebalanceLoop] at h
    by_cases hguard : (isPow2 queue.length = true) ∧ isize = 0
    · rw [if_pos hguard] at h
      exact absurd h (by simp)
    · rw [if_neg hguard] at h
      by_cases hlev : (if isPow2 queue.length = true then level + 1 else level) ≤ depth
      · rw [if_pos hlev] at h
        cases queue with
        | nil => exact absurd h (by simp)
        | cons sl rest =>
          simp only [] at h
          cases hstep : splitStep dc
              (if isPow2 (sl :: rest).length = true then (isize - 1) / 2 else isize)
              ((if isPow2 (sl :: rest).length = true then (isize - 1) / 2 else isize) +
                2 ^ (depth - if isPow2 (sl :: rest).length = true then level + 1 else level))
              sl with
          | none => rw [hstep] at h; exact absurd h (by simp)
          | some trip =>
            obtain ⟨⟨vp, r⟩, near, far⟩ := trip
            rw [hstep] at h
            simp only at h
            have hcont := splitStep_content dc _ _ sl vp r near far hstep
            have hrec := ih _ _ _ _ _ _ h
            refine hrec.trans ?_
            rw [← Multiset.coe_eq_coe] at hcont ⊢
            simp only [List.map_append, List.flatten_append, ← Multiset.coe_add,
              List.map_cons, List.flatten_cons, List.map_nil, List.flatten_nil,
              List.append_nil, ← Multiset.cons_coe] at hcont ⊢
            rw [hcont]
            simp only [← Multiset.singleton_add, Multiset.coe_nil, add_zero]
            abel
      · rw [if_neg hlev] at h
        exact absurd h (by simp)

/-! ## Builder: assembly -/

theorem posSlice_leaf_len {α : Type*} (dc : α → α → Dist) (d ls : ℕ)
    (inp : List (α × Dist)) (hls1 : 1 ≤ ls) (hls2 : d = 0 ∨ 2 ≤ ls)
    (hlow : 2 ^ d * ls ≤ inp.length) (hhigh : inp.length < 2 ^ d * (ls + 1))
    (g : ℕ) (hg : g < 2 ^ d) :
    ∃ sl, posSlice dc d ls inp (2 ^ d - 1 + g) = some sl ∧
      sl.length = ls - 1 + min ((inp.length + 1 - 2 ^ d * ls) - g) 1 := by
  have hd1 : (1 : ℕ) ≤ 2 ^ d := Nat.one_le_two_pow
  have h2d : (2 : ℕ) ^ (d + 1) = 2 * 2 ^ d := by rw [pow_succ]; ring
  obtain ⟨sl, hsl, hlen⟩ := posSlice_spec dc d ls inp hls1 hls2 hlow hhigh
    (2 ^ d - 1 + g) (by omega)
  refine ⟨sl, hsl, ?_⟩
  rw [hlen]
  have hlvl : lvl (2 ^ d - 1 + g) = d := by
    refine lvl_eq _ _ (by omega) (by rw [h2d]; omega)
  rw [hlvl, Nat.sub_self]
  unfold szSpec
  simp only [pow_zero, one_mul, mul_one]
  rw [show 2 ^ d - 1 + g + 1 - 2 ^ d = g by omega]

theorem flattenLen {β : Type*} :
    ∀ L : List (List β), L.flatten.length = (L.map List.length).sum := by
  intro L
  induction L with
  | nil => rfl
  | cons x xs ih =>
    rw [List.flatten_cons, List.length_append, ih, List.map_cons, List.sum_cons]

theorem flatten_group {β : Type*} :
    ∀ (L : List (List β)) (g : ℕ) (h : g < L.length),
      (L.flatten.drop (((L.take g).map List.length).sum)).take
        (L.get ⟨g, h⟩).length = L.get ⟨g, h⟩ := by
  intro L
  induction L with
  | nil => intro g h; simp at h
  | cons x xs ih =>
    intro g h
    match g with
    | 0 =>
      have hg : (x :: xs).get ⟨0, h⟩ = x := rfl
      rw [hg, List.take_zero, List.map_nil, List.sum_nil, List.drop_zero,
        List.flatten_cons]
      exact List.take_left x xs.flatten
    | g + 1 =>
      have hxs : g < xs.length := by simpa using h
      have hg : (x :: xs).get ⟨g + 1, h⟩ = xs.get ⟨g, hxs⟩ := rfl
      rw [hg, List.take_succ_cons, List.map_cons, List.sum_cons,
        List.flatten_cons, List.drop_append]
      exact ih g hxs

theorem map_length_eq {β : Type*} (L : List (List β)) (w : ℕ → ℕ)
    (hw : ∀ j, (hj : j < L.length) → (L.get ⟨j, hj⟩).length = w j) :
    L.map List.length = (List.range L.length).map w := by
  refine List.ext_get (by simp) ?_
  intro i h1 h2
  have hi : i < L.length := by simpa using h1
  have hx := hw i hi
  simp only [List.get_eq_getElem, List.getElem_map, List.getElem_range]
  simpa [List.get_eq_getElem] using hx

theorem widthSum (ls dp : ℕ) (hls : 1 ≤ ls) :
    ∀ g, ((List.range g).map (fun j => ls - 1 + min (dp - j) 1)).sum =
      if g < dp then g * ls else dp * ls + (g - dp) * (ls - 1) := by
  intro g
  induction g with
  | zero =>
    rcases Nat.eq_zero_or_pos dp with h0 | h0
    · subst h0
      simp
    · rw [if_pos h0]
      simp
  | succ g ih =>
    rw [List.range_succ, List.map_append, List.sum_append, ih]
    simp only [List.map_cons, List.map_nil, List.sum_cons, List.sum_nil,
      add_zero]
    by_cases h1 : g < dp
    · rw [if_pos h1, show min (dp - g) 1 = 1 from by omega]
      by_cases h2 : g + 1 < dp
      · rw [if_pos h2, show (g + 1) * ls = g * ls + ls from by ring]
        omega
      · rw [if_neg h2]
        have hdg : dp = g + 1 := by omega
        subst hdg
        rw [show (g + 1) * ls = g * ls + ls from by ring,
          show (g + 1 - (g + 1)) * (ls - 1) = 0 from by simp]
        omega
    · rw [if_neg h1, if_neg (show ¬ g + 1 < dp from by omega),
        show min (dp - g) 1 = 0 from by omega,
        show (g + 1 - dp) * (ls - 1) = (g - dp) * (ls - 1) + (ls - 1) from by
          rw [show g + 1 - dp = (g - dp) + 1 from by omega]; ring]
      omega

theorem groups_extract {α : Type*} (dc : α → α → Dist) (d ls : ℕ)
    (inp : List (α × Dist)) (hls1 : 1 ≤ ls) (hls2 : d = 0 ∨ 2 ≤ ls)
    (hlow : 2 ^ d * ls ≤ inp.length) (hhigh : inp.length < 2 ^ d * (ls + 1))
    (queueF : List (List (α × Dist)))
    (hqLen : queueF.length = 2 ^ d)
    (hqGet : ∀ g, g < queueF.length →
      posSlice dc d ls inp (2 ^ d - 1 + g) = queueF.get? g) :
    (∀ g, g < 2 ^ d → ∃ sl,
      posSlice dc d ls inp (2 ^ d - 1 + g) = some sl ∧
      (((queueF.map (fun sl => sl.map Prod.fst)).flatten.drop
          (if g < inp.length + 1 - 2 ^ d * ls then g * ls
           else (inp.length + 1 - 2 ^ d * ls) * ls +
             (g - (inp.length + 1 - 2 ^ d * ls)) * (ls - 1))).take
        (if g < inp.length + 1 - 2 ^ d * ls then ls else ls - 1)) =
        sl.map Prod.fst) ∧
    (queueF.map (fun sl => sl.map Prod.fst)).flatten.length =
      (inp.length + 1 - 2 ^ d * ls) * ls +
        (2 ^ d - (inp.length + 1 - 2 ^ d * ls)) * (ls - 1) := by
  set dp := inp.length + 1 - 2 ^ d * ls with hdp
  set L := queueF.map (fun sl => sl.map Prod.fst) with hL
  have hd1 : (1 : ℕ) ≤ 2 ^ d := Nat.one_le_two_pow
  have hdp2 : dp ≤ 2 ^ d := by
    have h2 : 2 ^ d * (ls + 1) = 2 ^ d * ls + 2 ^ d := by ring
    omega
  have hLlen : L.length = 2 ^ d := by rw [hL, List.length_map, hqLen]
  have hLget : ∀ j, j < queueF.length → ∃ sl,
      posSlice dc d ls inp (2 ^ d - 1 + j) = some sl ∧
      L.get? j = some (sl.map Prod.fst) ∧
      sl.length = ls - 1 + min (dp - j) 1 := by
    intro j hj
    obtain ⟨sl, hsl, hlen⟩ := posSlice_leaf_len dc d ls inp hls1 hls2 hlow hhigh
      j (by omega)
    rw [← hdp] at hlen
    refine ⟨sl, hsl, ?_, hlen⟩
    have hq : queueF.get? j = some sl := by rw [← hqGet j hj]; exact hsl
    rw [hL, List.get?_map, hq]
    rfl
  have hgetlen : ∀ j, (hj : j < L.length) →
      (L.get ⟨j, hj⟩).length = ls - 1 + min (dp - j) 1 := by
    intro j hj
    have hj' : j < queueF.length := by omega
    obtain ⟨sl, _, hq, hlen⟩ := hLget j hj'
    have hg := List.get?_eq_get hj
    rw [hq] at hg
    have hv : L.get ⟨j, hj⟩ = sl.map Prod.fst := (Option.some.inj hg).symm
    rw [hv, List.length_map, hlen]
  have hmaplen : L.map List.length =
      (List.range (2 ^ d)).map (fun j => ls - 1 + min (dp - j) 1) := by
    have h := map_length_eq L (fun j => ls - 1 + min (dp - j) 1) hgetlen
    rwa [hLlen] at h
  constructor
  · intro g hg
    have hg' : g < queueF.length := by omega
    obtain ⟨sl, hsl, hq, hlen⟩ := hLget g hg'
    refine ⟨sl, hsl, ?_⟩
    have hgL : g < L.length := by omega
    have hgetv : L.get ⟨g, hgL⟩ = sl.map Prod.fst := by
      have h1 := List.get?_eq_get hgL
      rw [hq] at h1
      exact (Option.some.inj h1).symm
    have hoff : ((L.take g).map List.length).sum =
        if g < dp then g * ls else dp * ls + (g - dp) * (ls - 1) := by
      rw [List.map_take, hmaplen, ← List.map_take, List.take_range,
        show min g (2 ^ d) = g from by omega]
      exact widthSum ls dp hls1 g
    have hwd : (if g < dp then ls else ls - 1) = (sl.map Prod.fst).length := by
      rw [List.length_map, hlen]
      by_cases hc : g < dp
      · rw [if_pos hc, show min (dp - g) 1 = 1 from by omega]
        omega
      · rw [if_neg hc, show min (dp - g) 1 = 0 from by omega]
        omega
    rw [← hoff, hwd, ← hgetv]
    exact flatten_group L g hgL
  · rw [flattenLen L, hmaplen, widthSum ls dp hls1 (2 ^ d),
      if_neg (show ¬ 2 ^ d < dp from by omega)]

theorem new_builtRaw {α : Type*} (items : List α) (dc : α → α → Dist)
    (hne : 1 ≤ items.length) :
    ∃ t, VPTree.new items dc = some t ∧
      t.distance_calculator = dc ∧
      t.depth = depthFor items.length ∧
      t.leaf_size = items.length / 2 ^ depthFor items.length ∧
      BuiltRaw t (items.map (fun i => (i, (⊤ : Dist)))) ∧
      (treeItems t).Perm items := by
  set itemsD := items.map (fun i => (i, (⊤ : Dist))) with hitemsD
  set n := items.length with hn
  set d := depthFor n with hd
  set ls := n / 2 ^ d with hls
  have hd1 : (1 : ℕ) ≤ 2 ^ d := Nat.one_le_two_pow
  have hls1 : 1 ≤ ls := by
    rcases Nat.eq_zero_or_pos d with h0 | h0
    · rw [hls, h0]
      simpa using hne
    · have h2 := ls_ge_two (n := n) (by omega)
      rw [← hd] at h2
      rw [hls]
      omega
  have hls2 : d = 0 ∨ 2 ≤ ls := by
    rcases Nat.eq_zero_or_pos d with h0 | h0
    · exact Or.inl h0
    · right
      have h2 := ls_ge_two (n := n) (by omega)
      rw [← hd] at h2
      rw [hls]
      omega
  have hlow : 2 ^ d * ls ≤ n := by
    rw [hls, Nat.mul_comm]
    exact Nat.div_mul_le_self n (2 ^ d)
  have hhigh : n < 2 ^ d * (ls + 1) := by
    have hdm := Nat.div_add_mod n (2 ^ d)
    have hml : n % 2 ^ d < 2 ^ d := Nat.mod_lt _ (by omega)
    rw [hls, Nat.mul_add, Nat.mul_one]
    omega
  have hmul : 2 ^ d * ls = 2 ^ d * (ls - 1) + 2 ^ d := by
    obtain ⟨l, hl⟩ : ∃ l, ls = l + 1 := ⟨ls - 1, by omega⟩
    rw [hl]
    simp only [Nat.add_sub_cancel]
    ring
  have hlenD : itemsD.length = n := by rw [hitemsD, List.length_map, hn]
  have hlowD : 2 ^ d * ls ≤ itemsD.length := by rw [hlenD]; exact hlow
  have hhighD : itemsD.length < 2 ^ d * (ls + 1) := by rw [hlenD]; exact hhigh
  have hq0 : ∀ j, j < ([itemsD] : List (List (α × Dist))).length →
      posSlice dc d ls itemsD (0 + j) =
        ([itemsD] : List (List (α × Dist))).get? j := by
    intro j hj
    have hj0 : j = 0 := by simpa using hj
    subst hj0
    show posSlice dc d ls itemsD 0 = some itemsD
    rw [posSlice]
  obtain ⟨accF, queueF, hrun, haccLen, haccGet, hqLen, hqGet⟩ :=
    buildLoop_bridge dc d ls itemsD hls1 hls2 hlowD hhighD (2 ^ d - 1) 0
      [itemsD] [] (by omega) (by simp) hq0 rfl
      (by intro q hq; simp at hq)
  have hlo0 : loState d ls 0 = 2 ^ d - 1 + 2 ^ d * (ls - 1) := by
    unfold loState
    rw [if_pos rfl]
    omega
  have hhi0 : loState d (ls + 1) 0 = 2 ^ d - 1 + 2 ^ d * ls := by
    unfold loState
    rw [if_pos rfl]
    have h2 : 2 ^ d * (ls + 1) = 2 ^ d * ls + 2 ^ d := by ring
    omega
  rw [hlo0, hhi0] at hrun
  have hcont := buildLoop_content dc (2 ^ d - 1) [itemsD]
    (2 ^ d - 1 + 2 ^ d * (ls - 1)) (2 ^ d - 1 + 2 ^ d * ls) [] accF queueF hrun
  simp only [List.map_nil, List.nil_append, List.map_cons, List.flatten_cons,
    List.flatten_nil, List.append_nil] at hcont
  have hfst : itemsD.map Prod.fst = items := by
    rw [hitemsD, List.map_map]
    have hcomp : (Prod.fst ∘ fun i : α => (i, (⊤ : Dist))) = id := rfl
    rw [hcomp, List.map_id]
  rw [hfst] at hcont
  obtain ⟨hGrp, hLenF⟩ := groups_extract dc d ls itemsD hls1 hls2 hlowD hhighD
    queueF hqLen hqGet
  have hls0 : ¬ ls = 0 := by omega
  have hlow0 : 2 ^ d - 1 + 2 ^ d * (ls - 1) ≤ n := by omega
  have hnew : VPTree.new items dc =
      some ⟨dc, accF.map (fun p => (⟨p.1, p.2⟩ : Node α)),
        (queueF.map (fun sl => sl.map Prod.fst)).flatten, ls,
        n - (2 ^ d - 1 + 2 ^ d * (ls - 1)), d⟩ := by
    simp only [VPTree.new]
    rw [← hitemsD, ← hn, ← hd, ← hls]
    rw [if_neg hls0, if_pos hlow0, hrun]
  refine ⟨⟨dc, accF.map (fun p => (⟨p.1, p.2⟩ : Node α)),
      (queueF.map (fun sl => sl.map Prod.fst)).flatten, ls,
      n - (2 ^ d - 1 + 2 ^ d * (ls - 1)), d⟩, hnew, rfl, rfl, rfl, ?_, ?_⟩
  · unfold BuiltRaw
    refine ⟨hls1, hls2, hlowD, hhighD, ?_, ?_, ?_, ?_, ?_⟩
    · show n - (2 ^ d - 1 + 2 ^ d * (ls - 1)) = itemsD.length + 1 - 2 ^ d * ls
      rw [hlenD]
      omega
    · show (accF.map (fun p => (⟨p.1, p.2⟩ : Node α))).length = 2 ^ d - 1
      rw [List.length_map]
      exact haccLen
    · intro q hq
      have hq' : q < (accF.map (fun p => (⟨p.1, p.2⟩ : Node α))).length := hq
      rw [List.length_map] at hq'
      show (posNode dc d ls itemsD q).map (fun nd => (⟨nd.1, nd.2⟩ : Node α)) =
        (accF.map (fun p => (⟨p.1, p.2⟩ : Node α))).get? q
      rw [List.get?_map, ← haccGet q (by omega), Option.map_map]
      rfl
    · intro g hg
      have hg' : g < 2 ^ d := hg
      obtain ⟨sl, hsl, hdt⟩ := hGrp g hg'
      refine ⟨sl, hsl, ?_⟩
      show (((queueF.map (fun sl => sl.map Prod.fst)).flatten.drop
          ((VPTree.leafSpan ⟨dc, accF.map (fun p => (⟨p.1, p.2⟩ : Node α)),
            (queueF.map (fun sl => sl.map Prod.fst)).flatten, ls,
            n - (2 ^ d - 1 + 2 ^ d * (ls - 1)), d⟩ g).1)).take
          ((VPTree.leafSpan ⟨dc, accF.map (fun p => (⟨p.1, p.2⟩ : Node α)),
            (queueF.map (fun sl => sl.map Prod.fst)).flatten, ls,
            n - (2 ^ d - 1 + 2 ^ d * (ls - 1)), d⟩ g).2)) = sl.map Prod.fst
      unfold VPTree.leafSpan
      dsimp only
      rw [show n - (2 ^ d - 1 + 2 ^ d * (ls - 1)) =
        itemsD.length + 1 - 2 ^ d * ls from by rw [hlenD]; omega]
      by_cases hc : g < itemsD.length + 1 - 2 ^ d * ls
      · simp only [if_pos hc] at hdt ⊢
        exact hdt
      · simp only [if_neg hc] at hdt ⊢
        exact hdt
    · show ((queueF.map (fun sl => sl.map Prod.fst)).flatten).length =
        (n - (2 ^ d - 1 + 2 ^ d * (ls - 1))) * ls +
          (2 ^ d - (n - (2 ^ d - 1 + 2 ^ d * (ls - 1)))) * (ls - 1)
      rw [show n - (2 ^ d - 1 + 2 ^ d * (ls - 1)) =
        itemsD.length + 1 - 2 ^ d * ls from by rw [hlenD]; omega]
      exact hLenF
  · show ((accF.map (fun p => (⟨p.1, p.2⟩ : Node α))).map Node.vantage_point ++
      (queueF.map (fun sl => sl.map Prod.fst)).flatten).Perm items
    have hmm : (accF.map (fun p => (⟨p.1, p.2⟩ : Node α))).map
        Node.vantage_point = accF.map Prod.fst := by
      rw [List.map_map]
      rfl
    rw [hmm]
    exact hcont

theorem findIdx_offset {β : Type*} (p : List β → Bool) :
    ∀ (L : List (List β)) (k i : ℕ),
      (∀ j, (hj : j < L.length) → (p (L.get ⟨j, hj⟩) = true ↔ k ≤ j)) →
      (List.findIdx? p L i).getD (i + L.length) = i + min k L.length := by
  intro L
  induction L with
  | nil =>
    intro k i h
    rw [List.findIdx?_nil]
    simp
  | cons x xs ih =>
    intro k i h
    rw [List.findIdx?_cons]
    by_cases hx : p x = true
    · rw [if_pos hx]
      have hk : k = 0 := by
        have := (h 0 (by simp)).mp hx
        omega
      subst hk
      simp
    · rw [if_neg hx]
      have hk1 : ¬ k ≤ 0 := fun hc => hx ((h 0 (by simp)).mpr hc)
      have h' : ∀ j, (hj : j < xs.length) →
          (p (xs.get ⟨j, hj⟩) = true ↔ k - 1 ≤ j) := by
        intro j hj
        have hstep := h (j + 1) (by simpa using hj)
        constructor
        · intro hp
          have := hstep.mp hp
          omega
        · intro hj2
          exact hstep.mpr (by omega)
      have hrec := ih (k - 1) (i + 1) h'
      rw [show i + (x :: xs).length = i + 1 + xs.length from by
        simp only [List.length_cons]; omega]
      rw [show i + min k (x :: xs).length = i + 1 + min (k - 1) xs.length from by
        simp only [List.length_cons]; omega]
      exact hrec

theorem findIdx_getD {β : Type*} (p : List β → Bool) (L : List (List β)) (k : ℕ)
    (h : ∀ j, (hj : j < L.length) → (p (L.get ⟨j, hj⟩) = true ↔ k ≤ j)) :
    (List.findIdx? p L).getD L.length = min k L.length := by
  have hoff := findIdx_offset p L k 0 h
  simpa using hoff

theorem rebalance_builtRaw {α : Type*} (t : VPTree α)
    (hne : 1 ≤ t.nodes.length + t.leaves.length) :
    ∃ t', VPTree.rebalance t = some t' ∧
      t'.distance_calculator = t.distance_calculator ∧
      t'.depth = depthFor (t.nodes.length + t.leaves.length) ∧
      t'.leaf_size = (t.nodes.length + t.leaves.length) / 2 ^ t'.depth ∧
      BuiltRaw t' ((t.nodes.map (fun nd => (nd.vantage_point, (⊤ : Dist)))) ++
        (t.leaves.map (fun i => (i, (⊤ : Dist))))) ∧
      (treeItems t').Perm (treeItems t) := by
  set inp := (t.nodes.map (fun nd => (nd.vantage_point, (⊤ : Dist)))) ++
    (t.leaves.map (fun i => (i, (⊤ : Dist)))) with hinp
  set n := t.nodes.length + t.leaves.length with hn
  set d := depthFor n with hd
  set ls := n / 2 ^ d with hls
  have hd1 : (1 : ℕ) ≤ 2 ^ d := Nat.one_le_two_pow
  have hls1 : 1 ≤ ls := by
    rcases Nat.eq_zero_or_pos d with h0 | h0
    · rw [hls, h0]
      simpa using hne
    · have h2 := ls_ge_two (n := n) (by omega)
      rw [← hd] at h2
      rw [hls]
      omega
  have hls2 : d = 0 ∨ 2 ≤ ls := by
    rcases Nat.eq_zero_or_pos d with h0 | h0
    · exact Or.inl h0
    · right
      have h2 := ls_ge_two (n := n) (by omega)
      rw [← hd] at h2
      rw [hls]
      omega
  have hlow : 2 ^ d * ls ≤ n := by
    rw [hls, Nat.mul_comm]
    exact Nat.div_mul_le_self n (2 ^ d)
  have hhigh : n < 2 ^ d * (ls + 1) := by
    have hdm := Nat.div_add_mod n (2 ^ d)
    have hml : n % 2 ^ d < 2 ^ d := Nat.mod_lt _ (by omega)
    rw [hls, Nat.mul_add, Nat.mul_one]
    omega
  have hmul : 2 ^ d * ls = 2 ^ d * (ls - 1) + 2 ^ d := by
    obtain ⟨l, hl⟩ : ∃ l, ls = l + 1 := ⟨ls - 1, by omega⟩
    rw [hl]
    simp only [Nat.add_sub_cancel]
    ring
  have hlenI : inp.length = n := by
    rw [hinp, List.length_append, List.length_map, List.length_map, hn]
  have hlowI : 2 ^ d * ls ≤ inp.length := by rw [hlenI]; exact hlow
  have hhighI : inp.length < 2 ^ d * (ls + 1) := by rw [hlenI]; exact hhigh
  have hq0 : ∀ j, j < ([inp] : List (List (α × Dist))).length →
      posSlice t.distance_calculator d ls inp (0 + j) =
        ([inp] : List (List (α × Dist))).get? j := by
    intro j hj
    have hj0 : j = 0 := by simpa using hj
    subst hj0
    show posSlice t.distance_calculator d ls inp 0 = some inp
    rw [posSlice]
  obtain ⟨accF, queueF, hrun, haccLen, haccGet, hqLen, hqGet⟩ :=
    rebalanceLoop_bridge t.distance_calculator d ls inp hls1 hls2 hlowI hhighI
      (2 ^ d - 1) 0 [inp] [] (by omega) (by simp) hq0 rfl
      (by intro q hq; simp at hq)
  have hlo0 : loState d ls 0 = 2 ^ d - 1 + 2 ^ d * (ls - 1) := by
    unfold loState
    rw [if_pos rfl]
    omega
  have hlev0 : levelState 0 = 0 := by
    unfold levelState
    rw [if_pos rfl]
  rw [hlo0, hlev0] at hrun
  have hcont := rebalanceLoop_content t.distance_calculator d (2 ^ d - 1) [inp]
    (2 ^ d - 1 + 2 ^ d * (ls - 1)) 0 [] accF queueF hrun
  simp only [List.map_nil, List.nil_append, List.map_cons, List.flatten_cons,
    List.flatten_nil, List.append_nil] at hcont
  have hfst : inp.map Prod.fst = treeItems t := by
    rw [hinp, List.map_append, List.map_map, List.map_map]
    have h1 : (Prod.fst ∘ fun nd : Node α => (nd.vantage_point, (⊤ : Dist))) =
      Node.vantage_point := rfl
    have h2 : (Prod.fst ∘ fun i : α => (i, (⊤ : Dist))) = id := rfl
    rw [h1, h2, List.map_id]
    rfl
  rw [hfst] at hcont
  obtain ⟨hGrp, hLenF⟩ := groups_extract t.distance_calculator d ls inp hls1
    hls2 hlowI hhighI queueF hqLen hqGet
  have hls0 : ¬ ls = 0 := by omega
  have hguard : 2 ^ d - 1 ≤ n := by omega
  have hlenj : ∀ j, (hj : j < queueF.length) →
      (queueF.get ⟨j, hj⟩).length = ls - 1 + min (n + 1 - 2 ^ d * ls - j) 1 := by
    intro j hj
    obtain ⟨sl, hsl, hlen⟩ := posSlice_leaf_len t.distance_calculator d ls inp
      hls1 hls2 hlowI hhighI j (by omega)
    have hq : queueF.get? j = some sl := by rw [← hqGet j hj]; exact hsl
    have hg := List.get?_eq_get hj
    have hv : queueF.get ⟨j, hj⟩ = sl := Option.some.inj (hg.symm.trans hq)
    rw [hv, hlen, hlenI]
  have hpred : ∀ j, (hj : j < queueF.length) →
      ((fun leaf : List (α × Dist) => decide (leaf.length < ls))
        (queueF.get ⟨j, hj⟩) = true ↔ n + 1 - 2 ^ d * ls ≤ j) := by
    intro j hj
    simp only [decide_eq_true_eq]
    rw [hlenj j hj]
    omega
  have hfind := findIdx_getD
    (fun leaf : List (α × Dist) => decide (leaf.length < ls))
    queueF (n + 1 - 2 ^ d * ls) hpred
  rw [hqLen] at hfind
  have hdpEq : (queueF.findIdx?
      (fun leaf => leaf.length < ls)).getD (2 ^ d) = n + 1 - 2 ^ d * ls := by
    rw [hfind]
    have h2 : 2 ^ d * (ls + 1) = 2 ^ d * ls + 2 ^ d := by ring
    omega
  have hnew : VPTree.rebalance t =
      some ⟨t.distance_calculator, accF.map (fun p => (⟨p.1, p.2⟩ : Node α)),
        (queueF.map (fun sl => sl.map Prod.fst)).flatten, ls,
        (queueF.findIdx? (fun leaf => leaf.length < ls)).getD (2 ^ d), d⟩ := by
    simp only [VPTree.rebalance]
    rw [← hinp, hlenI, ← hd]
    rw [if_pos hguard]
    rw [show n - (2 ^ d - 1) + (2 ^ d - 1) = n from by omega, ← hls]
    rw [if_neg hls0]
    rw [show (2 ^ d - 1 + 1) = 2 ^ d from by omega]
    rw [hrun]
  refine ⟨⟨t.distance_calculator, accF.map (fun p => (⟨p.1, p.2⟩ : Node α)),
      (queueF.map (fun sl => sl.map Prod.fst)).flatten, ls,
      (queueF.findIdx? (fun leaf => leaf.length < ls)).getD (2 ^ d), d⟩,
    hnew, rfl, rfl, rfl, ?_, ?_⟩
  · unfold BuiltRaw
    refine ⟨hls1, hls2, hlowI, hhighI, ?_, ?_, ?_, ?_, ?_⟩
    · show (queueF.findIdx? (fun leaf => leaf.length < ls)).getD (2 ^ d) =
        inp.length + 1 - 2 ^ d * ls
      rw [hdpEq, hlenI]
    · show (accF.map (fun p => (⟨p.1, p.2⟩ : Node α))).length = 2 ^ d - 1
      rw [List.length_map]
      exact haccLen
    · intro q hq
      have hq' : q < (accF.map (fun p => (⟨p.1, p.2⟩ : Node α))).length := hq
      rw [List.length_map] at hq'
      show (posNode t.distance_calculator d ls inp q).map
          (fun nd => (⟨nd.1, nd.2⟩ : Node α)) =
        (accF.map (fun p => (⟨p.1, p.2⟩ : Node α))).get? q
      rw [List.get?_map, ← haccGet q (by omega), Option.map_map]
      rfl
    · intro g hg
      have hg' : g < 2 ^ d := hg
      obtain ⟨sl, hsl, hdt⟩ := hGrp g hg'
      refine ⟨sl, hsl, ?_⟩
      show (((queueF.map (fun sl => sl.map Prod.fst)).flatten.drop
          ((VPTree.leafSpan ⟨t.distance_calculator,
            accF.map (fun p => (⟨p.1, p.2⟩ : Node α)),
            (queueF.map (fun sl => sl.map Prod.fst)).flatten, ls,
            (queueF.findIdx? (fun leaf => leaf.length < ls)).getD (2 ^ d),
            d⟩ g).1)).take
          ((VPTree.leafSpan ⟨t.distance_calculator,
            accF.map (fun p => (⟨p.1, p.2⟩ : Node α)),
            (queueF.map (fun sl => sl.map Prod.fst)).flatten, ls,
            (queueF.findIdx? (fun leaf => leaf.length < ls)).getD (2 ^ d),
            d⟩ g).2)) = sl.map Prod.fst
      unfold VPTree.leafSpan
      dsimp only
      rw [show (queueF.findIdx? (fun leaf => leaf.length < ls)).getD (2 ^ d) =
        inp.length + 1 - 2 ^ d * ls from by rw [hdpEq, hlenI]]
      by_cases hc : g < inp.length + 1 - 2 ^ d * ls
      · simp only [if_pos hc] at hdt ⊢
        exact hdt
      · simp only [if_neg hc] at hdt ⊢
        exact hdt
    · show ((queueF.map (fun sl => sl.map Prod.fst)).flatten).length =
        ((queueF.findIdx? (fun leaf => leaf.length < ls)).getD (2 ^ d)) * ls +
          (2 ^ d - (queueF.findIdx?
            (fun leaf => leaf.length < ls)).getD (2 ^ d)) * (ls - 1)
      rw [show (queueF.findIdx? (fun leaf => leaf.length < ls)).getD (2 ^ d) =
        inp.length + 1 - 2 ^ d * ls from by rw [hdpEq, hlenI]]
      exact hLenF
  · show ((accF.map (fun p => (⟨p.1, p.2⟩ : Node α))).map Node.vantage_point ++
      (queueF.map (fun sl => sl.map Prod.fst)).flatten).Perm (treeItems t)
    have hmm : (accF.map (fun p => (⟨p.1, p.2⟩ : Node α))).map
        Node.vantage_point = accF.map Prod.fst := by
      rw [List.map_map]
      rfl
    rw [hmm]
    exact hcont

theorem len_arith (A ls N : ℕ) (hA : 1 ≤ A) (hls : 1 ≤ ls)
    (hlow : A * ls ≤ N) (hhigh : N < A * (ls + 1)) :
    A - 1 + ((N + 1 - A * ls) * ls +
      (A - (N + 1 - A * ls)) * (ls - 1)) = N := by
  obtain ⟨l, rfl⟩ : ∃ l, ls = l + 1 := ⟨ls - 1, by omega⟩
  have h2 : A * (l + 1 + 1) = A * (l + 1) + A := by ring
  have hdp1 : 1 ≤ N + 1 - A * (l + 1) := by omega
  have hdp2 : N + 1 - A * (l + 1) ≤ A := by omega
  obtain ⟨c, hc⟩ : ∃ c, A = (N + 1 - A * (l + 1)) + c :=
    ⟨A - (N + 1 - A * (l + 1)), by omega⟩
  have e1 : (N + 1 - A * (l + 1)) * (l + 1) =
      (N + 1 - A * (l + 1)) * l + (N + 1 - A * (l + 1)) := by ring
  have e2 : (A - (N + 1 - A * (l + 1))) * (l + 1 - 1) = c * l := by
    rw [show A - (N + 1 - A * (l + 1)) = c from by omega,
      show l + 1 - 1 = l from by omega]
  have e3 : A * (l + 1) = (N + 1 - A * (l + 1)) * l +
      (N + 1 - A * (l + 1)) + (c * l + c) := by
    conv_lhs => rw [hc]
    ring
  omega

theorem builtRaw_len {α : Type*} (t : VPTree α) (inp : List (α × Dist))
    (hb : BuiltRaw t inp) : t.len = inp.length := by
  obtain ⟨hls1, hls2, hlow, hhigh, hdp, hnlen, hnget, hgrp, hllen⟩ := hb
  unfold VPTree.len
  rw [hnlen, hllen, hdp]
  exact len_arith (2 ^ t.depth) t.leaf_size inp.length Nat.one_le_two_pow
    hls1 hlow hhigh

theorem builtRaw_layout {α : Type*} (t : VPTree α) (inp : List (α × Dist))
    (hb : BuiltRaw t inp) : Layout t := by
  obtain ⟨hls1, hls2, hlow, hhigh, hdp, hnlen, hnget, hgrp, hllen⟩ := hb
  have hd1 : (1 : ℕ) ≤ 2 ^ t.depth := Nat.one_le_two_pow
  have h2 : 2 ^ t.depth * (t.leaf_size + 1) =
      2 ^ t.depth * t.leaf_size + 2 ^ t.depth := by ring
  unfold Layout
  exact ⟨hnlen, hls1, by rw [hdp]; omega, by rw [hdp]; omega, hllen, hls2⟩

theorem builtRaw_sub {α : Type*} (t : VPTree α) (inp : List (α × Dist))
    (hb : BuiltRaw t inp) :
    ∀ j p, p < 2 ^ (t.depth + 1) - 1 → 2 ^ (t.depth + 1) - 1 - p ≤ j →
      ∃ sl, posSlice t.distance_calculator t.depth t.leaf_size inp p =
          some sl ∧
        (subItems t p).Perm (sl.map Prod.fst) := by
  obtain ⟨hls1, hls2, hlow, hhigh, hdp, hnlen, hnget, hgrp, hllen⟩ := hb
  have hd1 : (1 : ℕ) ≤ 2 ^ t.depth := Nat.one_le_two_pow
  have h2d : (2 : ℕ) ^ (t.depth + 1) = 2 * 2 ^ t.depth := by rw [pow_succ]; ring
  intro j
  induction j with
  | zero =>
    intro p hp hj
    omega
  | succ j ih =>
    intro p hp hj
    by_cases hnode : p < t.nodes.length
    · have hq : p < 2 ^ t.depth - 1 := by omega
      obtain ⟨slq, vp, r, near, far, hslq, hstep, hnodeq, hnearq, hfarq, hnl,
        hfl, hperm, hnd, hfd⟩ :=
        posNode_spec t.distance_calculator t.depth t.leaf_size inp hls1 hls2
          hlow hhigh p hq
      obtain ⟨sln, hsln, hpn⟩ := ih (2 * p + 1) (by omega) (by omega)
      obtain ⟨slf, hslf, hpf⟩ := ih (2 * p + 2) (by omega) (by omega)
      have hvn : sln = near := Option.some.inj (hsln.symm.trans hnearq)
      have hvf : slf = far := Option.some.inj (hslf.symm.trans hfarq)
      subst hvn hvf
      refine ⟨slq, hslq, ?_⟩
      rw [subItems_eq, dif_pos hnode]
      have hgn : t.nodes.get? p = some ⟨vp, r⟩ := by
        rw [← hnget p hnode, hnodeq]
        rfl
      have hgv : t.nodes.get ⟨p, hnode⟩ = ⟨vp, r⟩ :=
        Option.some.inj ((List.get?_eq_get hnode).symm.trans hgn)
      rw [hgv]
      refine List.Perm.trans ?_ hperm.symm
      exact List.Perm.cons vp (hpn.append hpf)
    · have hg : p - t.nodes.length < 2 ^ t.depth := by omega
      obtain ⟨sl, hsl, hdt⟩ := hgrp (p - t.nodes.length) hg
      have hpe : 2 ^ t.depth - 1 + (p - t.nodes.length) = p := by omega
      rw [hpe] at hsl
      refine ⟨sl, hsl, ?_⟩
      rw [subItems_eq, dif_neg hnode, hdt]

theorem builtRaw_partOK {α : Type*} (t : VPTree α) (inp : List (α × Dist))
    (hb : BuiltRaw t inp) : PartOK t := by
  have hsub := builtRaw_sub t inp hb (2 ^ (t.depth + 1) - 1)
  obtain ⟨hls1, hls2, hlow, hhigh, hdp, hnlen, hnget, hgrp, hllen⟩ := hb
  have hd1 : (1 : ℕ) ≤ 2 ^ t.depth := Nat.one_le_two_pow
  have h2d : (2 : ℕ) ^ (t.depth + 1) = 2 * 2 ^ t.depth := by rw [pow_succ]; ring
  intro i h
  have hq : i < 2 ^ t.depth - 1 := by omega
  obtain ⟨slq, vp, r, near, far, hslq, hstep, hnodeq, hnearq, hfarq, hnl, hfl,
    hperm, hnd, hfd⟩ :=
    posNode_spec t.distance_calculator t.depth t.leaf_size inp hls1 hls2 hlow
      hhigh i hq
  have hgn : t.nodes.get? i = some ⟨vp, r⟩ := by
    rw [← hnget i h, hnodeq]
    rfl
  have hgv : t.nodes.get ⟨i, h⟩ = ⟨vp, r⟩ :=
    Option.some.inj ((List.get?_eq_get h).symm.trans hgn)
  obtain ⟨sln, hsln, hpn⟩ := hsub (2 * i + 1) (by omega) (by omega)
  obtain ⟨slf, hslf, hpf⟩ := hsub (2 * i + 2) (by omega) (by omega)
  have hvn : sln = near := Option.some.inj (hsln.symm.trans hnearq)
  have hvf : slf = far := Option.some.inj (hslf.symm.trans hfarq)
  rw [hvn] at hpn
  rw [hvf] at hpf
  rw [hgv]
  constructor
  · intro x hx
    have hx' : x ∈ near.map Prod.fst := hpn.mem_iff.mp hx
    obtain ⟨pr, hpr, rfl⟩ := List.mem_map.mp hx'
    have hfact := hnd pr hpr
    show t.distance_calculator vp pr.1 ≤ r
    rw [← hfact.1]
    exact hfact.2
  · intro x hx
    have hx' : x ∈ far.map Prod.fst := hpf.mem_iff.mp hx
    obtain ⟨pr, hpr, rfl⟩ := List.mem_map.mp hx'
    have hfact := hfd pr hpr
    show r ≤ t.distance_calculator vp pr.1
    rw [← hfact.1]
    exact hfact.2

/-! ## Traversal: position space and measures -/

theorem psize_node (b i : ℕ) (h : i < b) :
    psize b i = psize b (2 * i + 1) + psize b (2 * i + 2) + 1 := by
  rw [psize, if_pos h]

theorem psize_out (b i : ℕ) (h : ¬ i < b) : psize b i = 0 := by
  rw [psize, if_neg h]

theorem posItems_node {α : Type*} (t : VPTree α) (i : ℕ)
    (h : i < t.nodes.length) :
    posItems t i = i :: (posItems t (2 * i + 1) ++ posItems t (2 * i + 2)) := by
  rw [posItems, if_pos h]

theorem posItems_leaf {α : Type*} (t : VPTree α) (i : ℕ)
    (h : ¬ i < t.nodes.length) :
    posItems t i = (List.range (t.leafSpan (i - t.nodes.length)).2).map
      (fun j => (t.leafSpan (i - t.nodes.length)).1 + j + t.nodes.length) := by
  rw [posItems, if_neg h]

theorem leafSpan_bound {α : Type*} (t : VPTree α) (hLay : Layout t) :
    ∀ g, g < 2 ^ t.depth →
      (t.leafSpan g).1 + (t.leafSpan g).2 ≤ t.leaves.length := by
  obtain ⟨hN, hls1, hdp1, hdp2, hlen, hd0⟩ := hLay
  intro g hg
  unfold VPTree.leafSpan
  by_cases hc : g < t.decrementation_point
  · rw [if_pos hc]
    dsimp only
    have h1 : g * t.leaf_size + t.leaf_size = (g + 1) * t.leaf_size := by ring
    have h2 : (g + 1) * t.leaf_size ≤ t.decrementation_point * t.leaf_size :=
      Nat.mul_le_mul_right _ (by omega)
    omega
  · rw [if_neg hc]
    dsimp only
    have h1 : t.decrementation_point * t.leaf_size +
        (g - t.decrementation_point) * (t.leaf_size - 1) + (t.leaf_size - 1) =
        t.decrementation_point * t.leaf_size +
          (g - t.decrementation_point + 1) * (t.leaf_size - 1) := by ring
    have h2 : (g - t.decrementation_point + 1) * (t.leaf_size - 1) ≤
        (2 ^ t.depth - t.decrementation_point) * (t.leaf_size - 1) :=
      Nat.mul_le_mul_right _ (by omega)
    omega

theorem pdist_some {α : Type*} (t : VPTree α) (needle : α) (p : ℕ) (x : α)
    (h : t.itemAt p = some x) :
    VPTree.pdist t needle p = t.distance_calculator needle x := by
  unfold VPTree.pdist
  rw [h]

theorem posBridge {α : Type*} (t : VPTree α) (hLay : Layout t) :
    ∀ j i, i < 2 ^ (t.depth + 1) - 1 → 2 ^ (t.depth + 1) - 1 - i ≤ j →
      (posItems t i).map (fun p => t.itemAt p) = (subItems t i).map some := by
  have hN := hLay.1
  have hd1 : (1 : ℕ) ≤ 2 ^ t.depth := Nat.one_le_two_pow
  have h2d : (2 : ℕ) ^ (t.depth + 1) = 2 * 2 ^ t.depth := by rw [pow_succ]; ring
  intro j
  induction j with
  | zero =>
    intro i hi hj
    omega
  | succ j ih =>
    intro i hi hj
    by_cases h : i < t.nodes.length
    · rw [posItems_node t i h, subItems_eq, dif_pos h]
      simp only [List.map_cons, List.map_append]
      rw [ih (2 * i + 1) (by omega) (by omega),
        ih (2 * i + 2) (by omega) (by omega)]
      have hhd : t.itemAt i = some (t.nodes.get ⟨i, h⟩).vantage_point := by
        unfold VPTree.itemAt
        rw [if_pos h, List.get?_eq_get h]
        rfl
      rw [hhd]
    · rw [posItems_leaf t i h, subItems_eq, dif_neg h]
      have hg : i - t.nodes.length < 2 ^ t.depth := by omega
      have hb := leafSpan_bound t hLay (i - t.nodes.length) hg
      refine List.ext_get ?_ ?_
      · simp only [List.length_map, List.length_range, List.length_take,
          List.length_drop]
        omega
      · intro m h1 h2
        have hm : m < (t.leafSpan (i - t.nodes.length)).2 := by
          simpa using h1
        have hmlt : (t.leafSpan (i - t.nodes.length)).1 + m <
            t.leaves.length := by omega
        simp only [List.get_eq_getElem, List.getElem_map, List.getElem_range,
          List.getElem_take, List.getElem_drop]
        unfold VPTree.itemAt
        rw [if_neg (by omega)]
        rw [show (t.leafSpan (i - t.nodes.length)).1 + m + t.nodes.length -
          t.nodes.length = (t.leafSpan (i - t.nodes.length)).1 + m from by
            omega]
        rw [List.get?_eq_get hmlt]
        simp [List.get_eq_getElem]

theorem posMem {α : Type*} (t : VPTree α) (hLay : Layout t) (i : ℕ)
    (hi : i < 2 ^ (t.depth + 1) - 1) :
    ∀ p ∈ posItems t i, ∃ x, t.itemAt p = some x ∧ x ∈ subItems t i := by
  intro p hp
  have hb := posBridge t hLay (2 ^ (t.depth + 1) - 1) i hi (by omega)
  have hm : t.itemAt p ∈ (posItems t i).map (fun p => t.itemAt p) :=
    List.mem_map_of_mem _ hp
  rw [hb] at hm
  obtain ⟨x, hx, hxe⟩ := List.mem_map.mp hm
  exact ⟨x, hxe.symm, hx⟩

theorem scanSliceOK {α σ : Type*} (t : VPTree α) (needle : α)
    (consider : ℕ → Dist → σ → Option σ) (PI : σ → List ℕ → Prop)
    (hCons : ∀ i s V, PI s V →
      ∃ s', consider i (VPTree.pdist t needle i) s = some s' ∧ PI s' (V ++ [i]))
    (st : ℕ) :
    ∀ (xs : List α) (i : ℕ) (s : σ) (V : List ℕ),
      (∀ j, (hj : j < xs.length) →
        t.distance_calculator needle (xs.get ⟨j, hj⟩) =
          VPTree.pdist t needle (st + (i + j) + t.nodes.length)) →
      PI s V →
      ∃ s', scanSlice t.distance_calculator needle t.nodes.length consider st
          xs i s = some s' ∧
        PI s' (V ++ (List.range xs.length).map
          (fun j => st + (i + j) + t.nodes.length)) := by
  intro xs
  induction xs with
  | nil =>
    intro i s V hx hPI
    exact ⟨s, rfl, by simpa using hPI⟩
  | cons x xs ih =>
    intro i s V hx hPI
    obtain ⟨s1, hc1, hPI1⟩ := hCons (st + i + t.nodes.length) s V hPI
    have hd0 : t.distance_calculator needle x =
        VPTree.pdist t needle (st + i + t.nodes.length) := by
      have h0 := hx 0 (by simp)
      simpa using h0
    have hx' : ∀ j, (hj : j < xs.length) →
        t.distance_calculator needle (xs.get ⟨j, hj⟩) =
          VPTree.pdist t needle (st + (i + 1 + j) + t.nodes.length) := by
      intro j hj
      have hs := hx (j + 1) (by simpa using hj)
      rw [show (x :: xs).get ⟨j + 1, by simpa using hj⟩ = xs.get ⟨j, hj⟩
        from rfl] at hs
      rw [hs]
      congr 1
      omega
    obtain ⟨s', hrec, hPI'⟩ := ih (i + 1) s1 (V ++ [st + i + t.nodes.length])
      hx' hPI1
    refine ⟨s', ?_, ?_⟩
    · rw [scanSlice, hd0, hc1]
      exact hrec
    · have hEq : (V ++ [st + i + t.nodes.length]) ++
          (List.range xs.length).map
            (fun j => st + (i + 1 + j) + t.nodes.length) =
          V ++ (List.range (x :: xs).length).map
            (fun j => st + (i + j) + t.nodes.length) := by
        rw [List.length_cons, List.range_succ_eq_map, List.map_cons,
          List.map_map]
        have hfun : (List.range xs.length).map
            (fun j => st + (i + 1 + j) + t.nodes.length) =
            (List.range xs.length).map
              ((fun j => st + (i + j) + t.nodes.length) ∘ Nat.succ) := by
          refine List.map_congr_left ?_
          intro a _
          show st + (i + 1 + a) + t.nodes.length =
            st + (i + (a + 1)) + t.nodes.length
          omega
        rw [hfun]
        simp
      rw [hEq] at hPI'
      exact hPI'

theorem scanLeafOK {α σ : Type*} (t : VPTree α) (needle : α)
    (consider : ℕ → Dist → σ → Option σ) (PI : σ → List ℕ → Prop)
    (hLay : Layout t)
    (hCons : ∀ i s V, PI s V →
      ∃ s', consider i (VPTree.pdist t needle i) s = some s' ∧ PI s' (V ++ [i]))
    (i : ℕ) (hge : ¬ i < t.nodes.length) (hi : i < 2 ^ (t.depth + 1) - 1)
    (s : σ) (V : List ℕ) (hPI : PI s V) :
    ∃ s', t.scanLeaf needle consider (i - t.nodes.length) s = some s' ∧
      PI s' (V ++ posItems t i) := by
  have hN := hLay.1
  have hls1 := hLay.2.1
  have hd1 : (1 : ℕ) ≤ 2 ^ t.depth := Nat.one_le_two_pow
  have h2d : (2 : ℕ) ^ (t.depth + 1) = 2 * 2 ^ t.depth := by rw [pow_succ]; ring
  have hg : i - t.nodes.length < 2 ^ t.depth := by omega
  have hb := leafSpan_bound t hLay (i - t.nodes.length) hg
  have hx : ∀ j, (hj : j < ((t.leaves.drop
      (t.leafSpan (i - t.nodes.length)).1).take
      (t.leafSpan (i - t.nodes.length)).2).length) →
      t.distance_calculator needle (((t.leaves.drop
        (t.leafSpan (i - t.nodes.length)).1).take
        (t.leafSpan (i - t.nodes.length)).2).get ⟨j, hj⟩) =
        VPTree.pdist t needle ((t.leafSpan (i - t.nodes.length)).1 + (0 + j) +
          t.nodes.length) := by
    intro j hj
    have hjw : j < (t.leafSpan (i - t.nodes.length)).2 := by
      simp only [List.length_take, List.length_drop] at hj
      omega
    have hlt : (t.leafSpan (i - t.nodes.length)).1 + j < t.leaves.length := by
      omega
    have hgetx : ((t.leaves.drop (t.leafSpan (i - t.nodes.length)).1).take
        (t.leafSpan (i - t.nodes.length)).2).get ⟨j, hj⟩ =
        t.leaves.get ⟨(t.leafSpan (i - t.nodes.length)).1 + j, hlt⟩ := by
      simp only [List.get_eq_getElem, List.getElem_take, List.getElem_drop]
    have hitem : t.itemAt ((t.leafSpan (i - t.nodes.length)).1 + (0 + j) +
        t.nodes.length) = some (t.leaves.get
          ⟨(t.leafSpan (i - t.nodes.length)).1 + j, hlt⟩) := by
      unfold VPTree.itemAt
      rw [if_neg (by omega)]
      rw [show (t.leafSpan (i - t.nodes.length)).1 + (0 + j) +
        t.nodes.length - t.nodes.length =
        (t.leafSpan (i - t.nodes.length)).1 + j from by omega]
      rw [List.get?_eq_get hlt]
    rw [hgetx, pdist_some t needle _ _ hitem]
  obtain ⟨s', hrun, hPI'⟩ := scanSliceOK t needle consider PI hCons
    (t.leafSpan (i - t.nodes.length)).1
    ((t.leaves.drop (t.leafSpan (i - t.nodes.length)).1).take
      (t.leafSpan (i - t.nodes.length)).2) 0 s V hx hPI
  refine ⟨s', ?_, ?_⟩
  · simp only [VPTree.scanLeaf]
    rw [if_neg (by rintro ⟨hc1, hc2⟩; omega), if_pos hb]
    exact hrun
  · have hEq : V ++ (List.range ((t.leaves.drop
        (t.leafSpan (i - t.nodes.length)).1).take
        (t.leafSpan (i - t.nodes.length)).2).length).map
        (fun j => (t.leafSpan (i - t.nodes.length)).1 + (0 + j) +
          t.nodes.length) = V ++ posItems t i := by
      rw [posItems_leaf t i hge]
      congr 1
      rw [show ((t.leaves.drop (t.leafSpan (i - t.nodes.length)).1).take
        (t.leafSpan (i - t.nodes.length)).2).length =
        (t.leafSpan (i - t.nodes.length)).2 from by
          simp only [List.length_take, List.length_drop]; omega]
      refine List.map_congr_left ?_
      intro a _
      omega
    rw [hEq] at hPI'
    exact hPI'

theorem travOK {α σ : Type*} (t : VPTree α) (needle : α)
    (consider : ℕ → Dist → σ → Option σ) (reenter : σ → Dist → Option Bool)
    (PI : σ → List ℕ → Prop)
    (hLay : Layout t) (hPart : PartOK t)
    (hSym : ∀ x y, t.distance_calculator x y = t.distance_calculator y x)
    (hTri : ∀ x y z, t.distance_calculator x z ≤
      t.distance_calculator x y + t.distance_calculator y z)
    (hPerm : ∀ s V W, V.Perm W → PI s V → PI s W)
    (hCons : ∀ i s V, PI s V →
      ∃ s', consider i (VPTree.pdist t needle i) s = some s' ∧ PI s' (V ++ [i]))
    (hReent : ∀ s V gap, PI s V → V ≠ [] →
      ∃ b, reenter s gap = some b ∧
        (b = false → ∀ P, (∀ p ∈ P, gap ≤ VPTree.pdist t needle p) →
          PI s (V ++ P))) :
    ∀ fuel,
      (∀ index s stack V,
        2 * (psize (2 * t.nodes.length + 1) index +
          (stack.map (fun e => psize (2 * t.nodes.length + 1) e.1)).sum) +
          stack.length < fuel →
        index < 2 ^ (t.depth + 1) - 1 →
        (∀ e ∈ stack, e.1 < 2 ^ (t.depth + 1) - 1 ∧
          ∀ q ∈ posItems t e.1, e.2 ≤ VPTree.pdist t needle q) →
        (stack ≠ [] → V ≠ []) →
        PI s V →
        ∃ sF, travGo t needle consider reenter fuel index s stack = some sF ∧
          PI sF ((V ++ posItems t index) ++
            (stack.map (fun e => posItems t e.1)).flatten)) ∧
      (∀ s stack V,
        2 * (stack.map (fun e => psize (2 * t.nodes.length + 1) e.1)).sum +
          stack.length < fuel →
        (∀ e ∈ stack, e.1 < 2 ^ (t.depth + 1) - 1 ∧
          ∀ q ∈ posItems t e.1, e.2 ≤ VPTree.pdist t needle q) →
        (stack ≠ [] → V ≠ []) →
        PI s V →
        ∃ sF, travPop t needle consider reenter fuel s stack = some sF ∧
          PI sF (V ++ (stack.map (fun e => posItems t e.1)).flatten)) := by
  have hN := hLay.1
  have hd1 : (1 : ℕ) ≤ 2 ^ t.depth := Nat.one_le_two_pow
  have h2d : (2 : ℕ) ^ (t.depth + 1) = 2 * 2 ^ t.depth := by rw [pow_succ]; ring
  intro fuel
  induction fuel with
  | zero =>
    constructor
    · intro index s stack V hmeas
      omega
    · intro s stack V hmeas
      omega
  | succ fuel ih =>
    obtain ⟨ihGo, ihPop⟩ := ih
    constructor
    · intro index s stack V hmeas hidx hstack hSV hPI
      by_cases h : index < t.nodes.length
      · have hget := List.get?_eq_get h
        set nd := t.nodes.get ⟨index, h⟩ with hnd
        have hpd : VPTree.pdist t needle index =
            t.distance_calculator needle nd.vantage_point := by
          unfold VPTree.pdist VPTree.itemAt
          rw [if_pos h, hget]
          rfl
        obtain ⟨s', hcs, hPI'⟩ := hCons index s V hPI
        have hfarB : ∀ q ∈ posItems t (2 * index + 2),
            nd.radius - VPTree.pdist t needle index ≤
              VPTree.pdist t needle q := by
          intro q hq
          obtain ⟨x, hxi, hxs⟩ := posMem t hLay (2 * index + 2) (by omega) q hq
          rw [pdist_some t needle q x hxi, hpd]
          have h1 : nd.radius ≤ t.distance_calculator nd.vantage_point x :=
            (hPart index h).2 x hxs
          have h2 := hTri nd.vantage_point needle x
          rw [hSym nd.vantage_point needle] at h2
          exact tsub_le_iff_left.mpr (le_trans h1 h2)
        have hnearB : ∀ q ∈ posItems t (2 * index + 1),
            VPTree.pdist t needle index - nd.radius ≤
              VPTree.pdist t needle q := by
          intro q hq
          obtain ⟨x, hxi, hxs⟩ := posMem t hLay (2 * index + 1) (by omega) q hq
          rw [pdist_some t needle q x hxi, hpd]
          have h1 : t.distance_calculator nd.vantage_point x ≤ nd.radius :=
            (hPart index h).1 x hxs
          have h2 := hTri needle x nd.vantage_point
          have h3 : t.distance_calculator x nd.vantage_point ≤ nd.radius := by
            rw [hSym x nd.vantage_point]
            exact h1
          refine tsub_le_iff_right.mpr ?_
          calc t.distance_calculator needle nd.vantage_point ≤
              t.distance_calculator needle x +
                t.distance_calculator x nd.vantage_point := h2
            _ ≤ t.distance_calculator needle x + nd.radius :=
              add_le_add_left h3 _
        have hstep : travGo t needle consider reenter (fuel + 1) index s
            stack = (match consider index
              (t.distance_calculator needle nd.vantage_point) s with
            | none => none
            | some s' =>
              if t.distance_calculator needle nd.vantage_point < nd.radius then
                travGo t needle consider reenter fuel (2 * index + 1) s'
                  ((2 * index + 2, nd.radius -
                    t.distance_calculator needle nd.vantage_point) :: stack)
              else
                travGo t needle consider reenter fuel (2 * index + 2) s'
                  ((2 * index + 1, t.distance_calculator needle
                    nd.vantage_point - nd.radius) :: stack)) := by
          rw [travGo, hget]
        rw [hstep, ← hpd, hcs]
        simp only []
        rw [psize_node (2 * t.nodes.length + 1) index (by omega)] at hmeas
        by_cases hlt : VPTree.pdist t needle index < nd.radius
        · rw [if_pos hlt]
          obtain ⟨sF, hrun, hPIF⟩ := ihGo (2 * index + 1) s'
            ((2 * index + 2, nd.radius - VPTree.pdist t needle index) :: stack)
            (V ++ [index])
            (by simp only [List.map_cons, List.sum_cons, List.length_cons]
                omega)
            (by omega)
            (by intro e he
                rcases List.mem_cons.mp he with he0 | hmem
                · subst he0
                  exact ⟨by omega, hfarB⟩
                · exact hstack e hmem)
            (fun _ => by simp)
            hPI'
          refine ⟨sF, hrun, hPerm _ _ _ ?_ hPIF⟩
          rw [← Multiset.coe_eq_coe]
          simp only [posItems_node t index h, List.map_cons, List.flatten_cons,
            ← Multiset.coe_add, ← Multiset.cons_coe,
            ← Multiset.singleton_add]
          abel
        · rw [if_neg hlt]
          obtain ⟨sF, hrun, hPIF⟩ := ihGo (2 * index + 2) s'
            ((2 * index + 1, VPTree.pdist t needle index - nd.radius) :: stack)
            (V ++ [index])
            (by simp only [List.map_cons, List.sum_cons, List.length_cons]
                omega)
            (by omega)
            (by intro e he
                rcases List.mem_cons.mp he with he0 | hmem
                · subst he0
                  exact ⟨by omega, hnearB⟩
                · exact hstack e hmem)
            (fun _ => by simp)
            hPI'
          refine ⟨sF, hrun, hPerm _ _ _ ?_ hPIF⟩
          rw [← Multiset.coe_eq_coe]
          simp only [posItems_node t index h, List.map_cons, List.flatten_cons,
            ← Multiset.coe_add, ← Multiset.cons_coe,
            ← Multiset.singleton_add]
          abel
      · have hgetn : t.nodes.get? index = none := by
          rw [List.get?_eq_none]
          omega
        have hstep : travGo t needle consider reenter (fuel + 1) index s
            stack = (match t.scanLeaf needle consider
              (index - t.nodes.length) s with
            | none => none
            | some s' => travPop t needle consider reenter fuel s' stack) := by
          rw [travGo, hgetn]
        obtain ⟨s1, hscan, hPI1⟩ :=
          scanLeafOK t needle consider PI hLay hCons index h hidx s V hPI
        rw [psize_node (2 * t.nodes.length + 1) index (by omega)] at hmeas
        obtain ⟨sF, hrun, hPIF⟩ := ihPop s1 stack (V ++ posItems t index)
          (by omega)
          hstack
          (by intro hs hcon
              exact hSV hs (List.append_eq_nil.mp hcon).1)
          hPI1
        refine ⟨sF, ?_, hPIF⟩
        rw [hstep, hscan]
        exact hrun
    · intro s stack V hmeas hstack hSV hPI
      cases stack with
      | nil =>
        refine ⟨s, rfl, ?_⟩
        simpa using hPI
      | cons e rest =>
        obtain ⟨pi, gap⟩ := e
        have hVne : V ≠ [] := hSV (by simp)
        obtain ⟨b, hre, hskip⟩ := hReent s V gap hPI hVne
        have hhead := hstack (pi, gap) (by simp)
        have hstep : travPop t needle consider reenter (fuel + 1) s
            ((pi, gap) :: rest) = (match reenter s gap with
            | none => none
            | some b =>
              if b then
                match t.nodes.get? pi with
                | some _ => travGo t needle consider reenter fuel pi s rest
                | none =>
                  match t.scanLeaf needle consider (pi - t.nodes.length) s with
                  | none => none
                  | some s' => travPop t needle consider reenter fuel s' rest
              else travPop t needle consider reenter fuel s rest) := by
          rw [travPop]
        rw [hstep, hre]
        simp only []
        simp only [List.map_cons, List.sum_cons, List.length_cons] at hmeas
        cases b with
        | true =>
          rw [if_pos rfl]
          by_cases hpin : pi < t.nodes.length
          · have hgetp := List.get?_eq_get hpin
            rw [hgetp]
            obtain ⟨sF, hrun, hPIF⟩ := ihGo pi s rest V
              (by omega)
              hhead.1
              (fun e he => hstack e (List.mem_cons_of_mem _ he))
              (fun hs => hVne)
              hPI
            refine ⟨sF, hrun, hPerm _ _ _ ?_ hPIF⟩
            rw [← Multiset.coe_eq_coe]
            simp only [List.map_cons, List.flatten_cons, ← Multiset.coe_add]
            abel
          · have hgetn : t.nodes.get? pi = none := by
              rw [List.get?_eq_none]
              omega
            rw [hgetn]
            obtain ⟨s1, hscan, hPI1⟩ := scanLeafOK t needle consider PI hLay
              hCons pi hpin hhead.1 s V hPI
            rw [hscan]
            obtain ⟨sF, hrun, hPIF⟩ := ihPop s1 rest (V ++ posItems t pi)
              (by omega)
              (fun e he => hstack e (List.mem_cons_of_mem _ he))
              (fun hs hcon => hVne (List.append_eq_nil.mp hcon).1)
              hPI1
            refine ⟨sF, hrun, hPerm _ _ _ ?_ hPIF⟩
            rw [← Multiset.coe_eq_coe]
            simp only [List.map_cons, List.flatten_cons, ← Multiset.coe_add]
            abel
        | false =>
          rw [if_neg (by simp)]
          have hPIsk := hskip rfl (posItems t pi) hhead.2
          obtain ⟨sF, hrun, hPIF⟩ := ihPop s rest (V ++ posItems t pi)
            (by omega)
            (fun e he => hstack e (List.mem_cons_of_mem _ he))
            (fun hs hcon => hVne (List.append_eq_nil.mp hcon).1)
            hPIsk
          refine ⟨sF, hrun, hPerm _ _ _ ?_ hPIF⟩
          rw [← Multiset.coe_eq_coe]
          simp only [List.map_cons, List.flatten_cons, ← Multiset.coe_add]
          abel

/-! ## Traversal: entry facts and result resolution -/

theorem psize_complete_out (m i : ℕ) (hge : ¬ i < 2 ^ m - 1) :
    psize (2 ^ m - 1) i = 2 ^ (m - lvl i) - 1 := by
  rw [psize_out _ _ hge]
  have h1 : (1 : ℕ) ≤ 2 ^ m := Nat.one_le_two_pow
  rcases Nat.eq_zero_or_pos m with h0 | h0
  · rw [h0]
    simp
  · have h2 : 2 ^ m ≤ i + 1 := by omega
    have hlvl : m ≤ lvl i := by
      unfold lvl
      exact (Nat.pow_le_iff_le_log (by norm_num) (by omega)).mp h2
    rw [show m - lvl i = 0 from by omega]
    simp

theorem psize_complete (m : ℕ) :
    ∀ j i, 2 ^ m - 1 - i ≤ j → psize (2 ^ m - 1) i = 2 ^ (m - lvl i) - 1 := by
  intro j
  induction j with
  | zero =>
    intro i hj
    exact psize_complete_out m i (by omega)
  | succ j ih =>
    intro i hj
    by_cases h : i < 2 ^ m - 1
    · have h1 : (1 : ℕ) ≤ 2 ^ m := Nat.one_le_two_pow
      have hm1 : 1 ≤ m := by
        by_contra h0
        have hz : m = 0 := by omega
        rw [hz] at h
        omega
      have hlvl : lvl i ≤ m - 1 := lvl_lt_of_lt i (m - 1) (by
        rw [show m - 1 + 1 = m from by omega]
        omega)
      rw [psize_node _ _ h, ih (2 * i + 1) (by omega), ih (2 * i + 2) (by omega),
        lvl_child_left, lvl_child_right]
      have he : m - lvl i = (m - (lvl i + 1)) + 1 := by omega
      rw [he, pow_succ]
      have h2 : (1 : ℕ) ≤ 2 ^ (m - (lvl i + 1)) := Nat.one_le_two_pow
      omega
    · exact psize_complete_out m i h

theorem kSmallest_congr (j : ℕ) {l l' : List Dist} (h : l.Perm l') :
    kSmallest j l = kSmallest j l' := by
  unfold kSmallest
  have h1 : (sortKey id l).Perm (sortKey id l') :=
    (sortKey_perm id l).trans (h.trans (sortKey_perm id l').symm)
  have h2 : (sortKey id l).Sorted (· ≤ ·) := sortKey_sorted id l
  have h3 : (sortKey id l').Sorted (· ≤ ·) := sortKey_sorted id l'
  rw [List.eq_of_perm_of_sorted h1 h2 h3]

theorem kSmallest_all {j : ℕ} {l : List Dist} (h : l.length ≤ j) :
    (kSmallest j l).Perm l := by
  unfold kSmallest
  rw [List.take_all_of_le (by rw [sortKey_length]; exact h)]
  exact sortKey_perm id l

theorem sorted_append_iff {β : Type*} {r : β → β → Prop} {l₁ l₂ : List β} :
    (l₁ ++ l₂).Sorted r ↔
      l₁.Sorted r ∧ l₂.Sorted r ∧ ∀ a ∈ l₁, ∀ b ∈ l₂, r a b :=
  List.pairwise_append

theorem kSmallest_exact (S T : List Dist) (hs : S.Sorted (· ≤ ·))
    (hST : ∀ a ∈ S, ∀ b ∈ T, a ≤ b) :
    kSmallest S.length (S ++ T) = S := by
  unfold kSmallest
  have h1 : (sortKey id (S ++ T)).Perm (S ++ sortKey id T) :=
    (sortKey_perm id (S ++ T)).trans
      (List.Perm.append_left S (sortKey_perm id T).symm)
  have h2 : (S ++ sortKey id T).Sorted (· ≤ ·) := by
    rw [sorted_append_iff]
    refine ⟨hs, sortKey_sorted id T, ?_⟩
    intro a ha b hb
    exact hST a ha b ((sortKey_perm id T).mem_iff.mp hb)
  have h3 : (sortKey id (S ++ T)).Sorted (· ≤ ·) := sortKey_sorted id (S ++ T)
  rw [List.eq_of_perm_of_sorted h1 h3 h2]
  exact List.take_left S (sortKey id T)

theorem sorted_fst_iff {β : Type*} (l : List (Dist × β)) :
    l.Sorted (fun a b => a.1 ≤ b.1) ↔ (l.map Prod.fst).Sorted (· ≤ ·) := by
  constructor
  · intro h
    rw [List.Sorted, List.pairwise_map]
    exact h
  · intro h
    rw [List.Sorted, List.pairwise_map] at h
    exact h

theorem mapM_resolve {α : Type*} (t : VPTree α) :
    ∀ l : List (Dist × ℕ), (∀ pr ∈ l, ∃ x, t.itemAt pr.2 = some x) →
      ∃ l', l.mapM (fun p => (t.itemAt p.2).map (fun x => (p.1, x))) =
          some l' ∧
        l'.map (fun q => (q.1, some q.2)) =
          l.map (fun pr => (pr.1, t.itemAt pr.2)) := by
  intro l
  induction l with
  | nil => exact fun _ => ⟨[], rfl, rfl⟩
  | cons pr rest ih =>
    intro hall
    obtain ⟨x, hx⟩ := hall pr (by simp)
    obtain ⟨l', hl', heq⟩ := ih (fun q hq => hall q (by simp [hq]))
    refine ⟨(pr.1, x) :: l', ?_, ?_⟩
    · rw [List.mapM_cons, hx, hl']
      rfl
    · simp [heq, hx]

theorem insBefore_perm (p : Dist × ℕ) :
    ∀ l : List (Dist × ℕ), (considerItem.insBefore p l).Perm (p :: l) := by
  intro l
  induction l with
  | nil => exact List.Perm.refl _
  | cons q qs ih =>
    unfold considerItem.insBefore
    by_cases h : q.1 < p.1
    · rw [if_pos h]
      exact (ih.cons q).trans (List.Perm.swap p q qs)
    · rw [if_neg h]

theorem insBefore_sorted (p : Dist × ℕ) :
    ∀ l : List (Dist × ℕ), l.Sorted (fun a b => a.1 ≤ b.1) →
      (considerItem.insBefore p l).Sorted (fun a b => a.1 ≤ b.1) := by
  intro l
  induction l with
  | nil =>
    intro _
    simp [considerItem.insBefore]
  | cons q qs ih =>
    intro h
    rw [List.sorted_cons] at h
    unfold considerItem.insBefore
    by_cases hq : q.1 < p.1
    · rw [if_pos hq, List.sorted_cons]
      constructor
      · intro b hb
        have hb' : b ∈ p :: qs := (insBefore_perm p qs).mem_iff.mp hb
        rcases List.mem_cons.mp hb' with rfl | hbq
        · exact le_of_lt hq
        · exact h.1 b hbq
      · exact ih h.2
    · rw [if_neg hq, List.sorted_cons]
      constructor
      · intro b hb
        rcases List.mem_cons.mp hb with rfl | hbq
        · exact not_lt.mp hq
        · exact le_trans (not_lt.mp hq) (h.1 b hbq)
      · rw [List.sorted_cons]
        exact h

theorem sorted_last_max {l : List (Dist × ℕ)}
    (hs : l.Sorted (fun a b => a.1 ≤ b.1)) (hne : l ≠ []) :
    ∀ pr ∈ l, pr.1 ≤ (l.getLast hne).1 := by
  intro pr hpr
  have hdecomp := List.dropLast_append_getLast hne
  have hpr' : pr ∈ l.dropLast ++ [l.getLast hne] := by
    rw [hdecomp]
    exact hpr
  have hs' : (l.dropLast ++ [l.getLast hne]).Sorted (fun a b => a.1 ≤ b.1) := by
    rw [hdecomp]
    exact hs
  rw [sorted_append_iff] at hs'
  rcases List.mem_append.mp hpr' with h1 | h2
  · exact hs'.2.2 pr h1 _ (by simp)
  · have he : pr = l.getLast hne := by simpa using h2
    rw [he]

theorem subMem {α : Type*} (t : VPTree α) (hLay : Layout t) (i : ℕ)
    (hi : i < 2 ^ (t.depth + 1) - 1) :
    ∀ x ∈ subItems t i, ∃ p ∈ posItems t i, t.itemAt p = some x := by
  intro x hx
  have hb := posBridge t hLay (2 ^ (t.depth + 1) - 1) i hi (by omega)
  have hm : some x ∈ (subItems t i).map some := List.mem_map_of_mem _ hx
  rw [← hb] at hm
  obtain ⟨p, hp, hpe⟩ := List.mem_map.mp hm
  exact ⟨p, hp, hpe⟩

theorem root_lt {α : Type*} (t : VPTree α) : 0 < 2 ^ (t.depth + 1) - 1 := by
  have h2 : (2 : ℕ) ^ 1 ≤ 2 ^ (t.depth + 1) :=
    Nat.pow_le_pow_right (by norm_num) (by omega)
  norm_num at h2
  omega

theorem builtRaw_sub_root {α : Type*} (t : VPTree α) (inp : List (α × Dist))
    (hb : BuiltRaw t inp) : (subItems t 0).Perm (inp.map Prod.fst) := by
  obtain ⟨sl, hsl, hperm⟩ := builtRaw_sub t inp hb (2 ^ (t.depth + 1) - 1) 0
    (root_lt t) (by omega)
  have he : sl = inp := by
    rw [posSlice] at hsl
    exact (Option.some.inj hsl).symm
  rw [he] at hperm
  exact hperm

theorem posItems_len_eq {α : Type*} (t : VPTree α) (hLay : Layout t) :
    (posItems t 0).length = (subItems t 0).length := by
  have hb := posBridge t hLay (2 ^ (t.depth + 1) - 1) 0 (root_lt t) (by omega)
  have hlen := congrArg List.length hb
  simpa using hlen

theorem nearest_core {α : Type*} (t : VPTree α) (needle : α)
    (hLay : Layout t) (hPart : PartOK t)
    (hSym : ∀ x y, t.distance_calculator x y = t.distance_calculator y x)
    (hTri : ∀ x y z, t.distance_calculator x z ≤
      t.distance_calculator x y + t.distance_calculator y z) :
    ∃ bd bi, travGo t needle nearestConsider nearestReenter t.fuel 0
        ((⊤ : Dist), 0) [] = some (bd, bi) ∧
      (∀ p ∈ posItems t 0, bd ≤ VPTree.pdist t needle p) ∧
      (bd = ⊤ ∨ (bi ∈ posItems t 0 ∧ VPTree.pdist t needle bi = bd)) := by
  set PI : Dist × ℕ → List ℕ → Prop := fun s V =>
    (∀ p ∈ V, s.1 ≤ VPTree.pdist t needle p) ∧
    (s.1 = ⊤ ∨ (s.2 ∈ V ∧ VPTree.pdist t needle s.2 = s.1)) with hPIdef
  have hPerm : ∀ s V W, V.Perm W → PI s V → PI s W := by
    intro s V W hvw hp
    obtain ⟨h1, h2⟩ := hp
    refine ⟨fun p hp2 => h1 p (hvw.mem_iff.mpr hp2), ?_⟩
    rcases h2 with h2 | ⟨hm, he⟩
    · exact Or.inl h2
    · exact Or.inr ⟨hvw.mem_iff.mp hm, he⟩
  have hCons : ∀ i s V, PI s V → ∃ s',
      nearestConsider i (VPTree.pdist t needle i) s = some s' ∧
        PI s' (V ++ [i]) := by
    intro i s V hp
    obtain ⟨h1, h2⟩ := hp
    refine ⟨_, rfl, ?_⟩
    by_cases hlt : VPTree.pdist t needle i < s.1
    · rw [if_pos hlt]
      constructor
      · intro p hp2
        rcases List.mem_append.mp hp2 with hv | hi
        · exact le_trans (le_of_lt hlt) (h1 p hv)
        · have he : p = i := by simpa using hi
          rw [he]
      · right
        exact ⟨by simp, rfl⟩
    · rw [if_neg hlt]
      constructor
      · intro p hp2
        rcases List.mem_append.mp hp2 with hv | hi
        · exact h1 p hv
        · have he : p = i := by simpa using hi
          rw [he]
          exact not_lt.mp hlt
      · rcases h2 with h2 | ⟨hm, heq⟩
        · exact Or.inl h2
        · exact Or.inr ⟨by simp [hm], heq⟩
  have hReent : ∀ s V gap, PI s V → V ≠ [] → ∃ b,
      nearestReenter s gap = some b ∧ (b = false → ∀ P,
        (∀ p ∈ P, gap ≤ VPTree.pdist t needle p) → PI s (V ++ P)) := by
    intro s V gap hp _
    refine ⟨_, rfl, ?_⟩
    intro hb P hP
    have hle : s.1 ≤ gap := not_lt.mp (of_decide_eq_false hb)
    obtain ⟨h1, h2⟩ := hp
    constructor
    · intro p hp2
      rcases List.mem_append.mp hp2 with hv | hpp
      · exact h1 p hv
      · exact le_trans hle (hP p hpp)
    · rcases h2 with h2 | ⟨hm, heq⟩
      · exact Or.inl h2
      · exact Or.inr ⟨by simp [hm], heq⟩
  have hN := hLay.1
  have hd1 : (1 : ℕ) ≤ 2 ^ t.depth := Nat.one_le_two_pow
  have h2d : (2 : ℕ) ^ (t.depth + 1) = 2 * 2 ^ t.depth := by rw [pow_succ]; ring
  have hbb : 2 * t.nodes.length + 1 = 2 ^ (t.depth + 1) - 1 := by omega
  have hps : psize (2 * t.nodes.length + 1) 0 = 2 ^ (t.depth + 1) - 1 := by
    rw [hbb, psize_complete (t.depth + 1) (2 ^ (t.depth + 1) - 1) 0 (by omega),
      lvl_zero, Nat.sub_zero]
  have hfuel : 2 * (psize (2 * t.nodes.length + 1) 0 +
      (([] : List (ℕ × Dist)).map
        (fun e => psize (2 * t.nodes.length + 1) e.1)).sum) +
      ([] : List (ℕ × Dist)).length < t.fuel := by
    rw [hps]
    unfold VPTree.fuel
    have h4 : (2 : ℕ) ^ (t.depth + 2) = 2 * 2 ^ (t.depth + 1) := by
      rw [pow_succ]
      ring
    simp only [List.map_nil, List.sum_nil, List.length_nil]
    omega
  obtain ⟨goOK, popOK⟩ := travOK t needle nearestConsider nearestReenter PI
    hLay hPart hSym hTri hPerm hCons hReent t.fuel
  obtain ⟨sF, hrun, hPIF⟩ := goOK 0 ((⊤ : Dist), 0) [] [] hfuel (root_lt t)
    (by intro e he; simp at he) (by intro hc; exact absurd rfl hc)
    (by constructor
        · intro p hp
          simp at hp
        · exact Or.inl rfl)
  refine ⟨sF.1, sF.2, by rw [hrun], ?_, ?_⟩
  · intro p hp
    refine hPIF.1 p ?_
    simpa using hp
  · rcases hPIF.2 with h2 | ⟨hm, he⟩
    · exact Or.inl h2
    · exact Or.inr ⟨by simpa using hm, he⟩

theorem entry_fuel {α : Type*} (t : VPTree α) (hLay : Layout t) :
    2 * (psize (2 * t.nodes.length + 1) 0 +
      (([] : List (ℕ × Dist)).map
        (fun e => psize (2 * t.nodes.length + 1) e.1)).sum) +
      ([] : List (ℕ × Dist)).length < t.fuel := by
  have hN := hLay.1
  have hd1 : (1 : ℕ) ≤ 2 ^ t.depth := Nat.one_le_two_pow
  have h2d : (2 : ℕ) ^ (t.depth + 1) = 2 * 2 ^ t.depth := by rw [pow_succ]; ring
  have hbb : 2 * t.nodes.length + 1 = 2 ^ (t.depth + 1) - 1 := by omega
  have hps : psize (2 * t.nodes.length + 1) 0 = 2 ^ (t.depth + 1) - 1 := by
    rw [hbb, psize_complete (t.depth + 1) (2 ^ (t.depth + 1) - 1) 0 (by omega),
      lvl_zero, Nat.sub_zero]
  rw [hps]
  unfold VPTree.fuel
  have h4 : (2 : ℕ) ^ (t.depth + 2) = 2 * 2 ^ (t.depth + 1) := by
    rw [pow_succ]
    ring
  simp only [List.map_nil, List.sum_nil, List.length_nil]
  omega

theorem radius_core {α : Type*} (t : VPTree α) (needle : α) (r : Dist)
    (hLay : Layout t) (hPart : PartOK t)
    (hSym : ∀ x y, t.distance_calculator x y = t.distance_calculator y x)
    (hTri : ∀ x y z, t.distance_calculator x z ≤
      t.distance_calculator x y + t.distance_calculator y z) :
    ∃ acc, travGo t needle (radiusConsider r) (radiusReenter r) t.fuel 0 []
        [] = some acc ∧
      acc.Perm (((posItems t 0).filter
          (fun p => decide (VPTree.pdist t needle p ≤ r))).map
        (fun p => (VPTree.pdist t needle p, p))) := by
  have hPerm : ∀ (s : List (Dist × ℕ)) (V W : List ℕ), V.Perm W →
      s.Perm ((V.filter (fun p => decide (VPTree.pdist t needle p ≤ r))).map
        (fun p => (VPTree.pdist t needle p, p))) →
      s.Perm ((W.filter (fun p => decide (VPTree.pdist t needle p ≤ r))).map
        (fun p => (VPTree.pdist t needle p, p))) := by
    intro s V W hvw hp
    exact hp.trans ((hvw.filter _).map _)
  have hCons : ∀ (i : ℕ) (s : List (Dist × ℕ)) (V : List ℕ),
      s.Perm ((V.filter (fun p => decide (VPTree.pdist t needle p ≤ r))).map
        (fun p => (VPTree.pdist t needle p, p))) →
      ∃ s', radiusConsider r i (VPTree.pdist t needle i) s = some s' ∧
        s'.Perm (((V ++ [i]).filter
            (fun p => decide (VPTree.pdist t needle p ≤ r))).map
          (fun p => (VPTree.pdist t needle p, p))) := by
    intro i s V hp
    refine ⟨_, rfl, ?_⟩
    by_cases hle : VPTree.pdist t needle i ≤ r
    · rw [if_pos hle]
      have hflt : (V ++ [i]).filter
          (fun p => decide (VPTree.pdist t needle p ≤ r)) =
          V.filter (fun p => decide (VPTree.pdist t needle p ≤ r)) ++ [i] := by
        rw [List.filter_append]
        congr 1
        simp [hle]
      rw [hflt, List.map_append]
      exact hp.append (List.Perm.refl _)
    · rw [if_neg hle]
      have hflt : (V ++ [i]).filter
          (fun p => decide (VPTree.pdist t needle p ≤ r)) =
          V.filter (fun p => decide (VPTree.pdist t needle p ≤ r)) := by
        rw [List.filter_append]
        simp [hle]
      rw [hflt]
      exact hp
  have hReent : ∀ (s : List (Dist × ℕ)) (V : List ℕ) (gap : Dist),
      s.Perm ((V.filter (fun p => decide (VPTree.pdist t needle p ≤ r))).map
        (fun p => (VPTree.pdist t needle p, p))) → V ≠ [] →
      ∃ b, radiusReenter r s gap = some b ∧
        (b = false → ∀ P, (∀ p ∈ P, gap ≤ VPTree.pdist t needle p) →
          s.Perm (((V ++ P).filter
              (fun p => decide (VPTree.pdist t needle p ≤ r))).map
            (fun p => (VPTree.pdist t needle p, p)))) := by
    intro s V gap hp _
    refine ⟨_, rfl, ?_⟩
    intro hb P hP
    have hgt : ¬ gap ≤ r := of_decide_eq_false hb
    have hflt : (V ++ P).filter
        (fun p => decide (VPTree.pdist t needle p ≤ r)) =
        V.filter (fun p => decide (VPTree.pdist t needle p ≤ r)) := by
      rw [List.filter_append]
      have hP0 : P.filter (fun p => decide (VPTree.pdist t needle p ≤ r)) =
          [] := by
        rw [List.filter_eq_nil_iff]
        intro p hpp
        simp only [decide_eq_true_eq]
        intro hcon
        exact hgt (le_trans (hP p hpp) hcon)
      rw [hP0, List.append_nil]
    rw [hflt]
    exact hp
  obtain ⟨goOK, popOK⟩ := travOK t needle (radiusConsider r) (radiusReenter r)
    (fun acc V => acc.Perm ((V.filter
        (fun p => decide (VPTree.pdist t needle p ≤ r))).map
      (fun p => (VPTree.pdist t needle p, p))))
    hLay hPart hSym hTri hPerm hCons hReent t.fuel
  obtain ⟨sF, hrun, hPIF⟩ := goOK 0 [] [] [] (entry_fuel t hLay) (root_lt t)
    (by intro e he; simp at he) (by intro hc; exact absurd rfl hc)
    (by simp)
  have hEq : (([] ++ posItems t 0) ++
      (([] : List (ℕ × Dist)).map (fun e => posItems t e.1)).flatten) =
      posItems t 0 := by
    simp
  rw [hEq] at hPIF
  exact ⟨sF, hrun, hPIF⟩

theorem knn_core {α : Type*} (t : VPTree α) (needle : α) (k : ℕ)
    (hk : 1 ≤ k) (hLay : Layout t) (hPart : PartOK t)
    (hSym : ∀ x y, t.distance_calculator x y = t.distance_calculator y x)
    (hTri : ∀ x y z, t.distance_calculator x z ≤
      t.distance_calculator x y + t.distance_calculator y z) :
    ∃ nn, travGo t needle (considerItem k) (knnReenter k) t.fuel 0 [] [] =
        some nn ∧
      (∀ pr ∈ nn, VPTree.pdist t needle pr.2 = pr.1) ∧
      ((nn.length < k ∧ (nn.map Prod.snd).Perm (posItems t 0)) ∨
       (nn.length = k ∧ nn.Sorted (fun a b => a.1 ≤ b.1) ∧
        ∃ R, (posItems t 0).Perm (nn.map Prod.snd ++ R) ∧
          ∀ p ∈ R, ∀ pr ∈ nn, pr.1 ≤ VPTree.pdist t needle p)) := by
  set PI : List (Dist × ℕ) → List ℕ → Prop := fun nn V =>
    (∀ pr ∈ nn, VPTree.pdist t needle pr.2 = pr.1) ∧
    ((nn.length < k ∧ (nn.map Prod.snd).Perm V) ∨
     (nn.length = k ∧ nn.Sorted (fun a b => a.1 ≤ b.1) ∧
      ∃ R, V.Perm (nn.map Prod.snd ++ R) ∧
        ∀ p ∈ R, ∀ pr ∈ nn, pr.1 ≤ VPTree.pdist t needle p)) with hPIdef
  have hPerm : ∀ s V W, V.Perm W → PI s V → PI s W := by
    intro s V W hvw hp
    obtain ⟨h1, h2⟩ := hp
    refine ⟨h1, ?_⟩
    rcases h2 with ⟨hl, hsnd⟩ | ⟨heq, hsort, R, hvp, hbd⟩
    · exact Or.inl ⟨hl, hsnd.trans hvw⟩
    · exact Or.inr ⟨heq, hsort, R, hvw.symm.trans hvp, hbd⟩
  have hCons : ∀ i s V, PI s V → ∃ s',
      considerItem k i (VPTree.pdist t needle i) s = some s' ∧
        PI s' (V ++ [i]) := by
    intro i nn V hp
    obtain ⟨h1, h2⟩ := hp
    unfold considerItem
    by_cases hlen : nn.length < k
    · rw [if_pos hlen]
      rcases h2 with ⟨_, hsnd⟩ | ⟨heq, _⟩
      swap
      · omega
      refine ⟨_, rfl, ?_⟩
      have hmemX : ∀ pr ∈ nn ++ [(VPTree.pdist t needle i, i)],
          VPTree.pdist t needle pr.2 = pr.1 := by
        intro pr hpr
        rcases List.mem_append.mp hpr with hpr | hpr
        · exact h1 pr hpr
        · have he : pr = (VPTree.pdist t needle i, i) := by simpa using hpr
          rw [he]
      by_cases hk2 : (nn ++ [(VPTree.pdist t needle i, i)]).length = k
      · rw [if_pos hk2]
        refine ⟨?_, Or.inr ⟨?_, sortKey_sorted _ _, [], ?_, ?_⟩⟩
        · intro pr hpr
          exact hmemX pr ((sortKey_perm _ _).mem_iff.mp hpr)
        · rw [sortKey_length]
          exact hk2
        · rw [List.append_nil]
          refine List.Perm.symm ?_
          refine List.Perm.trans ((sortKey_perm _ _).map Prod.snd) ?_
          rw [List.map_append]
          exact hsnd.append (List.Perm.refl _)
        · intro p hp2
          simp at hp2
      · rw [if_neg hk2]
        refine ⟨hmemX, Or.inl ⟨?_, ?_⟩⟩
        · rw [List.length_append] at hk2 ⊢
          simp only [List.length_cons, List.length_nil] at hk2 ⊢
          omega
        · rw [List.map_append]
          exact hsnd.append (List.Perm.refl _)
    · rw [if_neg hlen]
      rcases h2 with ⟨hlt, _⟩ | ⟨heq, hsort, R, hvperm, hbound⟩
      · omega
      have hne : nn ≠ [] := by
        intro hc
        rw [hc] at heq
        simp at heq
        omega
      rw [List.getLast?_eq_getLast nn hne]
      simp only []
      have hlastmem : nn.getLast hne ∈ nn := List.getLast_mem hne
      have hlastmax := sorted_last_max hsort hne
      have hdecomp : nn.map Prod.snd =
          nn.dropLast.map Prod.snd ++ [(nn.getLast hne).2] := by
        conv_lhs => rw [← List.dropLast_append_getLast hne]
        rw [List.map_append]
        simp
      by_cases hdd : VPTree.pdist t needle i < (nn.getLast hne).1
      · rw [if_pos hdd]
        refine ⟨_, rfl, ?_, Or.inr ⟨?_, ?_, R ++ [(nn.getLast hne).2],
          ?_, ?_⟩⟩
        · intro pr hpr
          have hpr' : pr ∈ (VPTree.pdist t needle i, i) :: nn.dropLast :=
            (insBefore_perm _ _).mem_iff.mp hpr
          rcases List.mem_cons.mp hpr' with rfl | hprd
          · rfl
          · exact h1 pr ((List.dropLast_sublist nn).subset hprd)
        · have hl := (insBefore_perm (VPTree.pdist t needle i, i)
            nn.dropLast).length_eq
          rw [hl, List.length_cons, List.length_dropLast]
          omega
        · exact insBefore_sorted _ _ (hsort.sublist (List.dropLast_sublist nn))
        · have hins : ((considerItem.insBefore (VPTree.pdist t needle i, i)
              nn.dropLast).map Prod.snd).Perm
              (i :: nn.dropLast.map Prod.snd) :=
            (insBefore_perm _ _).map Prod.snd
          refine List.Perm.trans (hvperm.append (List.Perm.refl [i])) ?_
          rw [hdecomp]
          refine List.Perm.trans ?_
            ((hins.append (List.Perm.refl
              (R ++ [(nn.getLast hne).2]))).symm)
          rw [← Multiset.coe_eq_coe]
          simp only [← Multiset.coe_add, ← Multiset.cons_coe,
            ← Multiset.singleton_add]
          abel
        · intro p hp2 pr hpr2
          have hpr' : pr ∈ (VPTree.pdist t needle i, i) :: nn.dropLast :=
            (insBefore_perm _ _).mem_iff.mp hpr2
          rcases List.mem_append.mp hp2 with hpR | hpL
          · rcases List.mem_cons.mp hpr' with rfl | hprd
            · exact le_of_lt (lt_of_lt_of_le hdd
                (hbound p hpR (nn.getLast hne) hlastmem))
            · exact hbound p hpR pr ((List.dropLast_sublist nn).subset hprd)
          · have hpe : p = (nn.getLast hne).2 := by simpa using hpL
            have hpl : VPTree.pdist t needle p = (nn.getLast hne).1 := by
              rw [hpe]
              exact h1 (nn.getLast hne) hlastmem
            rw [hpl]
            rcases List.mem_cons.mp hpr' with rfl | hprd
            · exact le_of_lt hdd
            · exact hlastmax pr ((List.dropLast_sublist nn).subset hprd)
      · rw [if_neg hdd]
        refine ⟨_, rfl, h1, Or.inr ⟨heq, hsort, R ++ [i], ?_, ?_⟩⟩
        · refine List.Perm.trans (hvperm.append (List.Perm.refl [i])) ?_
          rw [List.append_assoc]
        · intro p hp2 pr hpr2
          rcases List.mem_append.mp hp2 with hpR | hpL
          · exact hbound p hpR pr hpr2
          · have hpe : p = i := by simpa using hpL
            rw [hpe]
            exact le_trans (hlastmax pr hpr2) (not_lt.mp hdd)
  have hReent : ∀ s V gap, PI s V → V ≠ [] → ∃ b,
      knnReenter k s gap = some b ∧ (b = false → ∀ P,
        (∀ p ∈ P, gap ≤ VPTree.pdist t needle p) → PI s (V ++ P)) := by
    intro nn V gap hp hVne
    obtain ⟨h1, h2⟩ := hp
    have hne : nn ≠ [] := by
      rcases h2 with ⟨_, hsnd⟩ | ⟨heq, _⟩
      · intro hc
        subst hc
        simp only [List.map_nil] at hsnd
        exact hVne hsnd.symm.eq_nil
      · intro hc
        rw [hc] at heq
        simp at heq
        omega
    unfold knnReenter
    rw [List.getLast?_eq_getLast nn hne]
    refine ⟨_, rfl, ?_⟩
    intro hb P hP
    have hb' := Bool.or_eq_false_iff.mp hb
    have hb1 : ¬ gap < (nn.getLast hne).1 := of_decide_eq_false hb'.1
    have hb2 : ¬ nn.length < k := of_decide_eq_false hb'.2
    rcases h2 with ⟨hlt, _⟩ | ⟨heq, hsort, R, hvperm, hbound⟩
    · omega
    refine ⟨h1, Or.inr ⟨heq, hsort, R ++ P, ?_, ?_⟩⟩
    · refine List.Perm.trans (hvperm.append (List.Perm.refl P)) ?_
      rw [List.append_assoc]
    · intro p hp2 pr hpr2
      rcases List.mem_append.mp hp2 with hpR | hpP
      · exact hbound p hpR pr hpr2
      · exact le_trans (sorted_last_max hsort hne pr hpr2)
          (le_trans (not_lt.mp hb1) (hP p hpP))
  obtain ⟨goOK, popOK⟩ := travOK t needle (considerItem k) (knnReenter k) PI
    hLay hPart hSym hTri hPerm hCons hReent t.fuel
  obtain ⟨sF, hrun, hPIF⟩ := goOK 0 [] [] [] (entry_fuel t hLay) (root_lt t)
    (by intro e he; simp at he) (by intro hc; exact absurd rfl hc)
    (by refine ⟨?_, Or.inl ⟨by simp only [List.length_nil]; omega,
          List.Perm.refl _⟩⟩
        intro pr hpr
        simp at hpr)
  have hEq : (([] ++ posItems t 0) ++
      (([] : List (ℕ × Dist)).map (fun e => posItems t e.1)).flatten) =
      posItems t 0 := by
    simp
  rw [hEq] at hPIF
  exact ⟨sF, hrun, hPIF.1, hPIF.2⟩

/-! ## Shared endgame lemmas for the claims -/

theorem new_nil_none {α : Type*} (dc : α → α → Dist) :
    VPTree.new ([] : List α) dc = none := by
  simp [VPTree.new]

theorem rebalance_none_of_empty {α : Type*} (t : VPTree α)
    (hn : t.nodes = []) (hl : t.leaves = []) : VPTree.rebalance t = none := by
  have h0 : depthFor 0 = 0 := rfl
  simp [VPTree.rebalance, hn, hl, h0]

theorem filter_map_corr {α β : Type*} :
    ∀ (P : List ℕ) (S : List α) (f : ℕ → Option α) (qP : ℕ → Bool)
      (qS : α → Bool) (FP : ℕ → β) (FS : α → β),
      P.map f = S.map some →
      (∀ p x, f p = some x → qP p = qS x ∧ FP p = FS x) →
      (P.filter qP).map FP = (S.filter qS).map FS := by
  intro P
  induction P with
  | nil =>
    intro S f qP qS FP FS hmap hcorr
    cases S with
    | nil => rfl
    | cons a s => simp at hmap
  | cons p P ih =>
    intro S f qP qS FP FS hmap hcorr
    cases S with
    | nil => simp at hmap
    | cons x S =>
      simp only [List.map_cons, List.cons.injEq] at hmap
      obtain ⟨hfx, htail⟩ := hmap
      obtain ⟨hq, hF⟩ := hcorr p x hfx
      rw [List.filter_cons, List.filter_cons, hq]
      by_cases hqx : qS x = true
      · simp only [if_pos hqx, List.map_cons]
        rw [hF, ih S f qP qS FP FS htail hcorr]
      · simp only [if_neg hqx]
        exact ih S f qP qS FP FS htail hcorr

theorem applyOps_len {α : Type*} :
    ∀ (ops : List (Op α)) (t : VPTree α), 1 ≤ t.len →
      ∃ tF, applyOps t ops = some tF ∧ tF.len = t.len + opsSize ops := by
  intro ops
  induction ops with
  | nil =>
    intro t ht
    exact ⟨t, rfl, rfl⟩
  | cons op ops ih =>
    intro t ht
    cases op with
    | ins x =>
      obtain ⟨t', hreb, _, _, _, hbr, _⟩ := rebalance_builtRaw
        { t with leaves := t.leaves ++ [x] }
        (by show 1 ≤ t.nodes.length + (t.leaves ++ [x]).length
            rw [List.length_append]
            simp only [List.length_cons, List.length_nil]
            omega)
      have hlen' : t'.len = t.len + 1 := by
        have h1 := builtRaw_len _ _ hbr
        rw [h1, List.length_append, List.length_map, List.length_map]
        show t.nodes.length + (t.leaves ++ [x]).length = t.len + 1
        rw [List.length_append]
        unfold VPTree.len
        simp only [List.length_cons, List.length_nil]
        omega
      obtain ⟨tF, happ, hflen⟩ := ih t' (by omega)
      refine ⟨tF, ?_, ?_⟩
      · show (VPTree.insert t x).bind (fun t2 => applyOps t2 ops) = some tF
        unfold VPTree.insert
        rw [hreb]
        simpa using happ
      · unfold opsSize
        omega
    | ext xs =>
      obtain ⟨t', hreb, _, _, _, hbr, _⟩ := rebalance_builtRaw
        { t with leaves := t.leaves ++ xs }
        (by show 1 ≤ t.nodes.length + (t.leaves ++ xs).length
            rw [List.length_append]
            unfold VPTree.len at ht
            omega)
      have hlen' : t'.len = t.len + xs.length := by
        have h1 := builtRaw_len _ _ hbr
        rw [h1, List.length_append, List.length_map, List.length_map]
        show t.nodes.length + (t.leaves ++ xs).length = t.len + xs.length
        rw [List.length_append]
        unfold VPTree.len
        omega
      obtain ⟨tF, happ, hflen⟩ := ih t' (by omega)
      refine ⟨tF, ?_, ?_⟩
      · show (VPTree.extend t xs).bind (fun t2 => applyOps t2 ops) = some tF
        unfold VPTree.extend
        rw [hreb]
        simpa using happ
      · unfold opsSize
        omega

/-! ## The claims -/

/-- Claim C4: the spec says construction is total and that building from an
empty item list succeeds; in the code a debug build panics on the usize
underflow `leaf_size - 1` when `items` is empty (modelled as `none`), so the
boundary behaviour the spec promises is unreachable. -/
theorem C4_empty_build_panics : VPTree.new ([] : List ℕ) dN = none := rfl

/-- Claim C5: the spec says `k = 0` is a defined edge case returning the
empty sequence; in the code `consider_item` and the re-entry test call
`nearest_neighbors.last().unwrap()` unconditionally once the capacity test
`len < k` fails, which panics (modelled as `none`) on a non-empty tree with
`k = 0`. -/
theorem C5_k_zero_panics :
    (VPTree.new ([0, 1, 2, 3] : List ℕ) dN).bind
      (fun t => t.find_k_nearest_neighbors 0 0) = none := rfl

/-- Claim C6 counterexample: in the tree built from `[0, 1, 2, 3]` with the
absolute-difference metric the root has vantage point `3` and radius `3`,
and its far subtree holds the item `0` at distance exactly `3` — not
strictly greater than the radius, because `select_nth_unstable_by` puts the
pivot item itself into the far half. -/
theorem C6_counterexample :
    ∃ (t : VPTree ℕ) (nd : Node ℕ),
      VPTree.new ([0, 1, 2, 3] : List ℕ) dN = some t ∧
      t.nodes.get? 0 = some nd ∧
      ∃ x ∈ subItems t (2 * 0 + 2), dN nd.vantage_point x = nd.radius := by
  refine ⟨⟨dN, [⟨3, 3⟩], [2, 1, 0], 2, 1, 1⟩, ⟨3, 3⟩, rfl, rfl, 0, ?_, ?_⟩
  · decide
  · decide

/-- Claim C6 (amended): in every tree produced by `new` or by `rebalance`
each node partitions with non-strict bounds: the near subtree's items are at
distance `≤ radius` from the vantage point and the far subtree's items at
distance `≥ radius` (equality can land on either side). -/
theorem C6_partition {α : Type*} (t : VPTree α)
    (h : (∃ (items : List α) (dc : α → α → Dist),
        VPTree.new items dc = some t) ∨
      ∃ t0 : VPTree α, VPTree.rebalance t0 = some t) :
    PartOK t := by
  rcases h with ⟨items, dc, hnew⟩ | ⟨t0, hreb⟩
  · have hlen : 1 ≤ items.length := by
      cases items with
      | nil =>
        rw [new_nil_none dc] at hnew
        exact absurd hnew (by simp)
      | cons a l => simp
    obtain ⟨t', hnew', _, _, _, hbr, _⟩ := new_builtRaw items dc hlen
    rw [hnew'] at hnew
    exact builtRaw_partOK _ _ ((Option.some.inj hnew) ▸ hbr)
  · by_cases hlen : 1 ≤ t0.nodes.length + t0.leaves.length
    · obtain ⟨t', hreb', _, _, _, hbr, _⟩ := rebalance_builtRaw t0 hlen
      rw [hreb'] at hreb
      exact builtRaw_partOK _ _ ((Option.some.inj hreb) ▸ hbr)
    · exfalso
      have h0 : t0.nodes.length = 0 ∧ t0.leaves.length = 0 := by omega
      rw [rebalance_none_of_empty t0 (List.length_eq_zero.mp h0.1)
        (List.length_eq_zero.mp h0.2)] at hreb
      exact absurd hreb (by simp)

/-- Claim C6 witness: the partition bounds hold for the concrete tree built
from `[0, 1, 2, 3]`. -/
theorem C6_witness :
    ((∃ (items : List ℕ) (dc : ℕ → ℕ → Dist), VPTree.new items dc =
        some (⟨dN, [⟨3, 3⟩], [2, 1, 0], 2, 1, 1⟩ : VPTree ℕ)) ∨
      ∃ t0 : VPTree ℕ, VPTree.rebalance t0 =
        some (⟨dN, [⟨3, 3⟩], [2, 1, 0], 2, 1, 1⟩ : VPTree ℕ)) ∧
    PartOK (⟨dN, [⟨3, 3⟩], [2, 1, 0], 2, 1, 1⟩ : VPTree ℕ) :=
  ⟨Or.inl ⟨[0, 1, 2, 3], dN, rfl⟩,
   C6_partition _ (Or.inl ⟨[0, 1, 2, 3], dN, rfl⟩)⟩

/-- Claim C7: every tree reachable by `new`, `insert` or `extend` satisfies
the layout invariant — node array of length `2 ^ depth - 1`,
`decrementation_point` leading leaf groups of width `leaf_size` followed by
groups of width `leaf_size - 1`, `decrementation_point` within the group
count, total leaf length equal to the sum of the group widths — and every
leaf-group range computed by the index arithmetic stays inside the leaf
array. -/
theorem C7_layout {α : Type*} (t : VPTree α) (h : Reach t) :
    Layout t ∧ ∀ g, g < 2 ^ t.depth →
      (t.leafSpan g).1 + (t.leafSpan g).2 ≤ t.leaves.length := by
  have hb : ∃ inp, BuiltRaw t inp := by
    induction h with
    | base items dc t0 hnew =>
      have hlen : 1 ≤ items.length := by
        cases items with
        | nil =>
          rw [new_nil_none dc] at hnew
          exact absurd hnew (by simp)
        | cons a l => simp
      obtain ⟨t', hnew', _, _, _, hbr, _⟩ := new_builtRaw items dc hlen
      rw [hnew'] at hnew
      exact ⟨_, (Option.some.inj hnew) ▸ hbr⟩
    | ins t0 t1 x hr hins ih =>
      unfold VPTree.insert at hins
      obtain ⟨t', hreb, _, _, _, hbr, _⟩ := rebalance_builtRaw
        { t0 with leaves := t0.leaves ++ [x] }
        (by show 1 ≤ t0.nodes.length + (t0.leaves ++ [x]).length
            rw [List.length_append]
            simp only [List.length_cons, List.length_nil]
            omega)
      rw [hreb] at hins
      exact ⟨_, (Option.some.inj hins) ▸ hbr⟩
    | ext t0 t1 xs hr hext ih =>
      unfold VPTree.extend at hext
      by_cases hlen : 1 ≤ t0.nodes.length + (t0.leaves ++ xs).length
      · obtain ⟨t', hreb, _, _, _, hbr, _⟩ := rebalance_builtRaw
          { t0 with leaves := t0.leaves ++ xs } hlen
        rw [hreb] at hext
        exact ⟨_, (Option.some.inj hext) ▸ hbr⟩
      · exfalso
        have h0 : t0.nodes.length = 0 ∧ (t0.leaves ++ xs).length = 0 := by
          omega
        rw [rebalance_none_of_empty { t0 with leaves := t0.leaves ++ xs }
          (List.length_eq_zero.mp h0.1) (List.length_eq_zero.mp h0.2)] at hext
        exact absurd hext (by simp)
  obtain ⟨inp, hbr⟩ := hb
  have hLay := builtRaw_layout t inp hbr
  exact ⟨hLay, leafSpan_bound t hLay⟩

theorem new_single : VPTree.new ([0] : List ℕ) dN =
    some (⟨dN, [], [0], 1, 1, 0⟩ : VPTree ℕ) := rfl

/-- Claim C7 witness: the layout invariant for the concrete one-item tree
built by `new`. -/
theorem C7_witness :
    Reach (⟨dN, [], [0], 1, 1, 0⟩ : VPTree ℕ) ∧
    (Layout (⟨dN, [], [0], 1, 1, 0⟩ : VPTree ℕ) ∧
      ∀ g, g < 2 ^ (⟨dN, [], [0], 1, 1, 0⟩ : VPTree ℕ).depth →
        ((⟨dN, [], [0], 1, 1, 0⟩ : VPTree ℕ).leafSpan g).1 +
          ((⟨dN, [], [0], 1, 1, 0⟩ : VPTree ℕ).leafSpan g).2 ≤
          (⟨dN, [], [0], 1, 1, 0⟩ : VPTree ℕ).leaves.length) :=
  ⟨Reach.base [0] dN (⟨dN, [], [0], 1, 1, 0⟩ : VPTree ℕ) new_single,
   C7_layout _ (Reach.base [0] dN (⟨dN, [], [0], 1, 1, 0⟩ : VPTree ℕ)
     new_single)⟩

/-- Claim C8 counterexample: `insert` does not merely buffer the new item —
it rebuilds at once: inserting `7` into the tree built from `[0, …, 6]`
grows the internal-node array from one node to three and the depth from `1`
to `2` before any query is run, so the indexed layers do not stay unchanged.
-/
theorem C8_counterexample :
    ∃ (t t' : VPTree ℕ),
      VPTree.new ([0, 1, 2, 3, 4, 5, 6] : List ℕ) dN = some t ∧
      t.insert 7 = some t' ∧
      t.nodes.length = 1 ∧ t'.nodes.length = 3 ∧
      t.depth = 1 ∧ t'.depth = 2 := by
  refine ⟨⟨dN, [⟨6, 4⟩], [5, 4, 3, 2, 1, 0], 3, 2, 1⟩,
    ⟨dN, [⟨7, 5⟩, ⟨3, 3⟩, ⟨0, 2⟩], [4, 5, 6, 1, 2], 2, 1, 2⟩,
    rfl, rfl, rfl, rfl, rfl, rfl⟩

/-- Claim C8 (amended): `insert` performs the full rebuild immediately — it
always succeeds on the appended item list, the new tree's size is the old
size plus one, its depth is recomputed for the new size, the layout
invariant holds again, and the stored items are the old ones plus the
inserted one. -/
theorem C8_rebuild {α : Type*} (t : VPTree α) (x : α) :
    ∃ t', t.insert x = some t' ∧ t'.len = t.len + 1 ∧
      t'.depth = depthFor (t.len + 1) ∧ Layout t' ∧
      (treeItems t').Perm (treeItems t ++ [x]) := by
  unfold VPTree.insert
  obtain ⟨t', hreb, hdc, hdep, hls, hbr, hti⟩ := rebalance_builtRaw
    { t with leaves := t.leaves ++ [x] }
    (by show 1 ≤ t.nodes.length + (t.leaves ++ [x]).length
        rw [List.length_append]
        simp only [List.length_cons, List.length_nil]
        omega)
  have hmlen : ({ t with leaves := t.leaves ++ [x] } : VPTree α).nodes.length +
      ({ t with leaves := t.leaves ++ [x] } : VPTree α).leaves.length =
      t.len + 1 := by
    show t.nodes.length + (t.leaves ++ [x]).length = t.len + 1
    rw [List.length_append]
    unfold VPTree.len
    simp only [List.length_cons, List.length_nil]
    omega
  refine ⟨t', hreb, ?_, ?_, builtRaw_layout _ _ hbr, ?_⟩
  · have h1 := builtRaw_len _ _ hbr
    rw [h1, List.length_append, List.length_map, List.length_map]
    exact hmlen
  · rw [hmlen] at hdep
    exact hdep
  · refine hti.trans ?_
    show (t.nodes.map Node.vantage_point ++ (t.leaves ++ [x])).Perm
      (treeItems t ++ [x])
    unfold treeItems
    rw [← List.append_assoc]

/-- Claim C9: after building from `n` items and applying any mix of `insert`
and `extend` calls adding `m` items in total, and without running any query,
`len` returns `n + m`: every burst of mutations succeeds on a tree built
from a non-empty list and the size counts all items. -/
theorem C9_size {α : Type*} (items : List α) (dc : α → α → Dist)
    (ops : List (Op α)) (t : VPTree α)
    (hnew : VPTree.new items dc = some t) :
    ∃ tF, applyOps t ops = some tF ∧ tF.len = items.length + opsSize ops := by
  have hlen : 1 ≤ items.length := by
    cases items with
    | nil =>
      rw [new_nil_none dc] at hnew
      exact absurd hnew (by simp)
    | cons a l => simp
  obtain ⟨t', hnew', _, _, _, hbr, _⟩ := new_builtRaw items dc hlen
  rw [hnew'] at hnew
  have hteq := Option.some.inj hnew
  have hlen0 : t.len = items.length := by
    rw [← hteq]
    have h1 := builtRaw_len _ _ hbr
    rw [h1, List.length_map]
  obtain ⟨tF, happ, hflen⟩ := applyOps_len ops t (by omega)
  exact ⟨tF, happ, by omega⟩

/-- Claim C9 witness: building from four items and then inserting one and
extending by two more gives size seven. -/
theorem C9_witness :
    VPTree.new ([0, 1, 2, 3] : List ℕ) dN =
      some (⟨dN, [⟨3, 3⟩], [2, 1, 0], 2, 1, 1⟩ : VPTree ℕ) ∧
    ∃ tF, applyOps (⟨dN, [⟨3, 3⟩], [2, 1, 0], 2, 1, 1⟩ : VPTree ℕ)
        [Op.ins 4, Op.ext [5, 6]] = some tF ∧
      tF.len = ([0, 1, 2, 3] : List ℕ).length +
        opsSize [Op.ins 4, Op.ext [5, 6]] :=
  ⟨rfl, C9_size [0, 1, 2, 3] dN [Op.ins 4, Op.ext [5, 6]]
    (⟨dN, [⟨3, 3⟩], [2, 1, 0], 2, 1, 1⟩ : VPTree ℕ) rfl⟩

/-! ## Claims C1 and C10: find_nearest_neighbor -/

/-- Shared analysis of `find_nearest_neighbor` on a freshly built tree with a
metric distance function: the traversal succeeds, its best distance is a
lower bound on the needle-to-item distance of every stored item, and it is
either the `⊤` sentinel or witnessed by a stored item. -/
theorem nearest_full {α : Type*} (items : List α) (dc : α → α → Dist)
    (needle : α) (hne : 1 ≤ items.length) (hmet : IsMetric dc) :
    ∃ t bd bi, VPTree.new items dc = some t ∧
      t.distance_calculator = dc ∧
      travGo t needle nearestConsider nearestReenter t.fuel 0
        ((⊤ : Dist), 0) [] = some (bd, bi) ∧
      (∀ y ∈ items, bd ≤ dc needle y) ∧
      (bd = ⊤ ∨ ∃ x, t.itemAt bi = some x ∧ x ∈ items ∧
        dc needle x = bd) := by
  obtain ⟨t, hnew, hdc, hdep, hls, hbr, hperm⟩ := new_builtRaw items dc hne
  have hLay := builtRaw_layout t _ hbr
  have hPart := builtRaw_partOK t _ hbr
  have hSym : ∀ x y, t.distance_calculator x y = t.distance_calculator y x := by
    rw [hdc]
    exact hmet.2.2.1
  have hTri : ∀ x y z, t.distance_calculator x z ≤
      t.distance_calculator x y + t.distance_calculator y z := by
    rw [hdc]
    exact hmet.2.2.2
  obtain ⟨bd, bi, hrun, hbound, hcase⟩ := nearest_core t needle hLay hPart hSym hTri
  have hsub : (subItems t 0).Perm items := by
    have h := builtRaw_sub_root t _ hbr
    rw [List.map_map] at h
    have hcomp : (Prod.fst ∘ fun i : α => (i, (⊤ : Dist))) = id := rfl
    rw [hcomp, List.map_id] at h
    exact h
  refine ⟨t, bd, bi, hnew, hdc, hrun, ?_, ?_⟩
  · intro y hy
    obtain ⟨py, hpy, hpyat⟩ := subMem t hLay 0 (root_lt t) y (hsub.mem_iff.mpr hy)
    have h := hbound py hpy
    rwa [pdist_some t needle py y hpyat, hdc] at h
  · rcases hcase with htop | ⟨hbimem, hbipd⟩
    · exact Or.inl htop
    · obtain ⟨x, hxat, hxsub⟩ := posMem t hLay 0 (root_lt t) bi hbimem
      refine Or.inr ⟨x, hxat, hsub.mem_iff.mp hxsub, ?_⟩
      rw [← hbipd, pdist_some t needle bi x hxat, hdc]

/-- Claim C1 counterexample: on the one-item tree over `Bool` with the
genuine metric `dTopBool` and needle `false`, the single stored item lies at
the sentinel distance `⊤`, so `find_nearest_neighbor` returns `None` (inner
`none`) instead of the brute-force minimizer `true` — the claim promises
`Some((d, item))` for every metric and non-empty item list. -/
theorem C1_counterexample :
    IsMetric dTopBool ∧
    1 ≤ ([true] : List Bool).length ∧
    ∃ t : VPTree Bool, VPTree.new [true] dTopBool = some t ∧
      t.find_nearest_neighbor false = some none :=
  ⟨by decide, by decide,
   ⟨dTopBool, [], [true], 1, 1, 0⟩, rfl, rfl⟩

/-- Claim C1 (amended): for a tree built from a non-empty item list with a
metric distance function, and a needle with at least one stored item at
distance below the `⊤` sentinel, `find_nearest_neighbor` returns
`Some((d, item))` where `item` is a stored item minimizing the distance to
the needle and `d` is that minimal distance — it agrees with a brute-force
linear scan. -/
theorem C1_amended {α : Type*} (items : List α) (dc : α → α → Dist)
    (needle : α) (hne : 1 ≤ items.length) (hmet : IsMetric dc)
    (hwit : ∃ x ∈ items, dc needle x < ⊤) :
    ∃ t d x, VPTree.new items dc = some t ∧
      t.find_nearest_neighbor needle = some (some (d, x)) ∧
      x ∈ items ∧ d = dc needle x ∧ ∀ y ∈ items, d ≤ dc needle y := by
  obtain ⟨t, bd, bi, hnew, hdc, hrun, hbound, hcase⟩ :=
    nearest_full items dc needle hne hmet
  obtain ⟨x0, hx0m, hx0lt⟩ := hwit
  have hbdlt : bd < ⊤ := lt_of_le_of_lt (hbound x0 hx0m) hx0lt
  rcases hcase with htop | ⟨x, hxat, hxm, hxd⟩
  · rw [htop] at hbdlt
    exact absurd hbdlt (lt_irrefl _)
  · refine ⟨t, bd, x, hnew, ?_, hxm, hxd.symm, hbound⟩
    unfold VPTree.find_nearest_neighbor
    rw [hrun]
    simp only []
    rw [if_pos hbdlt, hxat]
    rfl

/-- Claim C1 witness: on four points of `Fin 4` with the standard metric and
needle `0`, the amended nearest-neighbor statement holds concretely. -/
theorem C1_witness :
    ∃ t d x, VPTree.new ([0, 1, 2, 3] : List (Fin 4)) dF = some t ∧
      t.find_nearest_neighbor 0 = some (some (d, x)) ∧
      x ∈ ([0, 1, 2, 3] : List (Fin 4)) ∧ d = dF 0 x ∧
      ∀ y ∈ ([0, 1, 2, 3] : List (Fin 4)), d ≤ dF 0 y :=
  C1_amended [0, 1, 2, 3] dF 0 (by decide) (by decide)
    ⟨0, by decide, by decide⟩

/-- Claim C10: on a tree built from a non-empty item list with a metric
distance function, `find_nearest_neighbor` returns `None` if and only if no
stored item has distance to the needle strictly below the `⊤` sentinel of
the distance type. -/
theorem C10_none_iff {α : Type*} (items : List α) (dc : α → α → Dist)
    (needle : α) (hne : 1 ≤ items.length) (hmet : IsMetric dc) :
    ∃ t res, VPTree.new items dc = some t ∧
      t.find_nearest_neighbor needle = some res ∧
      (res = none ↔ ∀ x ∈ items, ¬ dc needle x < ⊤) := by
  obtain ⟨t, bd, bi, hnew, hdc, hrun, hbound, hcase⟩ :=
    nearest_full items dc needle hne hmet
  by_cases hbd : bd < ⊤
  · rcases hcase with htop | ⟨x, hxat, hxm, hxd⟩
    · rw [htop] at hbd
      exact absurd hbd (lt_irrefl _)
    · refine ⟨t, some (bd, x), hnew, ?_, ?_⟩
      · unfold VPTree.find_nearest_neighbor
        rw [hrun]
        simp only []
        rw [if_pos hbd, hxat]
        rfl
      · constructor
        · intro h
          exact absurd h (by simp)
        · intro hall
          have hx : dc needle x < ⊤ := by
            rw [hxd]
            exact hbd
          exact absurd hx (hall x hxm)
  · have hbdtop : bd = ⊤ := top_le_iff.mp (not_lt.mp hbd)
    refine ⟨t, none, hnew, ?_, ?_⟩
    · unfold VPTree.find_nearest_neighbor
      rw [hrun]
      simp only []
      rw [if_neg hbd]
    · refine iff_of_true rfl ?_
      intro x hx
      have h := hbound x hx
      rw [hbdtop] at h
      exact not_lt.mpr h

/-- Claim C10 witness: on the one-item `Bool` tree with metric `dTopBool`
and needle `false`, the result is `None` exactly because the only stored
item sits at the sentinel distance. -/
theorem C10_witness :
    ∃ t res, VPTree.new ([true] : List Bool) dTopBool = some t ∧
      t.find_nearest_neighbor false = some res ∧
      (res = none ↔ ∀ x ∈ ([true] : List Bool), ¬ dTopBool false x < ⊤) :=
  C10_none_iff [true] dTopBool false (by decide) (by decide)

/-! ## Claim C3: find_neighbors_within_radius -/

/-- Claim C3: on a tree built from a non-empty item list with a metric
distance function, `find_neighbors_within_radius` returns exactly the pairs
`(d, item)` for the stored items whose distance `d` to the needle satisfies
`d ≤ r` — no omissions and no false positives versus a brute-force filter —
sorted ascending by distance. -/
theorem C3_radius {α : Type*} (items : List α) (dc : α → α → Dist)
    (needle : α) (r : Dist) (hne : 1 ≤ items.length) (hmet : IsMetric dc) :
    ∃ t res, VPTree.new items dc = some t ∧
      t.find_neighbors_within_radius needle r = some res ∧
      res.Perm ((items.filter (fun x => decide (dc needle x ≤ r))).map
        (fun x => (dc needle x, x))) ∧
      res.Sorted (fun a b => a.1 ≤ b.1) := by
  obtain ⟨t, hnew, hdc, hdep, hls, hbr, hperm⟩ := new_builtRaw items dc hne
  have hLay := builtRaw_layout t _ hbr
  have hPart := builtRaw_partOK t _ hbr
  have hSym : ∀ x y, t.distance_calculator x y = t.distance_calculator y x := by
    rw [hdc]
    exact hmet.2.2.1
  have hTri : ∀ x y z, t.distance_calculator x z ≤
      t.distance_calculator x y + t.distance_calculator y z := by
    rw [hdc]
    exact hmet.2.2.2
  have hsub : (subItems t 0).Perm items := by
    have h := builtRaw_sub_root t _ hbr
    rw [List.map_map] at h
    have hcomp : (Prod.fst ∘ fun i : α => (i, (⊤ : Dist))) = id := rfl
    rw [hcomp, List.map_id] at h
    exact h
  obtain ⟨acc, hrun, haccperm⟩ := radius_core t needle r hLay hPart hSym hTri
  have hSperm : (sortKey (fun p => p.1) acc).Perm acc := sortKey_perm _ acc
  have hposall : ∀ pr ∈ sortKey (fun p => p.1) acc, pr.2 ∈ posItems t 0 := by
    intro pr hpr
    have h2 := haccperm.mem_iff.mp (hSperm.mem_iff.mp hpr)
    obtain ⟨p, hp, hpe⟩ := List.mem_map.mp h2
    have hpmem : p ∈ posItems t 0 := List.mem_of_mem_filter hp
    rw [← hpe]
    exact hpmem
  have hresolve : ∀ pr ∈ sortKey (fun p => p.1) acc,
      ∃ x, t.itemAt pr.2 = some x := fun pr hpr =>
    ((posMem t hLay 0 (root_lt t) pr.2 (hposall pr hpr)).imp
      (fun x hx => hx.1))
  obtain ⟨res, hmapm, hmap⟩ := mapM_resolve t (sortKey (fun p => p.1) acc)
    hresolve
  have hfr : t.find_neighbors_within_radius needle r = some res := by
    unfold VPTree.find_neighbors_within_radius
    rw [hrun]
    simp only []
    exact hmapm
  have hfst : res.map Prod.fst = (sortKey (fun p => p.1) acc).map Prod.fst := by
    have h := congrArg (List.map Prod.fst) hmap
    rw [List.map_map, List.map_map] at h
    exact h
  have hsorted : res.Sorted (fun a b => a.1 ≤ b.1) := by
    rw [sorted_fst_iff, hfst]
    exact (sorted_fst_iff (sortKey (fun p => p.1) acc)).mp
      (sortKey_sorted (fun p => p.1) acc)
  have hpbridge := posBridge t hLay (2 ^ (t.depth + 1) - 1) 0 (root_lt t)
    (by omega)
  have hfm := filter_map_corr (posItems t 0) (subItems t 0)
    (fun p => t.itemAt p)
    (fun p => decide (VPTree.pdist t needle p ≤ r))
    (fun x => decide (dc needle x ≤ r))
    (fun p => ((VPTree.pdist t needle p, t.itemAt p) : Dist × Option α))
    (fun x => ((dc needle x, some x) : Dist × Option α))
    hpbridge
    (by
      intro p x h
      constructor
      · show decide (VPTree.pdist t needle p ≤ r) = decide (dc needle x ≤ r)
        rw [pdist_some t needle p x h, hdc]
      · show ((VPTree.pdist t needle p, t.itemAt p) : Dist × Option α) =
          (dc needle x, some x)
        have h' : t.itemAt p = some x := h
        rw [pdist_some t needle p x h, hdc, h'])
  have hchain : (res.map (fun q : Dist × α => (q.1, some q.2))).Perm
      (((subItems t 0).filter (fun x => decide (dc needle x ≤ r))).map
        (fun x => ((dc needle x, some x) : Dist × Option α))) := by
    rw [hmap]
    have h4 : (acc.map (fun pr : Dist × ℕ => (pr.1, t.itemAt pr.2))).Perm
        (((posItems t 0).filter
            (fun p => decide (VPTree.pdist t needle p ≤ r))).map
          (fun p => ((VPTree.pdist t needle p, t.itemAt p) :
            Dist × Option α))) := by
      have h := haccperm.map (fun pr : Dist × ℕ => (pr.1, t.itemAt pr.2))
      rw [List.map_map] at h
      exact h
    have h5 := h4
    rw [hfm] at h5
    exact (hSperm.map (fun pr : Dist × ℕ => (pr.1, t.itemAt pr.2))).trans h5
  have h6 : (((subItems t 0).filter
      (fun x => decide (dc needle x ≤ r))).map
        (fun x => ((dc needle x, some x) : Dist × Option α))).Perm
      ((items.filter (fun x => decide (dc needle x ≤ r))).map
        (fun x => ((dc needle x, some x) : Dist × Option α))) :=
    (hsub.filter (fun x => decide (dc needle x ≤ r))).map _
  have h7 : (res.map (fun q : Dist × α => (q.1, some q.2))).Perm
      (((items.filter (fun x => decide (dc needle x ≤ r))).map
        (fun x => (dc needle x, x))).map
          (fun q : Dist × α => (q.1, some q.2))) := by
    rw [List.map_map]
    exact hchain.trans h6
  have hinj : Function.Injective (fun q : Dist × α => (q.1, some q.2)) := by
    intro q q' h
    cases q
    cases q'
    simp only [Prod.mk.injEq, Option.some.injEq] at h
    rw [Prod.mk.injEq]
    exact h
  have hfinal : res.Perm ((items.filter
      (fun x => decide (dc needle x ≤ r))).map (fun x => (dc needle x, x))) := by
    have hmm : Multiset.map (fun q : Dist × α => (q.1, some q.2)) ↑res =
        Multiset.map (fun q : Dist × α => (q.1, some q.2))
          ↑((items.filter (fun x => decide (dc needle x ≤ r))).map
            (fun x => (dc needle x, x))) := by
      rw [Multiset.map_coe, Multiset.map_coe]
      exact Multiset.coe_eq_coe.mpr h7
    exact Multiset.coe_eq_coe.mp (Multiset.map_injective hinj hmm)
  exact ⟨t, res, hnew, hfr, hfinal, hsorted⟩

/-- Claim C3 witness: on four points of `Fin 4`, needle `1` and radius `1`,
the radius query returns exactly the brute-force filter, sorted. -/
theorem C3_witness :
    ∃ t res, VPTree.new ([0, 1, 2, 3] : List (Fin 4)) dF = some t ∧
      t.find_neighbors_within_radius 1 1 = some res ∧
      res.Perm ((([0, 1, 2, 3] : List (Fin 4)).filter
        (fun x => decide (dF 1 x ≤ 1))).map (fun x => (dF 1 x, x))) ∧
      res.Sorted (fun a b => a.1 ≤ b.1) :=
  C3_radius [0, 1, 2, 3] dF 1 1 (by decide) (by decide)

/-! ## Claim C2: find_k_nearest_neighbors -/

/-- Claim C2 counterexample: with four items, needle `0` and `k = 10`
(larger than the item count), the query returns all four items — but not
sorted ascending by distance: the candidate vector is only sorted at the
moment it first reaches capacity `k`, which never happens here.  The claim
promises sorted output for every `k`. -/
theorem C2_counterexample :
    ∃ t res, VPTree.new ([0, 1, 2, 3] : List ℕ) dN = some t ∧
      t.find_k_nearest_neighbors 0 10 = some res ∧
      res.length = min 10 ([0, 1, 2, 3] : List ℕ).length ∧
      ¬ res.Sorted (fun a b => a.1 ≤ b.1) :=
  ⟨⟨dN, [⟨3, 3⟩], [2, 1, 0], 2, 1, 1⟩,
   [(3, 3), (0, 0), (2, 2), (1, 1)], rfl, rfl, by decide, by decide⟩

/-- Claim C2 (amended): on a tree built from a non-empty item list with a
metric distance function and `k ≥ 1`, `find_k_nearest_neighbors` returns
exactly `min k size` pairs whose distances are correct and whose multiset of
distances equals the `min k size` smallest needle-to-item distances computed
by brute force; the output is sorted ascending by distance whenever
`k ≤ size` (for `k > size` it is returned in traversal order). -/
theorem C2_amended {α : Type*} (items : List α) (dc : α → α → Dist)
    (needle : α) (k : ℕ) (hk : 1 ≤ k) (hne : 1 ≤ items.length)
    (hmet : IsMetric dc) :
    ∃ t res, VPTree.new items dc = some t ∧
      t.find_k_nearest_neighbors needle k = some res ∧
      res.length = min k items.length ∧
      (res.map Prod.fst).Perm
        (kSmallest (min k items.length) (items.map (dc needle))) ∧
      (k ≤ items.length → res.Sorted (fun a b => a.1 ≤ b.1)) ∧
      ∀ q ∈ res, q.1 = dc needle q.2 ∧ q.2 ∈ items := by
  obtain ⟨t, hnew, hdc, hdep, hls, hbr, hperm⟩ := new_builtRaw items dc hne
  have hLay := builtRaw_layout t _ hbr
  have hPart := builtRaw_partOK t _ hbr
  have hSym : ∀ x y, t.distance_calculator x y = t.distance_calculator y x := by
    rw [hdc]
    exact hmet.2.2.1
  have hTri : ∀ x y z, t.distance_calculator x z ≤
      t.distance_calculator x y + t.distance_calculator y z := by
    rw [hdc]
    exact hmet.2.2.2
  have hsub : (subItems t 0).Perm items := by
    have h := builtRaw_sub_root t _ hbr
    rw [List.map_map] at h
    have hcomp : (Prod.fst ∘ fun i : α => (i, (⊤ : Dist))) = id := rfl
    rw [hcomp, List.map_id] at h
    exact h
  obtain ⟨nn, hrun, hval, hdisj⟩ := knn_core t needle k hk hLay hPart hSym hTri
  have hposall : ∀ pr ∈ nn, pr.2 ∈ posItems t 0 := by
    intro pr hpr
    rcases hdisj with ⟨hl, hsnd⟩ | ⟨heqk, hsort, R, hvp, hbd⟩
    · exact hsnd.mem_iff.mp (List.mem_map_of_mem Prod.snd hpr)
    · exact hvp.mem_iff.mpr
        (List.mem_append.mpr (Or.inl (List.mem_map_of_mem Prod.snd hpr)))
  have hresolve : ∀ pr ∈ nn, ∃ x, t.itemAt pr.2 = some x := fun pr hpr =>
    ((posMem t hLay 0 (root_lt t) pr.2 (hposall pr hpr)).imp
      (fun x hx => hx.1))
  obtain ⟨res, hmapm, hmap⟩ := mapM_resolve t nn hresolve
  have hfk : t.find_k_nearest_neighbors needle k = some res := by
    unfold VPTree.find_k_nearest_neighbors
    rw [hrun]
    simp only []
    exact hmapm
  have hlenres : res.length = nn.length := by
    have h := congrArg List.length hmap
    rw [List.length_map, List.length_map] at h
    exact h
  have hfst : res.map Prod.fst = nn.map Prod.fst := by
    have h := congrArg (List.map Prod.fst) hmap
    rw [List.map_map, List.map_map] at h
    exact h
  have hpairs : ∀ q ∈ res, q.1 = dc needle q.2 ∧ q.2 ∈ items := by
    intro q hq
    have hfq : ((q.1, some q.2) : Dist × Option α) ∈
        res.map (fun q : Dist × α => (q.1, some q.2)) :=
      List.mem_map_of_mem _ hq
    rw [hmap] at hfq
    obtain ⟨pr, hpr, hpre⟩ := List.mem_map.mp hfq
    have h1 : pr.1 = q.1 := congrArg Prod.fst hpre
    have h2 : t.itemAt pr.2 = some q.2 := congrArg Prod.snd hpre
    constructor
    · have hv := hval pr hpr
      rw [pdist_some t needle pr.2 q.2 h2, hdc] at hv
      rw [← h1, ← hv]
    · obtain ⟨x, hx, hxsub⟩ := posMem t hLay 0 (root_lt t) pr.2
        (hposall pr hpr)
      have hxq : x = q.2 := Option.some.inj (hx.symm.trans h2)
      exact hxq ▸ (hsub.mem_iff.mp hxsub)
  have hlenpos : (posItems t 0).length = items.length := by
    rw [posItems_len_eq t hLay]
    exact hsub.length_eq
  have hpbridge := posBridge t hLay (2 ^ (t.depth + 1) - 1) 0 (root_lt t)
    (by omega)
  have hdm : (posItems t 0).map (fun p => VPTree.pdist t needle p) =
      (subItems t 0).map (fun x => dc needle x) := by
    have h := filter_map_corr (posItems t 0) (subItems t 0)
      (fun p => t.itemAt p) (fun _ => true) (fun _ => true)
      (fun p => VPTree.pdist t needle p) (fun x => dc needle x)
      hpbridge
      (by
        intro p x hx
        refine ⟨rfl, ?_⟩
        show VPTree.pdist t needle p = dc needle x
        rw [pdist_some t needle p x hx, hdc])
    rw [List.filter_true, List.filter_true] at h
    exact h
  rcases hdisj with ⟨hl, hsnd⟩ | ⟨heqk, hsort, R, hvp, hbd⟩
  · have hnl : nn.length = items.length := by
      have h := hsnd.length_eq
      rw [List.length_map, hlenpos] at h
      exact h
    have hmin : min k items.length = items.length := by omega
    refine ⟨t, res, hnew, hfk, ?_, ?_, ?_, hpairs⟩
    · rw [hlenres, hnl, hmin]
    · rw [hfst, hmin]
      have hksm : (kSmallest items.length (items.map (dc needle))).Perm
          (items.map (dc needle)) := kSmallest_all (by rw [List.length_map])
      have hnnfst : nn.map Prod.fst =
          (nn.map Prod.snd).map (fun p => VPTree.pdist t needle p) := by
        rw [List.map_map]
        exact (List.map_congr_left (fun pr hpr => hval pr hpr)).symm
      have hstep : ((nn.map Prod.snd).map
          (fun p => VPTree.pdist t needle p)).Perm
            ((posItems t 0).map (fun p => VPTree.pdist t needle p)) :=
        hsnd.map _
      have h2 : ((posItems t 0).map (fun p => VPTree.pdist t needle p)).Perm
          (items.map (dc needle)) := by
        rw [hdm]
        exact hsub.map _
      rw [hnnfst]
      exact (hstep.trans h2).trans hksm.symm
    · intro hkle
      exact absurd hkle (by omega)
  · have hRlen : items.length = k + R.length := by
      have h := hvp.length_eq
      rw [List.length_append, List.length_map, heqk] at h
      rw [← hlenpos]
      exact h
    have hmin : min k items.length = k := by omega
    refine ⟨t, res, hnew, hfk, ?_, ?_, ?_, hpairs⟩
    · rw [hlenres, heqk, hmin]
    · rw [hfst, hmin]
      have hS : (nn.map Prod.fst).Sorted (· ≤ ·) := (sorted_fst_iff nn).mp hsort
      have hST : ∀ a ∈ nn.map Prod.fst,
          ∀ b ∈ R.map (fun p => VPTree.pdist t needle p), a ≤ b := by
        intro a ha b hb
        obtain ⟨pr, hpr, hpre⟩ := List.mem_map.mp ha
        obtain ⟨p, hp, hpe⟩ := List.mem_map.mp hb
        rw [← hpre, ← hpe]
        exact hbd p hp pr hpr
      have hexact := kSmallest_exact (nn.map Prod.fst)
        (R.map (fun p => VPTree.pdist t needle p)) hS hST
      rw [List.length_map, heqk] at hexact
      have h3 : (nn.map Prod.snd ++ R).map
          (fun p => VPTree.pdist t needle p) =
            nn.map Prod.fst ++ R.map (fun p => VPTree.pdist t needle p) := by
        rw [List.map_append]
        congr 1
        rw [List.map_map]
        exact List.map_congr_left (fun pr hpr => hval pr hpr)
      have hcong : kSmallest k (items.map (dc needle)) =
          kSmallest k (nn.map Prod.fst ++
            R.map (fun p => VPTree.pdist t needle p)) := by
        apply kSmallest_congr
        have h1 : (items.map (dc needle)).Perm
            ((posItems t 0).map (fun p => VPTree.pdist t needle p)) := by
          rw [hdm]
          exact (hsub.map _).symm
        have h2 : ((posItems t 0).map
            (fun p => VPTree.pdist t needle p)).Perm
              ((nn.map Prod.snd ++ R).map
                (fun p => VPTree.pdist t needle p)) := hvp.map _
        have h4 := h1.trans h2
        rw [h3] at h4
        exact h4
      rw [hcong, hexact]
    · intro hkle
      rw [sorted_fst_iff, hfst]
      exact (sorted_fst_iff nn).mp hsort

/-- Claim C2 witness: on four points of `Fin 4`, needle `1` and `k = 2`, the
amended k-nearest statement holds concretely. -/
theorem C2_witness :
    ∃ t res, VPTree.new ([0, 1, 2, 3] : List (Fin 4)) dF = some t ∧
      t.find_k_nearest_neighbors 1 2 = some res ∧
      res.length = min 2 ([0, 1, 2, 3] : List (Fin 4)).length ∧
      (res.map Prod.fst).Perm
        (kSmallest (min 2 ([0, 1, 2, 3] : List (Fin 4)).length)
          (([0, 1, 2, 3] : List (Fin 4)).map (dF 1))) ∧
      (2 ≤ ([0, 1, 2, 3] : List (Fin 4)).length →
        res.Sorted (fun a b => a.1 ≤ b.1)) ∧
      ∀ q ∈ res, q.1 = dF 1 q.2 ∧ q.2 ∈ ([0, 1, 2, 3] : List (Fin 4)) :=
  C2_amended [0, 1, 2, 3] dF 1 2 (by decide) (by decide) (by decide)

end VPT
